import Mathlib

/-!
Verification of the K&R-style memory allocator in `src/malloc.c`.

The program is shallowly embedded: memory is addressed in units of one
block header (`sizeof(Header)` bytes, 16 on an LP64 target, since the
header is a union of `{Header *ptr; unsigned size;}` with `long`
alignment).  A header is a pair of a `ptr` field (the unit address of the
next free block) and a `size` field (the block size in units, a C
`unsigned`, hence reduced mod 2^32 on every store).  The static sentinel
`base` lives at unit address 0, below the arena, which matches the usual
placement of statics below the program break; the arena starts at unit
address 1 and grows upward via `sbrk` (the non-MMAP build), modelled by a
`brk` cursor and a `limit` beyond which `sbrk` fails.  Payload bytes are
kept in a separate byte-addressed store `data`; `memcpy` acts on it.
All loops of the C source are modelled with explicit fuel; running out of
fuel yields `none`, which is distinct from the NULL results of the C
functions (those are `some (s, none)`).
-/

namespace KRMalloc

/-- 2^32, one past the largest C `unsigned` value. -/
def UMAX : Nat := 2 ^ 32

/-- 2^64, one past the largest C `size_t` value. -/
def SMAX : Nat := 2 ^ 64

/-- Reduction applied on every store into the C `unsigned` size field. -/
def truncU (x : Nat) : Nat := x % UMAX

/-- `sizeof(Header)` on an LP64 target: the header union contains a
pointer (8 bytes) and an `unsigned` (4 bytes) padded to `long` alignment. -/
def unitSize : Nat := 16

/-- `NALLOC`, the minimum number of units requested from the system. -/
def NALLOC : Nat := 1024

/-- The `union header`: `s.ptr` is the unit address of the next free
block, `s.size` the size of this block in units. -/
structure Header where
  ptr : Nat
  size : Nat
deriving DecidableEq, Repr

/-- The header store: a total map from unit addresses to headers. -/
abbrev Mem := Nat → Header

/-- Store into the `ptr` field of the header at address `a`. -/
def setPtr (m : Mem) (a v : Nat) : Mem :=
  fun x => if x = a then ⟨v, (m a).size⟩ else m x

/-- Store into the `size` field of the header at address `a`. -/
def setSize (m : Mem) (a v : Nat) : Mem :=
  fun x => if x = a then ⟨(m a).ptr, v⟩ else m x

/-- Allocator state: the header store, the payload byte store, the free
list cursor `freep` (`none` models the NULL initial value), the current
program break `brk` (unit address of the next fresh arena unit) and the
`limit` at which `sbrk` starts failing. -/
structure St where
  mem : Mem
  data : Nat → Nat
  freep : Option Nat
  brk : Nat
  limit : Nat

/-- The position-finding loop of `free` (malloc.c lines 56-58): starting
at `p`, follow `s.ptr` links until the freed block `bp` lies strictly
between `p` and `p->s.ptr`, or until `p` is the wraparound block
(`p >= p->s.ptr`) and `bp` lies beyond the top or below the bottom of the
arena. -/
def findPos (m : Mem) (bp : Nat) : Nat → Nat → Option Nat
  | 0, _ => none
  | fuel + 1, p =>
    if bp > p ∧ bp < (m p).ptr then some p
    else if p ≥ (m p).ptr ∧ (bp > p ∨ bp < (m p).ptr) then some p
    else findPos m bp fuel ((m p).ptr)

/-- Lines 60-65 of malloc.c, with `bp` the freed block and `p` the block
found by the position loop: join `bp` to its upper neighbour if
`bp + bp->s.size == p->s.ptr`, else just link `bp` at `p->s.ptr`. -/
def freeMergeUp (m : Mem) (bp p : Nat) : Mem :=
  if bp + (m bp).size = (m p).ptr then
    let m' := setSize m bp (truncU ((m bp).size + (m ((m p).ptr)).size))
    setPtr m' bp ((m' ((m' p).ptr)).ptr)
  else
    setPtr m bp ((m p).ptr)

/-- Lines 67-71 of malloc.c, acting on the store `m1` left by the
upper-neighbour phase. -/
def freeMergeDown (m1 : Mem) (bp p : Nat) : Mem :=
  if p + (m1 p).size = bp then
    let m' := setSize m1 p (truncU ((m1 p).size + (m1 bp).size))
    setPtr m' p ((m' bp).ptr)
  else
    setPtr m1 p bp

/-- Lines 60-72 of malloc.c: both phases in sequence. -/
def freeMerge (m : Mem) (bp p : Nat) : Mem :=
  freeMergeDown (freeMergeUp m bp p) bp p

/-- `free(ap)` (malloc.c lines 49-74).  A NULL argument is a no-op.  The
block header is recovered one unit below the user pointer, the insertion
point is located with `findPos`, the block is joined to its upper
neighbour if contiguous (lines 60-63) and to its lower neighbour if
contiguous (lines 67-71), and `freep` is left at the insertion point.
Calling `free` with a NULL `freep` dereferences NULL in C; that is
modelled as the stuck result `none`, as is running out of fuel. -/
def freeOp (fuel : Nat) (s : St) (ap : Option Nat) : Option St :=
  match ap with
  | none => some s
  | some a =>
    match s.freep with
    | none => none
    | some f =>
      let bp := a - 1
      match findPos s.mem bp fuel f with
      | none => none
      | some p => some { s with mem := freeMerge s.mem bp p, freep := some p }

/-- `morecore(nu)` (malloc.c lines 95-126), non-MMAP build: round the
request up to `NALLOC` units, obtain the units from `sbrk` (which fails
when the break would exceed `limit`), stamp the new block's size and fold
it into the free list by calling `free` on it.  Returns the (new) value
of `freep` on success, NULL (`some (s, none)`) on exhaustion. -/
def morecore (fuel : Nat) (s : St) (nu0 : Nat) : Option (St × Option Nat) :=
  let nu := if nu0 < NALLOC then NALLOC else nu0
  if s.brk + nu > s.limit then some (s, none)
  else
    let cp := s.brk
    let s1 : St := { s with brk := s.brk + nu, mem := setSize s.mem cp (truncU nu) }
    match freeOp fuel s1 (some (cp + 1)) with
    | none => none
    | some s2 => some (s2, s2.freep)

/-- `nunits = (nbytes+sizeof(Header)-1)/sizeof(Header) + 1`
(malloc.c line 152): the addition happens in `size_t` (mod 2^64) and the
result is stored into the `unsigned` local `nunits` (mod 2^32). -/
def nunitsOf (nbytes : Nat) : Nat :=
  truncU ((nbytes + unitSize - 1) % SMAX / unitSize + 1)

/-- First-use bootstrap of the free list (malloc.c lines 154-157):
`base.s.ptr = freep = prevp = &base; base.s.size = 0`. -/
def bootstrap (s : St) : St :=
  { s with mem := setSize (setPtr s.mem 0 0) 0 0, freep := some 0 }

/-- The `STRATEGY_FIRST` scan loop of `malloc` (malloc.c lines 160-176).
`prevp` and `p` are the C loop variables.  An exactly fitting block is
unlinked; a larger block is split by shrinking it and carving the
requested units from its upper end; on wrapping around to `freep` the
loop asks `morecore` for more memory and continues from the returned
cursor. -/
def mallocLoopFirst : Nat → St → Nat → Nat → Nat → Option (St × Option Nat)
  | 0, _, _, _, _ => none
  | fuel + 1, s, nunits, prevp, p =>
    if (s.mem p).size ≥ nunits then
      if (s.mem p).size = nunits then
        some ({ s with mem := setPtr s.mem prevp ((s.mem p).ptr),
                       freep := some prevp }, some (p + 1))
      else
        let m1 := setSize s.mem p ((s.mem p).size - nunits)
        let p2 := p + (m1 p).size
        let m2 := setSize m1 p2 (truncU nunits)
        some ({ s with mem := m2, freep := some prevp }, some (p2 + 1))
    else if some p = s.freep then
      match morecore fuel s nunits with
      | none => none
      | some (s', none) => some (s', none)
      | some (s', some f) => mallocLoopFirst fuel s' nunits f ((s'.mem f).ptr)
    else
      mallocLoopFirst fuel s nunits p ((s.mem p).ptr)

/-- `malloc(nbytes)` built with `STRATEGY == STRATEGY_FIRST`
(malloc.c lines 143-177). -/
def mallocFirst (fuel : Nat) (s : St) (nbytes : Nat) : Option (St × Option Nat) :=
  if nbytes = 0 then some (s, none)
  else
    let nunits := nunitsOf nbytes
    let start : St × Nat :=
      match s.freep with
      | none => (bootstrap s, 0)
      | some f => (s, f)
    mallocLoopFirst fuel start.1 nunits start.2 ((start.1.mem start.2).ptr)

/-- The candidate update of the best-fit scan (malloc.c lines 188-193),
as a function of the accumulated candidate `p_best`/`prevp_best`. -/
def bestUpd (m : Mem) (nunits p prevp : Nat) : Option (Nat × Nat) → Option (Nat × Nat)
  | none => if (m p).size > nunits then some (p, prevp) else none
  | some (pb, ppb) =>
    if (m p).size < (m pb).size then
      (if (m p).size > nunits then some (p, prevp) else some (pb, ppb))
    else some (pb, ppb)

/-- The `STRATEGY_BEST` scan loop of `malloc` (malloc.c lines 181-208).
`best` carries the C variables `p_best`/`prevp_best` (`none` models
`p_best == NULL`).  An exact fit returns immediately; otherwise the
smallest block larger than `nunits` seen so far is tracked, and on
wrapping around either that candidate is split (lines 204-208) or
`morecore` is asked for more memory. -/
def mallocLoopBest : Nat → St → Nat → Nat → Nat → Option (Nat × Nat) →
    Option (St × Option Nat)
  | 0, _, _, _, _, _ => none
  | fuel + 1, s, nunits, prevp, p, best =>
    if (s.mem p).size = nunits then
      some ({ s with mem := setPtr s.mem prevp ((s.mem p).ptr),
                     freep := some prevp }, some (p + 1))
    else
      let best' := bestUpd s.mem nunits p prevp best
      if some p = s.freep then
        match best' with
        | some (pb, ppb) =>
          let m1 := setSize s.mem pb ((s.mem pb).size - nunits)
          let p2 := pb + (m1 pb).size
          let m2 := setSize m1 p2 (truncU nunits)
          some ({ s with mem := m2, freep := some ppb }, some (p2 + 1))
        | none =>
          match morecore fuel s nunits with
          | none => none
          | some (s', none) => some (s', none)
          | some (s', some f) => mallocLoopBest fuel s' nunits f ((s'.mem f).ptr) none
      else
        mallocLoopBest fuel s nunits p ((s.mem p).ptr) best'

/-- `malloc(nbytes)` built with `STRATEGY == STRATEGY_BEST`
(malloc.c lines 143-157 and 179-210). -/
def mallocBest (fuel : Nat) (s : St) (nbytes : Nat) : Option (St × Option Nat) :=
  if nbytes = 0 then some (s, none)
  else
    let nunits := nunitsOf nbytes
    let start : St × Nat :=
      match s.freep with
      | none => (bootstrap s, 0)
      | some f => (s, f)
    mallocLoopBest fuel start.1 nunits start.2 ((start.1.mem start.2).ptr) none

/-- `memcpy(dst, src, n)` on the byte store. -/
def memcpyB (d : Nat → Nat) (dst src n : Nat) : Nat → Nat :=
  fun i => if dst ≤ i ∧ i < dst + n then d (src + (i - dst)) else d i

/-- `realloc(ptr, size)` (malloc.c lines 219-243), linked against the
first-fit `malloc`.  A NULL pointer delegates to `malloc`; size 0 frees
the pointer and returns NULL; otherwise a new block is allocated, and if
that succeeded, `min(size, sizeof(Header)*(oldSizeInUnits-1))` payload
bytes are copied (the subtraction `ptr_h->s.size - 1` happens in
`unsigned` arithmetic) and the old pointer is freed.  User pointers are
unit addresses; the corresponding byte address is `a * unitSize`. -/
def reallocFirst (fuel : Nat) (s : St) (ptr : Option Nat) (size : Nat) :
    Option (St × Option Nat) :=
  match ptr with
  | none => mallocFirst fuel s size
  | some a =>
    if size = 0 then
      match freeOp fuel s (some a) with
      | none => none
      | some s' => some (s', none)
    else
      match mallocFirst fuel s size with
      | none => none
      | some (s1, none) => some (s1, none)
      | some (s1, some np) =>
        let ptr_size := unitSize * truncU ((s1.mem (a - 1)).size + (UMAX - 1))
        let min_size := if size < ptr_size then size else ptr_size
        let s2 : St :=
          { s1 with data := memcpyB s1.data (np * unitSize) (a * unitSize) min_size }
        match freeOp fuel s2 (some a) with
        | none => none
        | some s3 => some (s3, some np)

/-! ### Ghost-level notions used to state and prove the claims -/

/-- A block as tracked by the verification: unit address and size in units. -/
abbrev Blk := Nat × Nat

/-- The unit spans of two blocks do not overlap. -/
def spanDisj (x y : Blk) : Prop := x.1 + x.2 ≤ y.1 ∨ y.1 + y.2 ≤ x.1

/-- `x` ends strictly below the start of `y`: the blocks are disjoint and
not even contiguous. -/
def gapR (x y : Blk) : Prop := x.1 + x.2 < y.1

/-- The free-list invariant.  `fl` lists the free blocks in ascending
address order starting with the sentinel `base` at address 0; `al` lists
the outstanding allocated blocks (in no particular order). -/
structure Inv (s : St) (fl al : List Blk) : Prop where
  base_head : fl.head? = some (0, 0)
  gaps : fl.Pairwise gapR
  ptr_chain : fl.Chain' (fun x y => (s.mem x.1).ptr = y.1)
  ptr_last : (s.mem (fl.getLastD (0, 0)).1).ptr = 0
  size_ok : ∀ b ∈ fl, (s.mem b.1).size = b.2
  fl_bounds : ∀ b ∈ fl, b = (0, 0) ∨ (1 ≤ b.1 ∧ 1 ≤ b.2 ∧ b.1 + b.2 ≤ s.brk)
  freep_cur : ∃ f, s.freep = some f ∧ f ∈ fl.map Prod.fst
  al_ok : ∀ b ∈ al, 1 ≤ b.1 ∧ 1 ≤ b.2 ∧ b.1 + b.2 ≤ s.brk ∧ (s.mem b.1).size = b.2
  al_disj : al.Pairwise spanDisj
  fl_al_disj : ∀ x ∈ fl, ∀ y ∈ al, spanDisj x y
  brk_pos : 1 ≤ s.brk
  brk_le : s.brk ≤ s.limit
  limit_lt : s.limit < UMAX

/-- Walk `k` steps along the `ptr` links starting at address `p`. -/
def walkFrom (s : St) (p : Nat) : Nat → List Nat
  | 0 => []
  | k + 1 => p :: walkFrom s ((s.mem p).ptr) k

/-- Insert block `B` into the address-sorted free list, merging with the
upper neighbour when `B` ends exactly where it begins and with the lower
neighbour when that one ends exactly where `B` begins.  This is the
specification-level description of `free`'s insert-with-coalesce. -/
def insCoal : List Blk → Blk → List Blk
  | [], B => [B]
  | [x], B =>
    if x.1 + x.2 = B.1 then [(x.1, x.2 + B.2)] else [x, B]
  | x :: y :: rest, B =>
    if B.1 < y.1 then
      if B.1 + B.2 = y.1 then
        if x.1 + x.2 = B.1 then (x.1, x.2 + B.2 + y.2) :: rest
        else x :: (B.1, B.2 + y.2) :: rest
      else
        if x.1 + x.2 = B.1 then (x.1, x.2 + B.2) :: y :: rest
        else x :: B :: y :: rest
    else
      x :: insCoal (y :: rest) B

/-- Specification-level first-fit scan: the first block of size at least
`nunits` in scan order, together with the address of the block scanned
just before it (`prev` for the head). -/
def ffScan (nunits prev : Nat) : List Blk → Option (Blk × Nat)
  | [] => none
  | b :: rest => if nunits ≤ b.2 then some (b, prev) else ffScan nunits b.1 rest

/-- Specification-level best-fit scan, mirroring the source's accumulator
update: an exact fit aborts the scan (`Sum.inr`), otherwise the smallest
block strictly larger than `nunits` is tracked. -/
def bfScan (nunits : Nat) (prev : Nat) (best : Option (Blk × Nat)) :
    List Blk → (Option (Blk × Nat)) ⊕ (Blk × Nat)
  | [] => Sum.inl best
  | b :: rest =>
    if b.2 = nunits then Sum.inr (b, prev)
    else
      let cond : Bool := match best with
        | none => true
        | some (pb, _) => decide (b.2 < pb.2)
      let best' := if cond then (if b.2 > nunits then some (b, prev) else best)
        else best
      bfScan nunits b.1 best' rest

/-- The ring-integrity property of claim C3: walking from the cursor for
one revolution visits exactly the free blocks (a rotation of the
address-sorted list, hence strictly increasing addresses except at the
single wraparound), with no repetition, and returns to the cursor. -/
def RingIntegrity (s : St) (fl : List Blk) : Prop :=
  ∃ f, s.freep = some f ∧
    (walkFrom s f fl.length).IsRotated (fl.map Prod.fst) ∧
    (walkFrom s f fl.length).Nodup ∧
    (fl.map Prod.fst).Chain' (· < ·) ∧
    (s.mem ((walkFrom s f fl.length).getLastD 0)).ptr = f

/-- Operations for exercising the allocator: `release k` and `resize k n`
act on the `k`-th outstanding allocation (a NULL pointer when out of
range, matching a program that frees only what it allocated). -/
inductive Op where
  | alloc (n : Nat)
  | release (k : Nat)
  | resize (k n : Nat)

/-- Fuel budget amply sufficient for one operation: the ring never has
more than `limit` blocks. -/
def fuelFor (s : St) : Nat := 3 * s.limit + 32

/-- Run a single operation, maintaining the ghost list of outstanding
allocated blocks. -/
def runOp (g : St × List Blk) : Op → Option (St × List Blk)
  | .alloc n =>
    match mallocFirst (fuelFor g.1) g.1 n with
    | none => none
    | some (s', none) => some (s', g.2)
    | some (s', some r) => some (s', (r - 1, nunitsOf n) :: g.2)
  | .release k =>
    if h : k < g.2.length then
      match freeOp (fuelFor g.1) g.1 (some ((g.2.get ⟨k, h⟩).1 + 1)) with
      | none => none
      | some s' => some (s', g.2.eraseIdx k)
    else
      match freeOp (fuelFor g.1) g.1 none with
      | none => none
      | some s' => some (s', g.2)
  | .resize k n =>
    if h : k < g.2.length then
      match reallocFirst (fuelFor g.1) g.1 (some ((g.2.get ⟨k, h⟩).1 + 1)) n with
      | none => none
      | some (s', none) =>
        if n = 0 then some (s', g.2.eraseIdx k) else some (s', g.2)
      | some (s', some r) => some (s', (r - 1, nunitsOf n) :: g.2.eraseIdx k)
    else
      match reallocFirst (fuelFor g.1) g.1 none n with
      | none => none
      | some (s', none) => some (s', g.2)
      | some (s', some r) => some (s', (r - 1, nunitsOf n) :: g.2)

/-- Run a sequence of operations. -/
def run : List Op → (St × List Blk) → Option (St × List Blk)
  | [], g => some g
  | op :: ops, g =>
    match runOp g op with
    | none => none
    | some g' => run ops g'

/-- The pristine process state: all statics zeroed, `freep` NULL, an
arena starting at unit address 1 that can grow to `L` units. -/
def initSt (L : Nat) : St :=
  { mem := fun _ => ⟨0, 0⟩, data := fun _ => 0, freep := none, brk := 1, limit := L }

/-- State before the free list was ever initialized. -/
def PreInit (s : St) : Prop :=
  s.freep = none ∧ 1 ≤ s.brk ∧ s.brk ≤ s.limit ∧ s.limit < UMAX

/-- Induction invariant for `run`: either still uninitialized with
nothing allocated, or the free-list invariant holds. -/
def GhostOk (g : St × List Blk) : Prop :=
  (PreInit g.1 ∧ g.2 = []) ∨ ∃ fl, Inv g.1 fl g.2

/-- Request sizes far from the `unsigned` truncation threshold. -/
def goodOp : Op → Prop
  | .alloc n => n ≤ 2 ^ 35
  | .release _ => True
  | .resize _ n => n ≤ 2 ^ 35

/-- Result projection: the returned pointer. -/
def retOf (r : Option (St × Option Nat)) : Option (Option Nat) := r.map Prod.snd

/-- Result projection: the recorded size field at address `a` in the
final state. -/
def memSizeAt (r : Option (St × Option Nat)) (a : Nat) : Option Nat :=
  r.map (fun p => (p.1.mem a).size)

/-- The result of a successful first-fit find at the block `T` whose scan
predecessor has address `pvT` (malloc.c lines 161-171, and the
specification's placement rule): an exactly fitting block is unlinked
whole by pointing the predecessor past it; a larger block is split by
decrementing its size by `nunits` and carving the allocated block of
exactly `nunits` units from its upper end, the shrunk remainder staying
on the ring; either way the cursor is left at the predecessor and the
reference just past the chosen header is returned. -/
def ffResult (s : St) (nunits : Nat) (T : Blk) (pvT : Nat) : St × Option Nat :=
  if (s.mem T.1).size = nunits then
    ({ s with mem := setPtr s.mem pvT ((s.mem T.1).ptr),
              freep := some pvT }, some (T.1 + 1))
  else
    let m1 := setSize s.mem T.1 ((s.mem T.1).size - nunits)
    let p2 := T.1 + (m1 T.1).size
    let m2 := setSize m1 p2 (truncU nunits)
    ({ s with mem := m2, freep := some pvT }, some (p2 + 1))

/-- The best-fit exact-match result (malloc.c lines 182-185): unlink the
block at `T` whole, cursor to its scan predecessor `pvT`. -/
def bestExact (s : St) (T pvT : Nat) : St × Option Nat :=
  ({ s with mem := setPtr s.mem pvT ((s.mem T).ptr),
            freep := some pvT }, some (T + 1))

/-- The best-fit split of the recorded candidate `pb` with its
predecessor `ppb` (malloc.c lines 204-208), exactly first-fit's split. -/
def bestSplit (s : St) (nunits pb ppb : Nat) : St × Option Nat :=
  let m1 := setSize s.mem pb ((s.mem pb).size - nunits)
  let p2 := pb + (m1 pb).size
  let m2 := setSize m1 p2 (truncU nunits)
  ({ s with mem := m2, freep := some ppb }, some (p2 + 1))

/-- Address view of the best-fit accumulator: the C loop carries only the
candidate's and its predecessor's addresses. -/
def accAddr (acc : Option (Blk × Nat)) : Option (Nat × Nat) :=
  acc.map (fun x => (x.1.1, x.2))

instance : IsTrans Blk gapR :=
  ⟨fun a b c hab hbc => by
    simp only [gapR] at *
    omega⟩

/-- Linking relation of the free list in a given header store. -/
def ptrLink (m : Mem) (x y : Blk) : Prop := (m x.1).ptr = y.1

/-- The stopping condition of `free`'s position loop at block `b`. -/
def stopCond (m : Mem) (bp : Nat) (b : Blk) : Prop :=
  (bp > b.1 ∧ bp < (m b.1).ptr) ∨ (b.1 ≥ (m b.1).ptr ∧ (bp > b.1 ∨ bp < (m b.1).ptr))

/-- A small concrete allocator state: the sentinel at 0 and one free
block of 6 units at address 5, cursor at the sentinel. -/
def cexSt : St :=
  { mem := fun a => if a = 0 then ⟨5, 0⟩ else if a = 5 then ⟨0, 6⟩ else ⟨0, 0⟩,
    data := fun _ => 0, freep := some 0, brk := 20, limit := 100 }

instance (x y : Blk) : Decidable (gapR x y) :=
  inferInstanceAs (Decidable (x.1 + x.2 < y.1))

instance (x y : Blk) : Decidable (spanDisj x y) :=
  inferInstanceAs (Decidable (_ ∨ _))

/-- An initialized allocator whose arena is already at its limit. -/
def failSt : St :=
  { mem := fun a => if a = 0 then ⟨5, 0⟩ else if a = 5 then ⟨0, 6⟩ else ⟨0, 0⟩,
    data := fun _ => 0, freep := some 0, brk := 20, limit := 20 }

/-- An allocator with the sentinel, a free block of 4 units at 1, and an
outstanding 3-unit allocation at 5 that is contiguous with it. -/
def relSt : St :=
  { mem := fun a => if a = 0 then ⟨1, 0⟩ else if a = 1 then ⟨0, 4⟩
      else if a = 5 then ⟨0, 3⟩ else ⟨0, 0⟩,
    data := fun _ => 0, freep := some 0, brk := 8, limit := 100 }

/-- An initialized allocator with two free blocks after the sentinel, of
sizes 6 and 4 units, for exercising the best-fit choice. -/
def bestSt : St :=
  { mem := fun a => if a = 0 then ⟨2, 0⟩ else if a = 2 then ⟨9, 6⟩
                    else if a = 9 then ⟨0, 4⟩ else ⟨0, 0⟩,
    data := fun _ => 0, freep := some 0, brk := 13, limit := 100 }

/-! ### Easy claims: zero-size requests, NULL release, realloc edge cases -/

/-- Claim C9: `allocate(0)` always returns null immediately, without
consulting or mutating the free list: the state (hence the ring shape and
the cursor) is unchanged, under both placement strategies. -/
theorem malloc_zero_null (fuel : Nat) (s : St) :
    mallocFirst fuel s 0 = some (s, none) ∧ mallocBest fuel s 0 = some (s, none) :=
  ⟨rfl, rfl⟩

/-- Claim C10: `release(null)` is a no-op: the state (hence the ring and
the cursor) is returned unchanged. -/
theorem free_null_noop (fuel : Nat) (s : St) : freeOp fuel s none = some s := rfl

/-- Claim C8: `resize(null, n)` behaves exactly as `allocate(n)`, and
`resize(ref, 0)` behaves exactly as `release(ref)` followed by returning
null. -/
theorem realloc_null_and_zero (fuel : Nat) (s : St) (a size : Nat) :
    reallocFirst fuel s none size = mallocFirst fuel s size ∧
    reallocFirst fuel s (some a) 0 =
      (freeOp fuel s (some a)).map (fun s' => (s', none)) := by
  refine ⟨rfl, ?_⟩
  cases h : freeOp fuel s (some a) <;> simp [reallocFirst, h]

/-! ### Claim C1: the nunits computation and the success postcondition -/

/-- Size postcondition of the first-fit scan loop: any returned block has
its recorded size equal to `nunits` (for `nunits` within `unsigned`
range). -/
theorem mallocLoopFirst_size {nunits : Nat} (hU : nunits < UMAX) :
    ∀ fuel s prevp p s' r,
      mallocLoopFirst fuel s nunits prevp p = some (s', some r) →
      1 ≤ r ∧ (s'.mem (r - 1)).size = nunits := by
  intro fuel
  induction fuel with
  | zero => intro s prevp p s' r h; exact absurd h (by simp [mallocLoopFirst])
  | succ fuel ih =>
    intro s prevp p s' r h
    rw [mallocLoopFirst] at h
    split at h
    · split at h
      · rename_i hge heq
        simp only [Option.some.injEq, Prod.mk.injEq] at h
        obtain ⟨hs, hr⟩ := h
        cases hr
        subst hs
        refine ⟨Nat.le_add_left 1 p, ?_⟩
        simp only [Nat.add_sub_cancel, setPtr]
        split
        · rename_i hpp; rw [hpp] at heq ⊢; exact heq
        · exact heq
      · rename_i hge hne
        simp only [Option.some.injEq, Prod.mk.injEq] at h
        obtain ⟨hs, hr⟩ := h
        cases hr
        subst hs
        refine ⟨Nat.le_add_left 1 _, ?_⟩
        simp only [Nat.add_sub_cancel, setSize, if_pos rfl]
        exact Nat.mod_eq_of_lt hU
    · split at h
      · rename_i hwrap
        cases hm : morecore fuel s nunits with
        | none => rw [hm] at h; exact absurd h (by simp)
        | some q =>
          obtain ⟨s1, f?⟩ := q
          cases f? with
          | none => rw [hm] at h; simp at h
          | some f => rw [hm] at h; exact ih s1 f ((s1.mem f).ptr) s' r h
      · exact ih s p ((s.mem p).ptr) s' r h

/-- Size postcondition of the best-fit scan loop. -/
theorem mallocLoopBest_size {nunits : Nat} (hU : nunits < UMAX) :
    ∀ fuel s prevp p best s' r,
      mallocLoopBest fuel s nunits prevp p best = some (s', some r) →
      1 ≤ r ∧ (s'.mem (r - 1)).size = nunits := by
  intro fuel
  induction fuel with
  | zero => intro s prevp p best s' r h; exact absurd h (by simp [mallocLoopBest])
  | succ fuel ih =>
    intro s prevp p best s' r h
    rw [mallocLoopBest] at h
    split at h
    · rename_i heq
      simp only [Option.some.injEq, Prod.mk.injEq] at h
      obtain ⟨hs, hr⟩ := h
      cases hr
      subst hs
      refine ⟨Nat.le_add_left 1 p, ?_⟩
      simp only [Nat.add_sub_cancel, setPtr]
      split
      · rename_i hpp; rw [hpp] at heq ⊢; exact heq
      · exact heq
    · rcases hbu : bestUpd s.mem nunits p prevp best with - | ⟨pb, ppb⟩ <;>
        simp only [hbu] at h
      · split at h
        · cases hm : morecore fuel s nunits with
          | none => rw [hm] at h; exact absurd h (by simp)
          | some q =>
            obtain ⟨s1, f?⟩ := q
            cases f? with
            | none => rw [hm] at h; simp at h
            | some f => rw [hm] at h; exact ih s1 f ((s1.mem f).ptr) none s' r h
        · exact ih s p ((s.mem p).ptr) none s' r h
      · split at h
        · simp only [Option.some.injEq, Prod.mk.injEq] at h
          obtain ⟨hs, hr⟩ := h
          cases hr
          subst hs
          refine ⟨Nat.le_add_left 1 _, ?_⟩
          simp only [Nat.add_sub_cancel, setSize, if_pos rfl]
          exact Nat.mod_eq_of_lt hU
        · exact ih s p ((s.mem p).ptr) (some (pb, ppb)) s' r h

/-- For requests below the truncation threshold, `nunitsOf` is the
untruncated ceiling-plus-one and over-covers the request. -/
theorem nunitsOf_spec {n : Nat} (hn : 1 ≤ n) (hb : n ≤ 2 ^ 35) :
    nunitsOf n = (n + unitSize - 1) / unitSize + 1 ∧
    2 ≤ nunitsOf n ∧ nunitsOf n < UMAX ∧
    n ≤ (nunitsOf n - 1) * unitSize := by
  have hsm : (n + unitSize - 1) % SMAX = n + unitSize - 1 := by
    apply Nat.mod_eq_of_lt
    have : n + unitSize - 1 < 2 ^ 36 := by
      simp only [unitSize]; omega
    calc n + unitSize - 1 < 2 ^ 36 := this
      _ < SMAX := by norm_num [SMAX]
  have hq : (n + unitSize - 1) / unitSize + 1 < UMAX := by
    have h1 : (n + unitSize - 1) / unitSize ≤ (n + unitSize - 1) := Nat.div_le_self _ _
    have : n + unitSize - 1 < 2 ^ 36 := by simp only [unitSize]; omega
    have : (n + unitSize - 1) / unitSize < 2 ^ 36 := lt_of_le_of_lt h1 this
    simp only [UMAX]
    have h16 : (n + unitSize - 1) / unitSize = (n + 15) / 16 := by
      have h15 : n + unitSize - 1 = n + 15 := by simp only [unitSize]; omega
      rw [h15]
      simp only [unitSize]
    rw [h16]
    have : (n + 15) / 16 ≤ (2 ^ 35 + 15) / 16 := Nat.div_le_div_right (by omega)
    have h2 : (2 ^ 35 + 15) / 16 = 2 ^ 31 := by norm_num
    omega
  have he : nunitsOf n = (n + unitSize - 1) / unitSize + 1 := by
    simp only [nunitsOf, truncU, hsm]
    exact Nat.mod_eq_of_lt hq
  refine ⟨he, ?_, ?_, ?_⟩
  · rw [he]
    have : 0 < (n + unitSize - 1) / unitSize :=
      Nat.div_pos (by simp only [unitSize]; omega) (by norm_num [unitSize])
    omega
  · rw [he]; exact hq
  · rw [he]
    simp only [Nat.add_sub_cancel, unitSize]
    have hmod : (n + 15) % 16 < 16 := Nat.mod_lt _ (by norm_num)
    have hdm : 16 * ((n + 15) / 16) + (n + 15) % 16 = n + 15 := Nat.div_add_mod _ _
    omega

/-- Claim C1 (amended): for requests `n` with `1 ≤ n ≤ 2^35` (so that the
computed unit count fits the `unsigned` size field), `nunits` equals
`ceil(n / unitSize) + 1`, and whenever `allocate` (either strategy)
succeeds, the returned reference sits one unit past a header whose
recorded size is `nunits` (hence at least `nunits`), the usable region
`(nunits - 1) * unitSize` holds at least `n` bytes, and the returned byte
address `r * unitSize` is `unitSize`-aligned. -/
theorem malloc_success_usable (s : St) (n fuel : Nat) (hn : 1 ≤ n) (hb : n ≤ 2 ^ 35) :
    nunitsOf n = (n + unitSize - 1) / unitSize + 1 ∧
    2 ≤ nunitsOf n ∧
    n ≤ (nunitsOf n - 1) * unitSize ∧
    (∀ r, retOf (mallocFirst fuel s n) = some (some r) →
      memSizeAt (mallocFirst fuel s n) (r - 1) = some (nunitsOf n) ∧
      1 ≤ r ∧ unitSize ∣ r * unitSize) ∧
    (∀ r, retOf (mallocBest fuel s n) = some (some r) →
      memSizeAt (mallocBest fuel s n) (r - 1) = some (nunitsOf n) ∧
      1 ≤ r ∧ unitSize ∣ r * unitSize) := by
  obtain ⟨he, h2, hU, hcov⟩ := nunitsOf_spec hn hb
  refine ⟨he, h2, hcov, ?_, ?_⟩
  · intro r hr
    cases hres : mallocFirst fuel s n with
    | none => rw [hres] at hr; exact absurd hr (by simp [retOf])
    | some q =>
      obtain ⟨s', r?⟩ := q
      rw [hres] at hr
      have hr' : r? = some r := by simpa [retOf] using hr
      subst hr'
      have hloop : mallocLoopFirst fuel
          (match s.freep with | none => (bootstrap s, 0) | some f => (s, f)).1 (nunitsOf n)
          (match s.freep with | none => (bootstrap s, 0) | some f => (s, f)).2
          (((match s.freep with | none => (bootstrap s, 0) | some f => (s, f)).1.mem
            (match s.freep with | none => (bootstrap s, 0) | some f => (s, f)).2).ptr)
          = some (s', some r) := by
        have := hres
        rw [mallocFirst, if_neg (by omega)] at this
        exact this
      obtain ⟨h1, hsz⟩ := mallocLoopFirst_size hU fuel _ _ _ s' r hloop
      exact ⟨by simp [memSizeAt, hres, hsz], h1, dvd_mul_left unitSize r⟩
  · intro r hr
    cases hres : mallocBest fuel s n with
    | none => rw [hres] at hr; exact absurd hr (by simp [retOf])
    | some q =>
      obtain ⟨s', r?⟩ := q
      rw [hres] at hr
      have hr' : r? = some r := by simpa [retOf] using hr
      subst hr'
      have hloop : mallocLoopBest fuel
          (match s.freep with | none => (bootstrap s, 0) | some f => (s, f)).1 (nunitsOf n)
          (match s.freep with | none => (bootstrap s, 0) | some f => (s, f)).2
          (((match s.freep with | none => (bootstrap s, 0) | some f => (s, f)).1.mem
            (match s.freep with | none => (bootstrap s, 0) | some f => (s, f)).2).ptr)
          none = some (s', some r) := by
        have := hres
        rw [mallocBest, if_neg (by omega)] at this
        exact this
      obtain ⟨h1, hsz⟩ := mallocLoopBest_size hU fuel _ _ _ none s' r hloop
      exact ⟨by simp [memSizeAt, hres, hsz], h1, dvd_mul_left unitSize r⟩

/-! ### Store and invariant toolkit -/

@[simp] theorem setPtr_same (m : Mem) (a v : Nat) : (setPtr m a v) a = ⟨v, (m a).size⟩ := by
  simp [setPtr]

theorem setPtr_other (m : Mem) {a x : Nat} (v : Nat) (h : x ≠ a) :
    (setPtr m a v) x = m x := by simp [setPtr, h]

@[simp] theorem setSize_same (m : Mem) (a v : Nat) : (setSize m a v) a = ⟨(m a).ptr, v⟩ := by
  simp [setSize]

theorem setSize_other (m : Mem) {a x : Nat} (v : Nat) (h : x ≠ a) :
    (setSize m a v) x = m x := by simp [setSize, h]

theorem truncU_eq_of_lt {x : Nat} (h : x < UMAX) : truncU x = x := Nat.mod_eq_of_lt h

theorem gapR_fst_lt {a b : Blk} (h : gapR a b) : a.1 < b.1 := by
  simp only [gapR] at h; omega

namespace Inv

variable {s : St} {fl al : List Blk}

theorem fl_ne (h : Inv s fl al) : fl ≠ [] := by
  intro he
  have hb := h.base_head
  rw [he] at hb
  simp at hb

theorem sorted_fst (h : Inv s fl al) : (fl.map Prod.fst).Pairwise (· < ·) :=
  List.pairwise_map.mpr (h.gaps.imp gapR_fst_lt)

theorem nodup_fst (h : Inv s fl al) : (fl.map Prod.fst).Nodup :=
  (h.sorted_fst).imp Nat.ne_of_lt

theorem nodup (h : Inv s fl al) : fl.Nodup := (h.nodup_fst).of_map _

theorem addr_inj (h : Inv s fl al) {a b : Blk} (ha : a ∈ fl) (hb : b ∈ fl)
    (he : a.1 = b.1) : a = b := by
  have := List.inj_on_of_nodup_map h.nodup_fst
  exact this ha hb he

theorem size_lt (h : Inv s fl al) {b : Blk} (hb : b ∈ fl) : b.2 < UMAX := by
  rcases h.fl_bounds b hb with he | ⟨h1, h2, h3⟩
  · rw [he]; simp [UMAX]
  · have := h.brk_le; have := h.limit_lt; omega

theorem al_mem_ne_fst (h : Inv s fl al) {x y : Blk} (hx : x ∈ fl) (hy : y ∈ al)
    (hx2 : 1 ≤ x.2) : x.1 ≠ y.1 := by
  intro he
  have hd := h.fl_al_disj x hx y hy
  have := (h.al_ok y hy).2.1
  simp only [spanDisj] at hd
  omega

end Inv

/-- Elements of a list with pairwise strictly increasing and bounded
keys are no more numerous than the bound. -/
theorem length_le_of_sorted_bounded :
    ∀ (l : List Nat) (lo hi : Nat), l.Pairwise (· < ·) →
      (∀ x ∈ l, lo ≤ x ∧ x < hi) → l.length ≤ hi - lo := by
  intro l
  induction l with
  | nil => intro lo hi _ _; simp
  | cons x t ih =>
    intro lo hi hs hb
    rcases hb x (by simp) with ⟨hlo, hhi⟩
    obtain ⟨hxlt, hs'⟩ := List.pairwise_cons.mp hs
    have ht := ih (x + 1) hi hs' (fun y hy => ⟨hxlt y hy, (hb y (by simp [hy])).2⟩)
    simp only [List.length_cons]
    omega

/-- The free list never has more blocks than `brk` (the sentinel plus at
most one block per arena unit). -/
theorem Inv.length_le {s : St} {fl al : List Blk} (h : Inv s fl al) :
    fl.length ≤ s.brk := by
  obtain ⟨rest, hrest⟩ : ∃ rest, fl = (0, 0) :: rest := by
    cases fl with
    | nil => exact absurd h.base_head (by simp)
    | cons a t =>
      refine ⟨t, ?_⟩
      have := h.base_head
      simp only [List.head?_cons, Option.some.injEq] at this
      rw [this]
  subst hrest
  have hs : (rest.map Prod.fst).Pairwise (· < ·) :=
    (List.pairwise_cons.mp h.sorted_fst).2
  have hb : ∀ x ∈ rest.map Prod.fst, 1 ≤ x ∧ x < s.brk := by
    intro x hx
    rcases List.mem_map.mp hx with ⟨b, hbmem, hbx⟩
    rcases h.fl_bounds b (by simp [hbmem]) with he | ⟨h1, h2, h3⟩
    · exfalso
      have hlt := (List.pairwise_cons.mp h.gaps).1 b hbmem
      rw [he] at hlt
      simp [gapR] at hlt
    · subst hbx; exact ⟨h1, by omega⟩
  have := length_le_of_sorted_bounded (rest.map Prod.fst) 1 s.brk hs hb
  simp only [List.length_map] at this
  simp only [List.length_cons]
  have := h.brk_pos
  omega

/-- Unique decomposition around an element of a duplicate-free list. -/
theorem nodup_mid_eq {α : Type} {a : α} :
    ∀ {s1 t1 s2 t2 : List α}, (s1 ++ a :: t1).Nodup →
      s1 ++ a :: t1 = s2 ++ a :: t2 → s1 = s2 ∧ t1 = t2 := by
  intro s1
  induction s1 with
  | nil =>
    intro t1 s2 t2 hnd he
    cases s2 with
    | nil => simpa using he
    | cons b s2' =>
      simp only [List.nil_append, List.cons_append, List.cons.injEq] at he
      obtain ⟨hab, ht⟩ := he
      exfalso
      have : a ∈ t1 := by rw [ht]; exact List.mem_append_right _ (by simp)
      exact (List.nodup_cons.mp hnd).1 this
  | cons b s1' ih =>
    intro t1 s2 t2 hnd he
    cases s2 with
    | nil =>
      simp only [List.cons_append, List.nil_append, List.cons.injEq] at he
      obtain ⟨hab, ht⟩ := he
      exfalso
      rw [List.cons_append] at hnd
      have : b ∈ s1' ++ a :: t1 := by rw [hab]; exact List.mem_append_right _ (by simp)
      exact (List.nodup_cons.mp hnd).1 this
    | cons c s2' =>
      simp only [List.cons_append, List.cons.injEq] at he
      obtain ⟨hbc, ht⟩ := he
      subst hbc
      rw [List.cons_append] at hnd
      obtain ⟨h1, h2⟩ := ih (List.nodup_cons.mp hnd).2 ht
      exact ⟨by rw [h1], h2⟩

/-- Split an address-sorted block list at an address `bp` above the
head's address and distinct from every block address: the last block
below `bp`, and the blocks above it. -/
theorem sorted_split_at :
    ∀ (fl : List Blk) (bp : Nat), fl.Pairwise (fun a b => a.1 < b.1) →
      fl ≠ [] → (fl.headI).1 < bp → (∀ b ∈ fl, b.1 ≠ bp) →
      ∃ u P v, fl = u ++ P :: v ∧ P.1 < bp ∧ (∀ b ∈ u, b.1 < P.1) ∧
        (∀ b ∈ v, bp < b.1) := by
  intro fl
  induction fl with
  | nil => intro bp _ hne _ _; exact absurd rfl hne
  | cons x t ih =>
    intro bp hs _ hx hne
    simp only [List.headI] at hx
    obtain ⟨hxall, hst⟩ := List.pairwise_cons.mp hs
    cases t with
    | nil => exact ⟨[], x, [], by simp, hx, by simp, by simp⟩
    | cons y t' =>
      by_cases hy : y.1 < bp
      · obtain ⟨u, P, v, he, h1, h2, h3⟩ :=
          ih bp hst (by simp) (by simpa using hy) (fun b hb => hne b (by simp [hb]))
        refine ⟨x :: u, P, v, by rw [List.cons_append, he], h1, ?_, h3⟩
        intro b hb
        rcases List.mem_cons.mp hb with hbx | hbu
        · subst hbx
          exact hxall P (by rw [he]; exact List.mem_append_right _ (by simp))
        · exact h2 b hbu
      · refine ⟨[], x, y :: t', by simp, hx, by simp, ?_⟩
        intro b hb
        have hbne := hne b (by simp [hb])
        rcases List.mem_cons.mp hb with hby | hbt
        · subst hby; omega
        · have : y.1 < b.1 := (List.pairwise_cons.mp hst).1 b hbt
          omega

/-! ### Ring walking: successor characterization and the findPos loop -/

theorem Inv.fst_pairwise {s : St} {fl al : List Blk} (h : Inv s fl al) :
    fl.Pairwise (fun a b => a.1 < b.1) :=
  h.gaps.imp gapR_fst_lt

/-- The `ptr` field of a free block addresses the next block of the
sorted list, or the sentinel (address 0) for the last block. -/
theorem Inv.ptr_decomp {s : St} {fl al : List Blk} (h : Inv s fl al)
    {u' : List Blk} {x : Blk} {v' : List Blk} (he : fl = u' ++ x :: v') :
    (s.mem x.1).ptr = (v'.headD (0, 0)).1 := by
  cases v' with
  | nil =>
    have hl := h.ptr_last
    have hgl : fl.getLast? = some x := by
      rw [he, List.getLast?_append_cons]
      rfl
    have : fl.getLastD (0, 0) = x := by
      rw [List.getLastD_eq_getLast?, hgl]
      rfl
    rw [this] at hl
    simpa using hl
  | cons y v'' =>
    have hc := h.ptr_chain
    rw [he] at hc
    have := (List.chain'_append.mp hc).2.1
    have hxy := (List.chain'_cons.mp this).1
    simpa using hxy

/-- Successor characterization: every free block either is the last one
(its `ptr` wraps to the sentinel and its address is maximal) or points to
the block with the smallest address above its own. -/
theorem Inv.succ_spec {s : St} {fl al : List Blk} (h : Inv s fl al)
    {x : Blk} (hx : x ∈ fl) :
    ((s.mem x.1).ptr = 0 ∧ (∀ e ∈ fl, e.1 ≤ x.1)) ∨
    (∃ c ∈ fl, (s.mem x.1).ptr = c.1 ∧ x.1 < c.1 ∧
      ∀ e ∈ fl, x.1 < e.1 → c.1 ≤ e.1) := by
  obtain ⟨u', v', he⟩ := List.append_of_mem hx
  have hp := h.fst_pairwise
  rw [he] at hp
  rw [List.pairwise_append] at hp
  obtain ⟨hpu, hpxv, hcross⟩ := hp
  obtain ⟨hxall, hpv⟩ := List.pairwise_cons.mp hpxv
  cases v' with
  | nil =>
    left
    refine ⟨by simpa using h.ptr_decomp he, ?_⟩
    intro e hemem
    rw [he] at hemem
    rcases List.mem_append.mp hemem with heu | hex
    · exact le_of_lt (hcross e heu x (by simp))
    · rcases List.mem_cons.mp hex with h1 | h2
      · rw [h1]
      · simp at h2
  | cons y v'' =>
    right
    refine ⟨y, by rw [he]; exact List.mem_append_right _ (by simp),
      by simpa using h.ptr_decomp he, hxall y (by simp), ?_⟩
    intro e hemem hlt
    rw [he] at hemem
    rcases List.mem_append.mp hemem with heu | hex
    · exact absurd (hcross e heu x (by simp)) (by omega)
    · rcases List.mem_cons.mp hex with h1 | h2
      · subst h1; omega
      · rcases List.mem_cons.mp h2 with h3 | h4
        · rw [h3]
        · exact le_of_lt ((List.pairwise_cons.mp hpv).1 e h4)

/-- `findPos` walks the chained scan list and stops exactly at the first
block satisfying the stop condition. -/
theorem findPos_stop (m : Mem) (bp : Nat) :
    ∀ (pre : List Blk) (P : Blk) (fuel : Nat),
      (pre ++ [P]).Chain' (ptrLink m) →
      (∀ b ∈ pre, ¬ stopCond m bp b) →
      stopCond m bp P →
      pre.length + 1 ≤ fuel →
      findPos m bp fuel ((pre ++ [P]).headI).1 = some P.1 := by
  intro pre
  induction pre with
  | nil =>
    intro P fuel _ _ hP hfuel
    cases fuel with
    | zero => omega
    | succ fuel =>
      simp only [List.nil_append, List.headI]
      rw [findPos]
      rcases hP with ⟨h1, h2⟩ | ⟨h1, h2⟩
      · rw [if_pos ⟨h1, h2⟩]
      · by_cases hh : bp > P.1 ∧ bp < (m P.1).ptr
        · rw [if_pos hh]
        · rw [if_neg hh, if_pos ⟨h1, h2⟩]
  | cons b pre' ih =>
    intro P fuel hchain hpre hP hfuel
    cases fuel with
    | zero => simp at hfuel
    | succ fuel =>
      simp only [List.cons_append, List.headI]
      rw [findPos]
      have hnb := hpre b (by simp)
      rw [stopCond] at hnb
      rw [not_or] at hnb
      rw [if_neg hnb.1, if_neg hnb.2]
      rw [List.cons_append] at hchain
      obtain ⟨hlink, hchain'⟩ := List.chain'_cons'.mp hchain
      have hhead : ptrLink m b ((pre' ++ [P]).headI) := by
        cases pre' with
        | nil => simpa using hlink P (by simp)
        | cons c t => simpa using hlink c (by simp)
      rw [ptrLink] at hhead
      rw [hhead]
      exact ih P fuel hchain' (fun c hc => hpre c (by simp [hc])) hP (by
        simp only [List.length_cons] at hfuel; omega)

/-- The scan order of `free`'s position loop: the cursor block `C`
first, then the rest of the ring in cyclic order, is chained. -/
theorem Inv.chain_cursor {s : St} {fl al : List Blk} (h : Inv s fl al)
    {w z : List Blk} {C : Blk} (he : fl = w ++ C :: z) :
    ((C :: z) ++ w).Chain' (ptrLink s.mem) := by
  have hc := h.ptr_chain
  rw [he, List.chain'_append] at hc
  obtain ⟨hw, hcz, hlink⟩ := hc
  rw [List.chain'_append]
  refine ⟨hcz, hw, ?_⟩
  intro x hx y hy
  have hxlast : fl.getLast? = some x := by
    rw [he, List.getLast?_append_cons]
    exact hx
  have hgld : fl.getLastD (0, 0) = x := by
    rw [List.getLastD_eq_getLast?, hxlast]
    rfl
  have hylast : fl.head? = some y := by
    rw [he]
    cases w with
    | nil => simp at hy
    | cons c t =>
      simp only [List.head?_cons, Option.mem_def, Option.some.injEq] at hy
      subst hy
      simp
  have hy0 : y = (0, 0) := by
    have := h.base_head.symm.trans hylast
    simpa using this.symm
  show (s.mem x.1).ptr = y.1
  have hpl := h.ptr_last
  rw [hgld] at hpl
  rw [hpl, hy0]

/-- The scan order of `malloc`'s loop: starting just past the cursor
block `C`, around the ring, ending back at `C`, is chained when `C` is
prepended as the entry point. -/
theorem Inv.chain_ring {s : St} {fl al : List Blk} (h : Inv s fl al)
    {w z : List Blk} {C : Blk} (he : fl = w ++ C :: z) :
    (C :: (z ++ w ++ [C])).Chain' (ptrLink s.mem) := by
  have hcur := h.chain_cursor he
  rw [List.cons_append] at hcur
  have hshape : C :: (z ++ w ++ [C]) = (C :: (z ++ w)) ++ [C] := by
    simp
  rw [hshape, List.chain'_append]
  refine ⟨hcur, List.chain'_singleton _, ?_⟩
  intro x hx y hy
  simp only [List.head?_cons, Option.mem_def, Option.some.injEq] at hy
  subst hy
  cases w with
  | nil =>
    -- ring is C :: z; x is the last of fl, C is the head of fl
    have hxlast : fl.getLast? = some x := by
      rw [he]
      simpa using hx
    have hgld : fl.getLastD (0, 0) = x := by
      rw [List.getLastD_eq_getLast?, hxlast]; rfl
    have hC0 : C = (0, 0) := by
      have hh : fl.head? = some C := by rw [he]; simp
      have := h.base_head.symm.trans hh
      simpa using this.symm
    have hpl := h.ptr_last
    rw [hgld] at hpl
    show (s.mem x.1).ptr = C.1
    rw [hpl, hC0]
  | cons c t =>
    -- the last of C :: (z ++ c :: t) is the last of w = c :: t
    have hxw : (c :: t).getLast? = some x := by
      have hsh2 : (C :: (z ++ c :: t)).getLast? = (c :: t).getLast? := by
        rw [show C :: (z ++ c :: t) = (C :: z) ++ c :: t by simp,
          List.getLast?_append_cons]
      rw [hsh2] at hx
      exact hx
    -- the fl-chain crossing link gives ptr of last w = C
    have hc := h.ptr_chain
    rw [he, List.chain'_append] at hc
    exact hc.2.2 x hxw C (by simp)

/-- No block other than the insertion predecessor `P` satisfies the
stopping condition of `free`'s position loop. -/
theorem Inv.nostop {s : St} {fl al : List Blk} (h : Inv s fl al)
    {P : Blk} {bp : Nat}
    (hPmem : P ∈ fl) (hPlt : P.1 < bp)
    (hPmax : ∀ e ∈ fl, e.1 < bp → e.1 ≤ P.1)
    (hne : ∀ b ∈ fl, b.1 ≠ bp) :
    ∀ b ∈ fl, b ≠ P → ¬ stopCond s.mem bp b := by
  intro b hb hbP hstop
  rcases h.succ_spec hb with ⟨h0, hmax⟩ | ⟨c, hc, hptr, hbc, hmin⟩
  · -- b is the last block: its address is maximal, so bp < b.1
    have hPb : P.1 ≤ b.1 := hmax P hPmem
    have hPbne : P.1 ≠ b.1 := fun hh => hbP (h.addr_inj hb hPmem hh.symm)
    have hbbp : bp < b.1 := by
      rcases Nat.lt_trichotomy b.1 bp with h1 | h1 | h1
      · have := hPmax b hb h1; omega
      · exact absurd h1 (hne b hb)
      · exact h1
    rw [stopCond, h0] at hstop
    rcases hstop with ⟨h1, h2⟩ | ⟨h1, h2⟩
    · omega
    · rcases h2 with h2 | h2 <;> omega
  · -- b has a successor c with the least address above b.1
    rw [stopCond, hptr] at hstop
    rcases hstop with ⟨h1, h2⟩ | ⟨h1, h2⟩
    · -- bp strictly between b and its successor: contradicts P's maximality
      have hbP1 : b.1 ≤ P.1 := hPmax b hb h1
      have : b.1 ≠ P.1 := fun hh => hbP (h.addr_inj hb hPmem hh)
      have : c.1 ≤ P.1 := hmin P hPmem (by omega)
      omega
    · omega

/-- The insertion predecessor `P` satisfies the stopping condition. -/
theorem Inv.stop_at {s : St} {fl al : List Blk} (h : Inv s fl al)
    {P : Blk} {bp : Nat}
    (hPmem : P ∈ fl) (hPlt : P.1 < bp)
    (hPmax : ∀ e ∈ fl, e.1 < bp → e.1 ≤ P.1)
    (hne : ∀ b ∈ fl, b.1 ≠ bp) :
    stopCond s.mem bp P := by
  rcases h.succ_spec hPmem with ⟨h0, hmax⟩ | ⟨c, hc, hptr, hPc, hmin⟩
  · rw [stopCond, h0]
    right
    exact ⟨Nat.zero_le _, Or.inl hPlt⟩
  · have hcbp : bp < c.1 := by
      rcases Nat.lt_trichotomy c.1 bp with h1 | h1 | h1
      · have := hPmax c hc h1; omega
      · exact absurd h1 (hne c hc)
      · exact h1
    rw [stopCond, hptr]
    left
    exact ⟨hPlt, hcbp⟩

/-- `free`'s position loop, run from the cursor, finds the insertion
predecessor: the last free block whose address is below the freed block's.
-/
theorem Inv.findPos_eq {s : St} {fl al : List Blk} (h : Inv s fl al)
    {u : List Blk} {P : Blk} {v : List Blk}
    (hfl : fl = u ++ P :: v) {bp : Nat}
    (hPlt : P.1 < bp) (hu : ∀ b ∈ u, b.1 < P.1) (hv : ∀ b ∈ v, bp < b.1)
    (hne : ∀ b ∈ fl, b.1 ≠ bp)
    {f : Nat} (hf : s.freep = some f)
    (fuel : Nat) (hfuel : fl.length ≤ fuel) :
    findPos s.mem bp fuel f = some P.1 := by
  have hfmem : f ∈ fl.map Prod.fst := by
    obtain ⟨f', hf', hfm⟩ := h.freep_cur
    rw [hf] at hf'
    have hff : f = f' := by simpa using hf'
    rw [hff]
    exact hfm
  obtain ⟨C, hCmem, hCf⟩ := List.mem_map.mp hfmem
  obtain ⟨w, z, hwz⟩ := List.append_of_mem hCmem
  have hchain := h.chain_cursor hwz
  have hperm : List.Perm ((C :: z) ++ w) fl := by
    rw [hwz]
    exact List.perm_append_comm
  have hPmax : ∀ e ∈ fl, e.1 < bp → e.1 ≤ P.1 := by
    intro e he helt
    rw [hfl] at he
    rcases List.mem_append.mp he with h1 | h2
    · exact le_of_lt (hu e h1)
    · rcases List.mem_cons.mp h2 with h3 | h4
      · rw [h3]
      · exact absurd (hv e h4) (by omega)
  have hPmem : P ∈ fl := by rw [hfl]; exact List.mem_append_right _ (by simp)
  obtain ⟨pre, suf, hps⟩ := List.append_of_mem (hperm.symm.subset hPmem)
  have hpre_sub : ∀ b ∈ pre, b ∈ fl := by
    intro b hb
    exact hperm.subset (by rw [hps]; exact List.mem_append_left _ hb)
  have hnodup : ((C :: z) ++ w).Nodup := hperm.symm.nodup_iff.mp h.nodup
  have hPpre : P ∉ pre := by
    intro hPin
    rw [hps] at hnodup
    exact (List.nodup_append.mp hnodup).2.2 hPin (by simp)
  have hpre_nostop : ∀ b ∈ pre, ¬ stopCond s.mem bp b := by
    intro b hb
    refine h.nostop hPmem hPlt hPmax hne b (hpre_sub b hb) ?_
    intro hbe
    exact hPpre (hbe ▸ hb)
  have hstop := h.stop_at hPmem hPlt hPmax hne
  have hchain' : (pre ++ [P]).Chain' (ptrLink s.mem) := by
    have hsh : (C :: z) ++ w = (pre ++ [P]) ++ suf := by
      rw [hps]; simp
    rw [hsh] at hchain
    exact (List.chain'_append.mp hchain).1
  have hhead : ((pre ++ [P]).headI).1 = f := by
    cases pre with
    | nil =>
      have hCP : C = P := by
        have := congrArg List.head? hps
        simpa using this
      simp only [List.nil_append, List.headI]
      rw [← hCP, hCf]
    | cons q t =>
      have hCq : C = q := by
        have := congrArg List.head? hps
        simpa using this
      simp only [List.cons_append, List.headI]
      rw [← hCq, hCf]
  have hlen : pre.length + 1 ≤ fuel := by
    have hl := hperm.length_eq
    rw [hps] at hl
    simp only [List.length_append, List.length_cons] at hl
    omega
  have hfin := findPos_stop s.mem bp pre P fuel hchain' hpre_nostop hstop hlen
  rw [hhead] at hfin
  exact hfin

/-! ### Evaluation of the coalescing body and the insert-with-coalesce list -/

/-- Pointwise evaluation of the upper-neighbour phase: only the header
at `bp` changes. -/
theorem freeMergeUp_eval (m : Mem) (bp p : Nat)
    (hppb : p ≠ bp) (hpnb : (m p).ptr ≠ bp) :
    freeMergeUp m bp p = fun x =>
      if x = bp then
        ⟨(if bp + (m bp).size = (m p).ptr then (m ((m p).ptr)).ptr else (m p).ptr),
         (if bp + (m bp).size = (m p).ptr then truncU ((m bp).size + (m ((m p).ptr)).size)
          else (m bp).size)⟩
      else m x := by
  funext x
  by_cases hc1 : bp + (m bp).size = (m p).ptr <;>
    by_cases hx : x = bp <;>
    simp [freeMergeUp, hc1, hx, setPtr, setSize, hppb, hpnb]

/-- Pointwise evaluation of the lower-neighbour phase: only the header
at `p` changes. -/
theorem freeMergeDown_eval (m1 : Mem) (bp p : Nat) (hppb : p ≠ bp) :
    freeMergeDown m1 bp p = fun x =>
      if x = p then
        (if p + (m1 p).size = bp then ⟨(m1 bp).ptr, truncU ((m1 p).size + (m1 bp).size)⟩
         else ⟨bp, (m1 p).size⟩)
      else m1 x := by
  funext x
  by_cases hc2 : p + (m1 p).size = bp <;>
    by_cases hx : x = p <;>
    simp [freeMergeDown, hc2, hx, setPtr, setSize, Ne.symm hppb]

/-- Pointwise evaluation of both phases: only the headers at `p` and
`bp` change, according to the two contiguity tests of the source. -/
theorem freeMerge_eval (m : Mem) (bp p : Nat)
    (hppb : p ≠ bp) (hpnb : (m p).ptr ≠ bp) :
    freeMerge m bp p = fun x =>
      if x = p then
        (if p + (m p).size = bp then
           ⟨(if bp + (m bp).size = (m p).ptr then (m ((m p).ptr)).ptr else (m p).ptr),
            truncU ((m p).size +
              (if bp + (m bp).size = (m p).ptr
               then truncU ((m bp).size + (m ((m p).ptr)).size) else (m bp).size))⟩
         else ⟨bp, (m p).size⟩)
      else if x = bp then
        ⟨(if bp + (m bp).size = (m p).ptr then (m ((m p).ptr)).ptr else (m p).ptr),
         (if bp + (m bp).size = (m p).ptr then truncU ((m bp).size + (m ((m p).ptr)).size)
          else (m bp).size)⟩
      else m x := by
  have hup := freeMergeUp_eval m bp p hppb hpnb
  have hdown := freeMergeDown_eval (freeMergeUp m bp p) bp p hppb
  rw [freeMerge, hdown]
  funext x
  simp only [hup]
  by_cases hx : x = p
  · simp [hx, hppb]
  · by_cases hx2 : x = bp
    · simp [hx, hx2, hppb]
    · simp [hx, hx2]

/-- Chains of the linking relation only depend on the `ptr` fields of the
listed blocks. -/
theorem chain'_ptrLink_congr {m m' : Mem} :
    ∀ {l : List Blk}, (∀ b ∈ l, (m' b.1).ptr = (m b.1).ptr) →
      l.Chain' (ptrLink m) → l.Chain' (ptrLink m') := by
  intro l
  induction l with
  | nil => intro _ _; exact List.chain'_nil
  | cons b t ih =>
    intro hag hc
    obtain ⟨hlink, hc'⟩ := List.chain'_cons'.mp hc
    refine List.chain'_cons'.mpr ⟨?_, ih (fun c hc => hag c (by simp [hc])) hc'⟩
    intro y hy
    have := hlink y hy
    rw [ptrLink] at this ⊢
    rw [hag b (by simp)]
    exact this

/-- A span split into two contiguous halves is disjoint from `y` when
both halves are. -/
theorem spanDisj_join {a s1 s2 : Nat} {y : Blk} (hy : 1 ≤ y.2)
    (h1 : spanDisj (a, s1) y) (h2 : spanDisj (a + s1, s2) y) :
    spanDisj (a, s1 + s2) y := by
  simp only [spanDisj] at *
  omega

/-- Disjoint nonempty spans have different base addresses. -/
theorem spanDisj_ne {x y : Blk} (h : spanDisj x y) (hx : 1 ≤ x.2) (hy : 1 ≤ y.2) :
    x.1 ≠ y.1 := by
  simp only [spanDisj] at h
  omega

/-- `insCoal` on a list whose last block is the insertion predecessor. -/
theorem insCoal_eq_last :
    ∀ (u : List Blk) (P B : Blk), (∀ b ∈ u, b.1 < B.1) → P.1 < B.1 →
      insCoal (u ++ [P]) B =
        u ++ (if P.1 + P.2 = B.1 then [(P.1, P.2 + B.2)] else [P, B]) := by
  intro u
  induction u with
  | nil =>
    intro P B _ _
    show insCoal [P] B = _
    rw [insCoal]
    simp
  | cons a u' ih =>
    intro P B hu hP
    cases u' with
    | nil =>
      show insCoal (a :: P :: []) B = _
      rw [insCoal]
      rw [if_neg (by omega)]
      have hrec : insCoal [P] B = if P.1 + P.2 = B.1 then [(P.1, P.2 + B.2)] else [P, B] := by
        rw [insCoal]
      rw [hrec]
      simp
    | cons a' u'' =>
      show insCoal (a :: ((a' :: u'') ++ P :: [])) B = _
      rw [show a :: ((a' :: u'') ++ P :: []) = a :: a' :: (u'' ++ [P]) by simp]
      rw [insCoal]
      rw [if_neg (by have := hu a' (by simp); omega)]
      have hrec := ih P B (fun b hb => hu b (by simp [hb])) hP
      rw [show a' :: (u'' ++ [P]) = (a' :: u'') ++ [P] by simp, hrec]
      simp

/-- `insCoal` on a list where the freed block lands between the
predecessor `P` and its ring successor `y`. -/
theorem insCoal_eq_mid :
    ∀ (u : List Blk) (P y : Blk) (rest : List Blk) (B : Blk),
      (∀ b ∈ u, b.1 < B.1) → P.1 < B.1 → B.1 < y.1 →
      insCoal (u ++ P :: y :: rest) B =
        u ++ (if B.1 + B.2 = y.1 then
            if P.1 + P.2 = B.1 then (P.1, P.2 + B.2 + y.2) :: rest
            else P :: (B.1, B.2 + y.2) :: rest
          else
            if P.1 + P.2 = B.1 then (P.1, P.2 + B.2) :: y :: rest
            else P :: B :: y :: rest) := by
  intro u
  induction u with
  | nil =>
    intro P y rest B _ hP hy
    show insCoal (P :: y :: rest) B = _
    rw [insCoal]
    rw [if_pos hy]
    simp
  | cons a u' ih =>
    intro P y rest B hu hP hy
    cases u' with
    | nil =>
      show insCoal (a :: P :: y :: rest) B = _
      rw [insCoal]
      rw [if_neg (by omega)]
      have hrec := ih P y rest B (by simp) hP hy
      simp only [List.nil_append] at hrec
      rw [hrec]
      simp
    | cons a' u'' =>
      show insCoal (a :: ((a' :: u'') ++ P :: y :: rest)) B = _
      rw [show a :: ((a' :: u'') ++ P :: y :: rest) = a :: a' :: (u'' ++ P :: y :: rest)
        by simp]
      rw [insCoal]
      rw [if_neg (by have := hu a' (by simp); omega)]
      have hrec := ih P y rest B (fun b hb => hu b (by simp [hb])) hP hy
      rw [show a' :: (u'' ++ P :: y :: rest) = (a' :: u'') ++ P :: y :: rest by simp, hrec]
      simp

/-- The defaulted last element of a nonempty list is a member. -/
theorem getLastD_mem {α : Type} : ∀ (l : List α) (d : α), l ≠ [] → l.getLastD d ∈ l := by
  intro l
  induction l with
  | nil => intro d hh; exact absurd rfl hh
  | cons a t ih =>
    intro d _
    rw [List.getLastD_cons]
    cases t with
    | nil => simp [List.getLastD]
    | cons b t' => exact List.mem_cons_of_mem a (ih a (by simp))

/-- A value of `getLast?` is a member of the list. -/
theorem mem_of_getLast?_mem {α : Type} {l : List α} {x : α} (hx : x ∈ l.getLast?) :
    x ∈ l := by
  obtain ⟨h, he⟩ := List.mem_getLast?_eq_getLast hx
  rw [he]
  exact List.getLast_mem h

/-- `getLastD` ignores everything before the last cons cell. -/
theorem getLastD_append_cons {α : Type} (u : List α) (a : α) (l : List α) (d : α) :
    (u ++ a :: l).getLastD d = (a :: l).getLastD d := by
  rw [List.getLastD_eq_getLast?, List.getLastD_eq_getLast?, List.getLast?_append_cons]

/-! ### Re-establishing the invariant after a release -/

/-- After `free` has merged the block `B` at the insertion point `P`,
the invariant holds for the updated list.  `K` is the size of the region
from `B.1` upward after the (possible) upper merge, and `tail` the ring
blocks beyond it; the lower merge is governed by `P.1 + P.2 = B.1`. -/
theorem Inv_rebuild {s s' : St} {fl al : List Blk} (h : Inv s fl al)
    {u : List Blk} {P : Blk} {v : List Blk} (hfl : fl = u ++ P :: v)
    {B : Blk} (hB1 : 1 ≤ B.1) (hPlt : P.1 < B.1)
    (hPB : P.1 + P.2 ≤ B.1)
    (hu : ∀ b ∈ u, b.1 < P.1)
    {K : Nat} (hK1 : 1 ≤ K) (hKbrk : B.1 + K ≤ s.brk)
    {tail : List Blk}
    (htail_suffix : ∃ w0, fl = w0 ++ tail)
    (htail_gt : ∀ t ∈ tail, B.1 + K < t.1)
    (hKal : ∀ y ∈ al, spanDisj (B.1, K) y)
    (hmem : s'.mem = fun x =>
      if x = P.1 then
        (if P.1 + P.2 = B.1 then ⟨(tail.headD (0, 0)).1, P.2 + K⟩ else ⟨B.1, P.2⟩)
      else if x = B.1 then ⟨(tail.headD (0, 0)).1, K⟩ else s.mem x)
    (hfreep : s'.freep = some P.1) (hbrk : s'.brk = s.brk) (hlim : s'.limit = s.limit) :
    Inv s' (u ++ (if P.1 + P.2 = B.1 then [(P.1, P.2 + K)] else [P, (B.1, K)]) ++ tail)
      al := by
  have hPmem : P ∈ fl := by rw [hfl]; exact List.mem_append_right _ (by simp)
  have hpw := h.gaps
  rw [hfl, List.pairwise_append] at hpw
  obtain ⟨hpw_u, hpw_pv, hpw_cross⟩ := hpw
  have hgap_uP : ∀ a ∈ u, gapR a P := fun a ha => hpw_cross a ha P (by simp)
  have hpw_tail : tail.Pairwise gapR := by
    obtain ⟨w0, hw0⟩ := htail_suffix
    have := h.gaps
    rw [hw0, List.pairwise_append] at this
    exact this.2.1
  have htail_mem : ∀ t ∈ tail, t ∈ fl := by
    obtain ⟨w0, hw0⟩ := htail_suffix
    intro t ht
    rw [hw0]
    exact List.mem_append_right _ ht
  have hu_ne : ∀ a ∈ u, a.1 ≠ P.1 ∧ a.1 ≠ B.1 := by
    intro a ha
    have := hu a ha
    constructor <;> omega
  have htail_ne : ∀ t ∈ tail, t.1 ≠ P.1 ∧ t.1 ≠ B.1 := by
    intro t ht
    have := htail_gt t ht
    constructor <;> omega
  have hmem_u : ∀ a ∈ u, s'.mem a.1 = s.mem a.1 := by
    intro a ha
    simp [hmem, (hu_ne a ha).1, (hu_ne a ha).2]
  have hmem_tail : ∀ t ∈ tail, s'.mem t.1 = s.mem t.1 := by
    intro t ht
    simp [hmem, (htail_ne t ht).1, (htail_ne t ht).2]
  have hmem_P : s'.mem P.1 =
      (if P.1 + P.2 = B.1 then (⟨(tail.headD (0, 0)).1, P.2 + K⟩ : Header)
       else ⟨B.1, P.2⟩) := by
    simp [hmem]
  have hmem_B : s'.mem B.1 = ⟨(tail.headD (0, 0)).1, K⟩ := by
    simp [hmem, show B.1 ≠ P.1 by omega]
  have hchain_u : u.Chain' (ptrLink s.mem) := by
    have := h.ptr_chain
    rw [hfl, List.chain'_append] at this
    exact this.1
  have hchain_u' : u.Chain' (ptrLink s'.mem) :=
    chain'_ptrLink_congr (fun b hb => by rw [hmem_u b hb]) hchain_u
  have hchain_tail : tail.Chain' (ptrLink s.mem) := by
    obtain ⟨w0, hw0⟩ := htail_suffix
    have := h.ptr_chain
    rw [hw0, List.chain'_append] at this
    exact this.2.1
  have hchain_tail' : tail.Chain' (ptrLink s'.mem) :=
    chain'_ptrLink_congr (fun b hb => by rw [hmem_tail b hb]) hchain_tail
  have hlink_uP : ∀ x ∈ u.getLast?, (s.mem x.1).ptr = P.1 := by
    intro x hx
    have := h.ptr_chain
    rw [hfl, List.chain'_append] at this
    exact this.2.2 x hx P (by simp)
  have hlast_tail : ∀ t0 tl, tail = t0 :: tl →
      (s.mem (tail.getLastD (0, 0)).1).ptr = 0 := by
    intro t0 tl ht
    obtain ⟨w0, hw0⟩ := htail_suffix
    have hpl := h.ptr_last
    have : fl.getLastD (0, 0) = tail.getLastD (0, 0) := by
      rw [hw0, ht, List.getLastD_eq_getLast?, List.getLastD_eq_getLast?,
        List.getLast?_append_cons]
    rw [this] at hpl
    exact hpl
  have htail_last_mem : tail ≠ [] → (tail.getLastD (0, 0)) ∈ tail :=
    getLastD_mem tail (0, 0)
  have hP0 := h.fl_bounds P hPmem
  have hbase : fl.head? = some (0, 0) := h.base_head
  have hyP : ∀ y ∈ al, y.1 ≠ P.1 := by
    intro y hy
    rcases hP0 with he | ⟨h1, h2, h3⟩
    · have h1 := (h.al_ok y hy).1
      rw [he]
      omega
    · intro hh
      exact (spanDisj_ne (h.fl_al_disj P hPmem y hy) h2 (h.al_ok y hy).2.1) hh.symm
  have hyB : ∀ y ∈ al, y.1 ≠ B.1 := by
    intro y hy
    intro hh
    exact (spanDisj_ne (hKal y hy) hK1 (h.al_ok y hy).2.1) hh.symm
  have hmem_al : ∀ y ∈ al, s'.mem y.1 = s.mem y.1 := by
    intro y hy
    simp [hmem, hyP y hy, hyB y hy]
  have hal_ok : ∀ b ∈ al, 1 ≤ b.1 ∧ 1 ≤ b.2 ∧ b.1 + b.2 ≤ s'.brk ∧
      (s'.mem b.1).size = b.2 := by
    intro b hb
    obtain ⟨h1, h2, h3, h4⟩ := h.al_ok b hb
    exact ⟨h1, h2, by rw [hbrk]; exact h3, by rw [hmem_al b hb]; exact h4⟩
  have hfl_bounds_u : ∀ b ∈ u, b = (0, 0) ∨ (1 ≤ b.1 ∧ 1 ≤ b.2 ∧ b.1 + b.2 ≤ s'.brk) := by
    intro b hb
    rcases h.fl_bounds b (by rw [hfl]; exact List.mem_append_left _ hb) with he | hr
    · exact Or.inl he
    · exact Or.inr ⟨hr.1, hr.2.1, by rw [hbrk]; exact hr.2.2⟩
  have hfl_bounds_tail : ∀ b ∈ tail,
      b = (0, 0) ∨ (1 ≤ b.1 ∧ 1 ≤ b.2 ∧ b.1 + b.2 ≤ s'.brk) := by
    intro b hb
    rcases h.fl_bounds b (htail_mem b hb) with he | hr
    · exact Or.inl he
    · exact Or.inr ⟨hr.1, hr.2.1, by rw [hbrk]; exact hr.2.2⟩
  have hdisj_u : ∀ x ∈ u, ∀ y ∈ al, spanDisj x y := by
    intro x hx
    exact h.fl_al_disj x (by rw [hfl]; exact List.mem_append_left _ hx)
  have hdisj_tail : ∀ x ∈ tail, ∀ y ∈ al, spanDisj x y := by
    intro x hx
    exact h.fl_al_disj x (htail_mem x hx)
  have hgap_u_tail : ∀ a ∈ u, ∀ t ∈ tail, gapR a t := by
    intro a ha t ht
    have h1 := hgap_uP a ha
    have h2 := htail_gt t ht
    simp only [gapR] at *
    omega
  have hsize_u : ∀ b ∈ u, (s'.mem b.1).size = b.2 := by
    intro b hb
    rw [hmem_u b hb]
    exact h.size_ok b (by rw [hfl]; exact List.mem_append_left _ hb)
  have hsize_tail : ∀ b ∈ tail, (s'.mem b.1).size = b.2 := by
    intro b hb
    rw [hmem_tail b hb]
    exact h.size_ok b (htail_mem b hb)
  by_cases hlow : P.1 + P.2 = B.1
  · -- lower merge: the predecessor absorbs the freed region
    rw [if_pos hlow]
    have hPbounds : 1 ≤ P.1 ∧ 1 ≤ P.2 ∧ P.1 + P.2 ≤ s.brk := by
      rcases hP0 with he | hr
      · exfalso
        rw [he] at hlow
        simp at hlow
        omega
      · exact hr
    refine ⟨?_, ?_, ?_, ?_, ?_, ?_, ?_, ?_, h.al_disj, ?_, ?_, ?_, ?_⟩
    · -- base_head
      cases u with
      | nil =>
        exfalso
        have : fl.head? = some P := by rw [hfl]; simp
        have hP00 := hbase.symm.trans this
        simp only [Option.some.injEq] at hP00
        rw [← hP00] at hPbounds
        simp at hPbounds
      | cons a u' =>
        have ha : fl.head? = some a := by rw [hfl]; simp
        have := hbase.symm.trans ha
        simp only [Option.some.injEq] at this
        simpa using this.symm
    · -- gaps
      rw [List.append_assoc, List.pairwise_append]
      refine ⟨hpw_u, ?_, ?_⟩
      · rw [List.pairwise_append]
        refine ⟨by simp, hpw_tail, ?_⟩
        intro x hx t ht
        simp only [List.mem_singleton] at hx
        subst hx
        have := htail_gt t ht
        simp only [gapR]
        omega
      · intro a ha c hc
        rcases List.mem_append.mp hc with hc1 | hc2
        · simp only [List.mem_singleton] at hc1
          subst hc1
          have := hgap_uP a ha
          simp only [gapR] at *
          omega
        · exact hgap_u_tail a ha c hc2
    · -- ptr_chain
      rw [List.append_assoc, List.chain'_append]
      refine ⟨hchain_u', ?_, ?_⟩
      · rw [List.chain'_append]
        refine ⟨List.chain'_singleton _, hchain_tail', ?_⟩
        intro x hx y hy
        simp only [List.getLast?_singleton, Option.mem_def, Option.some.injEq] at hx
        subst hx
        show (s'.mem P.1).ptr = y.1
        rw [hmem_P, if_pos hlow]
        cases tail with
        | nil => simp at hy
        | cons t0 tl =>
          simp only [List.head?_cons, Option.mem_def, Option.some.injEq] at hy
          subst hy
          rfl
      · intro x hx y hy
        cases tail with
        | nil =>
          simp only [List.append_nil, List.head?_cons, Option.mem_def,
            Option.some.injEq] at hy
          subst hy
          show (s'.mem x.1).ptr = P.1
          rw [hmem_u x (mem_of_getLast?_mem hx)]
          exact hlink_uP x hx
        | cons t0 tl =>
          simp only [List.cons_append, List.head?_cons, Option.mem_def,
            Option.some.injEq] at hy
          subst hy
          show (s'.mem x.1).ptr = P.1
          rw [hmem_u x (mem_of_getLast?_mem hx)]
          exact hlink_uP x hx
    · -- ptr_last
      cases tail with
      | nil =>
        simp only [List.append_nil]
        rw [getLastD_append_cons]
        show (s'.mem P.1).ptr = 0
        rw [hmem_P, if_pos hlow]
        rfl
      | cons t0 tl =>
        rw [show u ++ [(P.1, P.2 + K)] ++ t0 :: tl = (u ++ [(P.1, P.2 + K)]) ++ t0 :: tl
          by simp]
        rw [getLastD_append_cons]
        show (s'.mem ((t0 :: tl).getLastD (0, 0)).1).ptr = 0
        rw [hmem_tail _ (htail_last_mem (by simp))]
        exact hlast_tail t0 tl rfl
    · -- size_ok
      intro b hb
      rcases List.mem_append.mp hb with hb1 | hb2
      · rcases List.mem_append.mp hb1 with hb3 | hb4
        · exact hsize_u b hb3
        · simp only [List.mem_singleton] at hb4
          subst hb4
          show (s'.mem P.1).size = P.2 + K
          rw [hmem_P, if_pos hlow]
      · exact hsize_tail b hb2
    · -- fl_bounds
      intro b hb
      rcases List.mem_append.mp hb with hb1 | hb2
      · rcases List.mem_append.mp hb1 with hb3 | hb4
        · exact hfl_bounds_u b hb3
        · simp only [List.mem_singleton] at hb4
          subst hb4
          refine Or.inr ⟨hPbounds.1, by omega, ?_⟩
          rw [hbrk]
          show P.1 + (P.2 + K) ≤ s.brk
          omega
      · exact hfl_bounds_tail b hb2
    · -- freep_cur
      refine ⟨P.1, hfreep, ?_⟩
      refine List.mem_map.mpr ⟨(P.1, P.2 + K), ?_, rfl⟩
      exact List.mem_append_left _ (List.mem_append_right _ (by simp))
    · exact hal_ok
    · -- fl_al_disj
      intro x hx y hy
      rcases List.mem_append.mp hx with hx1 | hx2
      · rcases List.mem_append.mp hx1 with hx3 | hx4
        · exact hdisj_u x hx3 y hy
        · simp only [List.mem_singleton] at hx4
          subst hx4
          have hP_y := h.fl_al_disj P hPmem y hy
          have hB_y := hKal y hy
          rw [← hlow] at hB_y
          exact spanDisj_join (h.al_ok y hy).2.1 hP_y hB_y
      · exact hdisj_tail x hx2 y hy
    · rw [hbrk]; exact h.brk_pos
    · rw [hbrk, hlim]; exact h.brk_le
    · rw [hlim]; exact h.limit_lt
  · -- no lower merge: `P` keeps its size and links to the freed block
    rw [if_neg hlow]
    have hPBlt : P.1 + P.2 < B.1 := by omega
    refine ⟨?_, ?_, ?_, ?_, ?_, ?_, ?_, ?_, h.al_disj, ?_, ?_, ?_, ?_⟩
    · -- base_head
      cases u with
      | nil =>
        have : fl.head? = some P := by rw [hfl]; simp
        have hP00 := hbase.symm.trans this
        simp only [Option.some.injEq] at hP00
        simpa using hP00.symm
      | cons a u' =>
        have ha : fl.head? = some a := by rw [hfl]; simp
        have := hbase.symm.trans ha
        simp only [Option.some.injEq] at this
        simpa using this.symm
    · -- gaps
      rw [List.append_assoc, List.pairwise_append]
      refine ⟨hpw_u, ?_, ?_⟩
      · rw [List.pairwise_append]
        refine ⟨?_, hpw_tail, ?_⟩
        · refine List.pairwise_cons.mpr ⟨?_, by simp⟩
          intro c hc
          simp only [List.mem_singleton] at hc
          subst hc
          simp only [gapR]
          omega
        · intro x hx t ht
          have hgt := htail_gt t ht
          rcases List.mem_cons.mp hx with hx1 | hx2
          · subst hx1
            simp only [gapR]
            omega
          · simp only [List.mem_singleton] at hx2
            subst hx2
            simp only [gapR]
            omega
      · intro a ha c hc
        have hga := hgap_uP a ha
        rcases List.mem_append.mp hc with hc1 | hc2
        · rcases List.mem_cons.mp hc1 with hc3 | hc4
          · subst hc3
            exact hga
          · simp only [List.mem_singleton] at hc4
            subst hc4
            simp only [gapR] at *
            omega
        · exact hgap_u_tail a ha c hc2
    · -- ptr_chain
      rw [List.append_assoc, List.chain'_append]
      refine ⟨hchain_u', ?_, ?_⟩
      · rw [show ([P, (B.1, K)] : List Blk) ++ tail = P :: ((B.1, K) :: tail) by simp]
        refine List.chain'_cons'.mpr ⟨?_, ?_⟩
        · intro y hy
          simp only [List.head?_cons, Option.mem_def, Option.some.injEq] at hy
          subst hy
          show (s'.mem P.1).ptr = B.1
          rw [hmem_P, if_neg hlow]
        · refine List.chain'_cons'.mpr ⟨?_, hchain_tail'⟩
          intro y hy
          show (s'.mem B.1).ptr = y.1
          rw [hmem_B]
          cases tail with
          | nil => simp at hy
          | cons t0 tl =>
            simp only [List.head?_cons, Option.mem_def, Option.some.injEq] at hy
            subst hy
            rfl
      · intro x hx y hy
        have hyP' : P = y := by
          cases tail <;> simpa using hy
        show (s'.mem x.1).ptr = y.1
        rw [← hyP']
        rw [hmem_u x (mem_of_getLast?_mem hx)]
        exact hlink_uP x hx
    · -- ptr_last
      cases tail with
      | nil =>
        simp only [List.append_nil]
        rw [getLastD_append_cons]
        show (s'.mem B.1).ptr = 0
        rw [hmem_B]
        rfl
      | cons t0 tl =>
        rw [show u ++ [P, (B.1, K)] ++ t0 :: tl = (u ++ [P, (B.1, K)]) ++ t0 :: tl
          by simp]
        rw [getLastD_append_cons]
        show (s'.mem ((t0 :: tl).getLastD (0, 0)).1).ptr = 0
        rw [hmem_tail _ (htail_last_mem (by simp))]
        exact hlast_tail t0 tl rfl
    · -- size_ok
      intro b hb
      rcases List.mem_append.mp hb with hb1 | hb2
      · rcases List.mem_append.mp hb1 with hb3 | hb4
        · exact hsize_u b hb3
        · rcases List.mem_cons.mp hb4 with hb5 | hb6
          · rw [hb5]
            show (s'.mem P.1).size = P.2
            rw [hmem_P, if_neg hlow]
          · simp only [List.mem_singleton] at hb6
            subst hb6
            show (s'.mem B.1).size = K
            rw [hmem_B]
      · exact hsize_tail b hb2
    · -- fl_bounds
      intro b hb
      rcases List.mem_append.mp hb with hb1 | hb2
      · rcases List.mem_append.mp hb1 with hb3 | hb4
        · exact hfl_bounds_u b hb3
        · rcases List.mem_cons.mp hb4 with hb5 | hb6
          · rw [hb5]
            rcases hP0 with he | hr
            · exact Or.inl he
            · exact Or.inr ⟨hr.1, hr.2.1, by rw [hbrk]; exact hr.2.2⟩
          · simp only [List.mem_singleton] at hb6
            subst hb6
            exact Or.inr ⟨hB1, hK1, by rw [hbrk]; exact hKbrk⟩
      · exact hfl_bounds_tail b hb2
    · -- freep_cur
      refine ⟨P.1, hfreep, ?_⟩
      refine List.mem_map.mpr ⟨P, ?_, rfl⟩
      exact List.mem_append_left _ (List.mem_append_right _ (by simp))
    · exact hal_ok
    · -- fl_al_disj
      intro x hx y hy
      rcases List.mem_append.mp hx with hx1 | hx2
      · rcases List.mem_append.mp hx1 with hx3 | hx4
        · exact hdisj_u x hx3 y hy
        · rcases List.mem_cons.mp hx4 with hx5 | hx6
          · rw [hx5]
            exact h.fl_al_disj P hPmem y hy
          · simp only [List.mem_singleton] at hx6
            subst hx6
            exact hKal y hy
      · exact hdisj_tail x hx2 y hy
    · rw [hbrk]; exact h.brk_pos
    · rw [hbrk, hlim]; exact h.brk_le
    · rw [hlim]; exact h.limit_lt

/-- Full specification of `free` on a valid block `B` (header recorded,
inside the arena, disjoint from all free and allocated blocks): the call
succeeds, the new free list is the coalesced insertion `insCoal fl B`,
the invariant is preserved, and the cursor is left at the insertion
predecessor (the free block closest below the freed one). -/
theorem freeOp_spec {s : St} {fl al : List Blk} (h : Inv s fl al) {B : Blk}
    (hB1 : 1 ≤ B.1) (hB2 : 1 ≤ B.2) (hBbrk : B.1 + B.2 ≤ s.brk)
    (hBsz : (s.mem B.1).size = B.2)
    (hBdisj : ∀ x ∈ fl, spanDisj x B)
    (hBal : ∀ y ∈ al, spanDisj B y)
    (fuel : Nat) (hfuel : fl.length ≤ fuel) :
    ∃ s', freeOp fuel s (some (B.1 + 1)) = some s' ∧
      Inv s' (insCoal fl B) al ∧
      (∃ P ∈ fl, s'.freep = some P.1 ∧ P.1 < B.1 ∧
        ∀ e ∈ fl, e.1 < B.1 → e.1 ≤ P.1) ∧
      s'.brk = s.brk ∧ s'.limit = s.limit ∧ s'.data = s.data := by
  have hne : ∀ b ∈ fl, b.1 ≠ B.1 := by
    intro b hb
    rcases h.fl_bounds b hb with he | ⟨h1, h2, h3⟩
    · rw [he]; simp; omega
    · have hd := hBdisj b hb
      simp only [spanDisj] at hd
      omega
  have hheadI : fl.headI.1 < B.1 := by
    cases hflc : fl with
    | nil => exact absurd hflc h.fl_ne
    | cons a t =>
      have ha : a = (0, 0) := by
        have := h.base_head
        rw [hflc] at this
        simpa using this
      simp only [List.headI, ha]
      omega
  obtain ⟨u, P, v, hfl, hPlt, hu, hv⟩ :=
    sorted_split_at fl B.1 h.fst_pairwise h.fl_ne hheadI hne
  obtain ⟨f, hf, hfm⟩ := h.freep_cur
  have hfind := h.findPos_eq hfl hPlt hu hv hne hf fuel hfuel
  have e1 : freeOp fuel s (some (B.1 + 1)) =
      some { s with mem := freeMerge s.mem B.1 P.1, freep := some P.1 } := by
    simp only [freeOp, hf, Nat.add_sub_cancel, hfind]
  have hPmem : P ∈ fl := by rw [hfl]; exact List.mem_append_right _ (by simp)
  have hP2 : (s.mem P.1).size = P.2 := h.size_ok P hPmem
  have hPB : P.1 + P.2 ≤ B.1 := by
    have := hBdisj P hPmem
    simp only [spanDisj] at this
    omega
  have hpn : (s.mem P.1).ptr = (v.headD (0, 0)).1 := h.ptr_decomp hfl
  have hP1B : P.1 ≠ B.1 := by omega
  have huB : ∀ b ∈ u, b.1 < B.1 := by
    intro b hb
    have := hu b hb
    omega
  have hBeta : ((B.1, B.2) : Blk) = B := rfl
  have hPmax : ∀ e ∈ fl, e.1 < B.1 → e.1 ≤ P.1 := by
    intro e he helt
    rw [hfl] at he
    rcases List.mem_append.mp he with h1 | h2
    · exact le_of_lt (hu e h1)
    · rcases List.mem_cons.mp h2 with h3 | h4
      · rw [h3]
      · exact absurd (hv e h4) (by omega)
  have hpnB : (s.mem P.1).ptr ≠ B.1 := by
    rw [hpn]
    cases v with
    | nil => simp; omega
    | cons y rest =>
      have := hv y (by simp)
      simp only [List.headD_cons]
      omega
  have hFM := freeMerge_eval s.mem B.1 P.1 hP1B hpnB
  have hlim2 := h.limit_lt
  have hble := h.brk_le
  cases v with
  | nil =>
    -- B is freed above the top free block P: no upper merge
    have hc1 : ¬ (B.1 + (s.mem B.1).size = (s.mem P.1).ptr) := by
      rw [hBsz, hpn]
      simp
      omega
    have hcoll : P.2 + B.2 < UMAX := by omega
    have hmem2 : freeMerge s.mem B.1 P.1 = fun x =>
        if x = P.1 then
          (if P.1 + P.2 = B.1 then ⟨(([] : List Blk).headD (0, 0)).1, P.2 + B.2⟩
           else ⟨B.1, P.2⟩)
        else if x = B.1 then ⟨(([] : List Blk).headD (0, 0)).1, B.2⟩ else s.mem x := by
      rw [hFM]
      funext x
      by_cases hx : x = P.1
      · simp only [if_pos hx]
        by_cases hlow : P.1 + P.2 = B.1
        · simp only [if_pos hlow,
            if_pos (show P.1 + (s.mem P.1).size = B.1 by rw [hP2]; exact hlow),
            if_neg hc1]
          rw [hP2, hBsz, hpn]
          rw [truncU_eq_of_lt hcoll]
        · simp only [if_neg hlow,
            if_neg (show ¬ (P.1 + (s.mem P.1).size = B.1) by rw [hP2]; exact hlow)]
          rw [hP2]
      · simp only [if_neg hx]
        by_cases hx2 : x = B.1
        · simp only [if_pos hx2, if_neg hc1]
          rw [hBsz, hpn]
        · simp only [if_neg hx2]
    have hreb := @Inv_rebuild s
      { s with mem := freeMerge s.mem B.1 P.1, freep := some P.1 } fl al h u P
      ([] : List Blk) hfl B hB1 hPlt hPB hu B.2 hB2 hBbrk ([] : List Blk)
      ⟨fl, by simp⟩ (by simp) (fun y hy => hBeta ▸ hBal y hy) hmem2 rfl rfl rfl
    refine ⟨_, e1, ?_, ⟨P, hPmem, rfl, hPlt, hPmax⟩, rfl, rfl, rfl⟩
    have hins : insCoal fl B =
        u ++ (if P.1 + P.2 = B.1 then [(P.1, P.2 + B.2)] else [P, (B.1, B.2)]) ++ [] := by
      rw [hfl, insCoal_eq_last u P B huB hPlt, hBeta]
      simp
    rw [hins]
    exact hreb
  | cons y rest =>
    have hymem : y ∈ fl := by rw [hfl]; exact List.mem_append_right _ (by simp)
    have hy2 : (s.mem y.1).size = y.2 := h.size_ok y hymem
    have hygt : B.1 < y.1 := hv y (by simp)
    have hyptr : (s.mem y.1).ptr = (rest.headD (0, 0)).1 :=
      h.ptr_decomp (show fl = (u ++ [P]) ++ y :: rest by rw [hfl]; simp)
    have hybounds : 1 ≤ y.1 ∧ 1 ≤ y.2 ∧ y.1 + y.2 ≤ s.brk := by
      rcases h.fl_bounds y hymem with he | hr
      · exfalso
        rw [he] at hygt
        simp at hygt
      · exact hr
    have hBy : B.1 + B.2 ≤ y.1 := by
      have := hBdisj y hymem
      simp only [spanDisj] at this
      omega
    have hpny : (s.mem P.1).ptr = y.1 := by rw [hpn]; rfl
    have hgap_y_rest : ∀ t ∈ rest, y.1 + y.2 < t.1 := by
      have hgg := h.gaps
      rw [hfl, List.pairwise_append] at hgg
      have h2 := hgg.2.1
      have h3 := (List.pairwise_cons.mp h2).2
      intro t ht
      exact (List.pairwise_cons.mp h3).1 t ht
    by_cases hc1 : B.1 + B.2 = y.1
    · -- the freed block is contiguous with y: upper merge
      have hc1' : B.1 + (s.mem B.1).size = (s.mem P.1).ptr := by
        rw [hBsz, hpny]
        exact hc1
      have hcollK : B.2 + y.2 < UMAX := by omega
      have hcoll2 : P.2 + (B.2 + y.2) < UMAX := by omega
      have hmem2 : freeMerge s.mem B.1 P.1 = fun x =>
          if x = P.1 then
            (if P.1 + P.2 = B.1 then ⟨(rest.headD (0, 0)).1, P.2 + (B.2 + y.2)⟩
             else ⟨B.1, P.2⟩)
          else if x = B.1 then ⟨(rest.headD (0, 0)).1, B.2 + y.2⟩ else s.mem x := by
        rw [hFM]
        funext x
        by_cases hx : x = P.1
        · simp only [if_pos hx]
          by_cases hlow : P.1 + P.2 = B.1
          · simp only [if_pos hlow,
              if_pos (show P.1 + (s.mem P.1).size = B.1 by rw [hP2]; exact hlow),
              if_pos hc1']
            rw [hP2, hBsz, hpny, hy2, hyptr]
            rw [truncU_eq_of_lt hcollK, truncU_eq_of_lt hcoll2]
          · simp only [if_neg hlow,
              if_neg (show ¬ (P.1 + (s.mem P.1).size = B.1) by rw [hP2]; exact hlow)]
            rw [hP2]
        · simp only [if_neg hx]
          by_cases hx2 : x = B.1
          · simp only [if_pos hx2, if_pos hc1']
            rw [hBsz, hpny, hy2, hyptr]
            rw [truncU_eq_of_lt hcollK]
          · simp only [if_neg hx2]
      have hKal2 : ∀ z ∈ al, spanDisj (B.1, B.2 + y.2) z := by
        intro z hz
        have h1 := hBal z hz
        have h2 : spanDisj (B.1 + B.2, y.2) z := by
          rw [hc1]
          have := h.fl_al_disj y hymem z hz
          simpa [spanDisj] using this
        exact spanDisj_join (h.al_ok z hz).2.1 h1 h2
      have hreb := @Inv_rebuild s
        { s with mem := freeMerge s.mem B.1 P.1, freep := some P.1 } fl al h u P
        (y :: rest) hfl B hB1 hPlt hPB hu (B.2 + y.2) (by omega) (by omega) rest
        ⟨u ++ [P, y], by rw [hfl]; simp⟩
        (by intro t ht; have := hgap_y_rest t ht; omega)
        hKal2 hmem2 rfl rfl rfl
      refine ⟨_, e1, ?_, ⟨P, hPmem, rfl, hPlt, hPmax⟩, rfl, rfl, rfl⟩
      have hins : insCoal fl B =
          u ++ (if P.1 + P.2 = B.1 then [(P.1, P.2 + (B.2 + y.2))]
            else [P, (B.1, B.2 + y.2)]) ++ rest := by
        rw [hfl, insCoal_eq_mid u P y rest B huB hPlt hygt]
        rw [if_pos hc1]
        by_cases hlow : P.1 + P.2 = B.1
        · rw [if_pos hlow, if_pos hlow]
          simp [Nat.add_assoc]
        · rw [if_neg hlow, if_neg hlow]
          simp
      rw [hins]
      exact hreb
    · -- no upper merge: y stays separate
      have hc1' : ¬ (B.1 + (s.mem B.1).size = (s.mem P.1).ptr) := by
        rw [hBsz, hpny]
        exact hc1
      have hcoll : P.2 + B.2 < UMAX := by omega
      have hmem2 : freeMerge s.mem B.1 P.1 = fun x =>
          if x = P.1 then
            (if P.1 + P.2 = B.1 then ⟨((y :: rest).headD (0, 0)).1, P.2 + B.2⟩
             else ⟨B.1, P.2⟩)
          else if x = B.1 then ⟨((y :: rest).headD (0, 0)).1, B.2⟩ else s.mem x := by
        rw [hFM]
        funext x
        by_cases hx : x = P.1
        · simp only [if_pos hx]
          by_cases hlow : P.1 + P.2 = B.1
          · simp only [if_pos hlow,
              if_pos (show P.1 + (s.mem P.1).size = B.1 by rw [hP2]; exact hlow),
              if_neg hc1']
            rw [hP2, hBsz, hpny]
            rw [truncU_eq_of_lt hcoll]
            rfl
          · simp only [if_neg hlow,
              if_neg (show ¬ (P.1 + (s.mem P.1).size = B.1) by rw [hP2]; exact hlow)]
            rw [hP2]
        · simp only [if_neg hx]
          by_cases hx2 : x = B.1
          · simp only [if_pos hx2, if_neg hc1']
            rw [hBsz, hpny]
            rfl
          · simp only [if_neg hx2]
      have hreb := @Inv_rebuild s
        { s with mem := freeMerge s.mem B.1 P.1, freep := some P.1 } fl al h u P
        (y :: rest) hfl B hB1 hPlt hPB hu B.2 hB2 hBbrk (y :: rest)
        ⟨u ++ [P], by rw [hfl]; simp⟩
        (by
          intro t ht
          rcases List.mem_cons.mp ht with h1 | h2
          · rw [h1]; omega
          · have := hgap_y_rest t h2; omega)
        (fun z hz => hBeta ▸ hBal z hz) hmem2 rfl rfl rfl
      refine ⟨_, e1, ?_, ⟨P, hPmem, rfl, hPlt, hPmax⟩, rfl, rfl, rfl⟩
      have hins : insCoal fl B =
          u ++ (if P.1 + P.2 = B.1 then [(P.1, P.2 + B.2)] else [P, (B.1, B.2)])
            ++ (y :: rest) := by
        rw [hfl, insCoal_eq_mid u P y rest B huB hPlt hygt]
        rw [if_neg hc1]
        by_cases hlow : P.1 + P.2 = B.1
        · rw [if_pos hlow, if_pos hlow]
          simp
        · rw [if_neg hlow, if_neg hlow]
          rw [hBeta]
          simp
      rw [hins]
      exact hreb

/-! ### State surgery preserving the invariant -/

/-- `setPtr` never changes a size field. -/
theorem setPtr_size (m : Mem) (a v x : Nat) : ((setPtr m a v) x).size = (m x).size := by
  by_cases h : x = a
  · subst h; simp
  · rw [setPtr_other m v h]

/-- `setSize` never changes a ptr field. -/
theorem setSize_ptr (m : Mem) (a v x : Nat) : ((setSize m a v) x).ptr = (m x).ptr := by
  by_cases h : x = a
  · subst h; simp
  · rw [setSize_other m v h]

theorem spanDisj_symm {x y : Blk} (h : spanDisj x y) : spanDisj y x := Or.symm h

/-- Free-block addresses lie strictly below the break. -/
theorem Inv.addr_lt {s : St} {fl al : List Blk} (h : Inv s fl al) {b : Blk}
    (hb : b ∈ fl) : b.1 < s.brk := by
  rcases h.fl_bounds b hb with he | ⟨h1, h2, h3⟩
  · have := h.brk_pos
    rw [he]
    omega
  · omega

/-- Allocated-block addresses lie strictly below the break. -/
theorem Inv.al_addr_lt {s : St} {fl al : List Blk} (h : Inv s fl al) {b : Blk}
    (hb : b ∈ al) : b.1 < s.brk := by
  have := h.al_ok b hb
  omega

/-- The invariant reads headers only below the break: it survives any
mutation at or beyond the break and any growth of the arena. -/
theorem Inv.mem_congr {s s' : St} {fl al : List Blk} (h : Inv s fl al)
    (hmem : ∀ a, a < s.brk → s'.mem a = s.mem a)
    (hfp : s'.freep = s.freep) (hbrk : s.brk ≤ s'.brk)
    (hle : s'.brk ≤ s'.limit) (hlt : s'.limit < UMAX) :
    Inv s' fl al := by
  refine ⟨h.base_head, h.gaps, ?_, ?_, ?_, ?_, ?_, ?_, h.al_disj, h.fl_al_disj, ?_, hle, hlt⟩
  · exact chain'_ptrLink_congr (fun b hb => by rw [hmem b.1 (h.addr_lt hb)]) h.ptr_chain
  · rw [hmem _ (h.addr_lt (getLastD_mem fl (0, 0) h.fl_ne))]
    exact h.ptr_last
  · intro b hb
    rw [hmem b.1 (h.addr_lt hb)]
    exact h.size_ok b hb
  · intro b hb
    rcases h.fl_bounds b hb with he | ⟨h1, h2, h3⟩
    · exact Or.inl he
    · exact Or.inr ⟨h1, h2, by omega⟩
  · obtain ⟨f, hf, hm⟩ := h.freep_cur
    exact ⟨f, by rw [hfp]; exact hf, hm⟩
  · intro b hb
    obtain ⟨h1, h2, h3, h4⟩ := h.al_ok b hb
    exact ⟨h1, h2, by omega, by rw [hmem b.1 (h.al_addr_lt hb)]; exact h4⟩
  · have := h.brk_pos
    omega

/-- The invariant restricts to any sublist of the allocated blocks. -/
theorem Inv.al_sublist {s : St} {fl al al' : List Blk} (h : Inv s fl al)
    (hsub : al'.Sublist al) : Inv s fl al' :=
  ⟨h.base_head, h.gaps, h.ptr_chain, h.ptr_last, h.size_ok, h.fl_bounds, h.freep_cur,
   fun b hb => h.al_ok b (hsub.subset hb), h.al_disj.sublist hsub,
   fun x hx y hy => h.fl_al_disj x hx y (hsub.subset hy), h.brk_pos, h.brk_le, h.limit_lt⟩

/-- Any two distinct free blocks have disjoint spans. -/
theorem Inv.fl_disj {s : St} {fl al : List Blk} (h : Inv s fl al) {x y : Blk}
    (hx : x ∈ fl) (hy : y ∈ fl) (hne : x ≠ y) : spanDisj x y := by
  have hp : fl.Pairwise (fun a b => spanDisj a b ∧ spanDisj b a) := by
    refine h.gaps.imp ?_
    intro a b hab
    simp only [gapR] at hab
    exact ⟨Or.inl (by omega), Or.inr (by omega)⟩
  have hsymm : Symmetric (fun a b : Blk => spanDisj a b ∧ spanDisj b a) :=
    fun a b hab => ⟨hab.2, hab.1⟩
  exact (hp.forall hsymm hx hy hne).1

/-- Bootstrapping establishes the invariant for the bare sentinel ring. -/
theorem bootstrap_Inv {s : St} (h : PreInit s) : Inv (bootstrap s) [(0, 0)] [] := by
  obtain ⟨hfp, hb1, hbl, hlt⟩ := h
  refine ⟨rfl, by simp, by simp, ?_, ?_, ?_, ⟨0, rfl, by simp⟩,
    by simp, by simp, by simp, hb1, hbl, hlt⟩
  · simp [bootstrap, setPtr, List.getLastD]
  · intro b hb
    simp only [List.mem_singleton] at hb
    subst hb
    simp [bootstrap, setPtr]
  · intro b hb
    simp only [List.mem_singleton] at hb
    exact Or.inl hb

/-- A first call to `malloc` with a nonzero request builds the one-block
ring and then proceeds exactly as on the bootstrapped state. -/
theorem mallocFirst_of_preinit {s : St} (hfp : s.freep = none) {n : Nat} (hn : n ≠ 0)
    (fuel : Nat) : mallocFirst fuel s n = mallocFirst fuel (bootstrap s) n := by
  rw [mallocFirst, mallocFirst, if_neg hn, if_neg hn, hfp]
  rfl

/-- The cursor names a block of the free list, splitting it. -/
theorem Inv.cursor_split {s : St} {fl al : List Blk} (h : Inv s fl al) :
    ∃ w C z, fl = w ++ C :: z ∧ s.freep = some C.1 := by
  obtain ⟨f, hf, hfm⟩ := h.freep_cur
  obtain ⟨C, hCmem, hCf⟩ := List.mem_map.mp hfm
  obtain ⟨w, z, hwz⟩ := List.append_of_mem hCmem
  exact ⟨w, C, z, hwz, by rw [hf, hCf]⟩

/-- Every block of the cyclic scan order is a free block. -/
theorem ring_mem {fl w z : List Blk} {C : Blk} (hwz : fl = w ++ C :: z) :
    ∀ b ∈ z ++ w ++ [C], b ∈ fl := by
  intro b hb
  rw [hwz]
  rcases List.mem_append.mp hb with hb1 | hb2
  · rcases List.mem_append.mp hb1 with h1 | h2
    · exact List.mem_append_right _ (List.mem_cons_of_mem _ h1)
    · exact List.mem_append_left _ h2
  · simp only [List.mem_singleton] at hb2
    subst hb2
    exact List.mem_append_right _ (List.mem_cons_self _ _)

/-! ### The arena grower -/

/-- `morecore` when the break cannot grow: `sbrk` refuses and the call
returns NULL with the state untouched. -/
theorem morecore_fail {s : St} {nu0 : Nat} (fuel : Nat)
    (h : s.limit < s.brk + max nu0 NALLOC) :
    morecore fuel s nu0 = some (s, none) := by
  have hnu : (if nu0 < NALLOC then NALLOC else nu0) = max nu0 NALLOC := by
    split <;> omega
  rw [morecore]
  simp only [hnu]
  rw [if_pos (by omega)]

/-- `morecore` when the arena can grow: the break advances by
`max nu0 NALLOC` units, the new region is stamped with its size and folded
into the free list by `free`, and the updated cursor is returned. -/
theorem morecore_ok {s : St} {fl al : List Blk} (h : Inv s fl al) {nu0 : Nat}
    (fuel : Nat) (hfuel : fl.length ≤ fuel)
    (hfit : s.brk + max nu0 NALLOC ≤ s.limit) :
    ∃ s2, morecore fuel s nu0 = some (s2, s2.freep) ∧
      Inv s2 (insCoal fl (s.brk, max nu0 NALLOC)) al ∧
      (∃ P ∈ fl, s2.freep = some P.1 ∧ P.1 < s.brk ∧
        ∀ e ∈ fl, e.1 < s.brk → e.1 ≤ P.1) ∧
      s2.brk = s.brk + max nu0 NALLOC ∧ s2.limit = s.limit ∧ s2.data = s.data := by
  have hnu : (if nu0 < NALLOC then NALLOC else nu0) = max nu0 NALLOC := by
    split <;> omega
  have hnalloc : NALLOC ≤ max nu0 NALLOC := le_max_right _ _
  have hnu1 : 1 ≤ max nu0 NALLOC := by
    have : (1024 : Nat) = NALLOC := rfl
    omega
  have hnuU : max nu0 NALLOC < UMAX := by
    have := h.brk_pos
    have := h.limit_lt
    omega
  have h1 : Inv { s with brk := s.brk + max nu0 NALLOC,
                         mem := setSize s.mem s.brk (truncU (max nu0 NALLOC)) } fl al := by
    refine h.mem_congr (fun a ha => setSize_other _ _ (by omega)) rfl ?_ ?_ h.limit_lt
    · simp
    · exact hfit
  obtain ⟨s2, he, hinv, hcur, hbrk2, hlim2, hdata2⟩ :=
    @freeOp_spec _ fl al h1 (s.brk, max nu0 NALLOC) h.brk_pos hnu1
      (by simp) (by simp [truncU_eq_of_lt hnuU])
      (by
        intro x hx
        rcases h.fl_bounds x hx with hh | ⟨hh1, hh2, hh3⟩
        · rw [hh]
          exact Or.inl (by simp)
        · exact Or.inl hh3)
      (by
        intro y hy
        exact Or.inr (h.al_ok y hy).2.2.1)
      fuel hfuel
  refine ⟨s2, ?_, hinv, hcur, by rw [hbrk2], by rw [hlim2], by rw [hdata2]⟩
  rw [morecore]
  simp only [hnu]
  rw [if_neg (by omega)]
  simp only [he]

/-! ### The first-fit scan -/

/-- A failed scan means no block of the scan list fits. -/
theorem ffScan_none {nunits : Nat} :
    ∀ (L : List Blk) (pv : Nat), ffScan nunits pv L = none → ∀ b ∈ L, b.2 < nunits := by
  intro L
  induction L with
  | nil =>
    intro pv _ b hb
    simp at hb
  | cons c rest ih =>
    intro pv hs b hb
    rw [ffScan] at hs
    by_cases hc : nunits ≤ c.2
    · rw [if_pos hc] at hs
      exact absurd hs (by simp)
    · rw [if_neg hc] at hs
      rcases List.mem_cons.mp hb with h1 | h2
      · subst h1; omega
      · exact ih c.1 hs b h2

/-- A successful scan returns the first fitting block in scan order,
together with the address of the block scanned just before it. -/
theorem ffScan_decomp {nunits : Nat} :
    ∀ (L : List Blk) (pv : Nat) {T : Blk} {pvT : Nat},
      ffScan nunits pv L = some (T, pvT) →
      ∃ L1 L2, L = L1 ++ T :: L2 ∧ (∀ b ∈ L1, b.2 < nunits) ∧ nunits ≤ T.2 ∧
        pvT = (L1.map Prod.fst).getLastD pv := by
  intro L
  induction L with
  | nil =>
    intro pv T pvT hs
    rw [ffScan] at hs
    exact absurd hs (by simp)
  | cons c rest ih =>
    intro pv T pvT hs
    rw [ffScan] at hs
    by_cases hc : nunits ≤ c.2
    · rw [if_pos hc] at hs
      simp only [Option.some.injEq, Prod.mk.injEq] at hs
      obtain ⟨h1, h2⟩ := hs
      subst h1
      subst h2
      exact ⟨[], rest, by simp, by simp, hc, by simp⟩
    · rw [if_neg hc] at hs
      obtain ⟨L1, L2, he, hlt, hT, hpv⟩ := ih c.1 hs
      refine ⟨c :: L1, L2, by rw [he]; rfl, ?_, hT, ?_⟩
      · intro b hb
        rcases List.mem_cons.mp hb with h1 | h2
        · subst h1; omega
        · exact hlt b h2
      · rw [List.map_cons, List.getLastD_cons]
        exact hpv

/-- A block that fits guarantees the scan succeeds. -/
theorem ffScan_total {nunits : Nat} {L : List Blk} (pv : Nat) {b : Blk}
    (hb : b ∈ L) (hfit : nunits ≤ b.2) :
    ∃ T pvT, ffScan nunits pv L = some (T, pvT) := by
  cases hs : ffScan nunits pv L with
  | none => exact absurd hfit (by have := ffScan_none L pv hs b hb; omega)
  | some r => exact ⟨r.1, r.2, rfl⟩

/-- The first-fit loop on a chained scan list whose scan succeeds: it
returns the first-fit result at the found block. -/
theorem mallocLoopFirst_found {s : St} {nunits : Nat} :
    ∀ (L : List Blk) (pv : Nat) (fuel : Nat), L.length ≤ fuel →
      L.Chain' (ptrLink s.mem) →
      (∀ b ∈ L, (s.mem b.1).size = b.2) →
      (∀ b ∈ L.dropLast, s.freep ≠ some b.1) →
      ∀ {T : Blk} {pvT : Nat}, ffScan nunits pv L = some (T, pvT) →
      mallocLoopFirst fuel s nunits pv (L.headI).1 = some (ffResult s nunits T pvT) := by
  intro L
  induction L with
  | nil =>
    intro pv fuel _ _ _ _ T pvT hs
    rw [ffScan] at hs
    exact absurd hs (by simp)
  | cons c rest ih =>
    intro pv fuel hfuel hchain hsz hfp T pvT hs
    cases fuel with
    | zero => simp at hfuel
    | succ fuel =>
      have hszc := hsz c (by simp)
      rw [ffScan] at hs
      simp only [List.headI]
      rw [mallocLoopFirst]
      by_cases hc : nunits ≤ c.2
      · rw [if_pos hc] at hs
        simp only [Option.some.injEq, Prod.mk.injEq] at hs
        obtain ⟨h1, h2⟩ := hs
        subst h1
        subst h2
        rw [if_pos (show (s.mem c.1).size ≥ nunits by omega)]
        by_cases he : (s.mem c.1).size = nunits
        · rw [if_pos he, ffResult, if_pos he]
        · rw [if_neg he, ffResult, if_neg he]
      · rw [if_neg hc] at hs
        cases rest with
        | nil =>
          rw [ffScan] at hs
          exact absurd hs (by simp)
        | cons d rest' =>
          rw [if_neg (show ¬ (s.mem c.1).size ≥ nunits by omega)]
          rw [if_neg (show ¬ (some c.1 = s.freep) from
            fun he => hfp c (by simp) he.symm)]
          have hlink : (s.mem c.1).ptr = d.1 := (List.chain'_cons.mp hchain).1
          rw [hlink]
          exact ih c.1 fuel (by simp only [List.length_cons] at hfuel ⊢; omega)
            (List.chain'_cons.mp hchain).2
            (fun b hb => hsz b (by simp [hb]))
            (fun b hb => hfp b (by rw [List.dropLast_cons₂]; exact List.mem_cons_of_mem _ hb))
            hs

/-- The first-fit loop on a chained scan list whose scan fails: the whole
revolution is walked without mutation and the arena grower is consulted
at the wrap, the loop continuing from the cursor it returns. -/
theorem mallocLoopFirst_nofit {s : St} {nunits : Nat} :
    ∀ (L : List Blk) (pv : Nat) (fuel0 : Nat),
      L ≠ [] →
      L.Chain' (ptrLink s.mem) →
      (∀ b ∈ L, (s.mem b.1).size = b.2) →
      (∀ b ∈ L.dropLast, s.freep ≠ some b.1) →
      s.freep = some ((L.getLastD (0, 0)).1) →
      ffScan nunits pv L = none →
      mallocLoopFirst (fuel0 + L.length) s nunits pv (L.headI).1 =
        (match morecore fuel0 s nunits with
         | none => none
         | some (s', none) => some (s', none)
         | some (s', some f) => mallocLoopFirst fuel0 s' nunits f ((s'.mem f).ptr)) := by
  intro L
  induction L with
  | nil =>
    intro pv fuel0 hne
    exact absurd rfl hne
  | cons c rest ih =>
    intro pv fuel0 _ hchain hsz hfp hlast hs
    have hszc := hsz c (by simp)
    rw [ffScan] at hs
    have hc : ¬ nunits ≤ c.2 := by
      intro hcc
      rw [if_pos hcc] at hs
      simp at hs
    rw [if_neg hc] at hs
    simp only [List.headI, List.length_cons]
    rw [← Nat.add_assoc, mallocLoopFirst]
    rw [if_neg (show ¬ (s.mem c.1).size ≥ nunits by omega)]
    cases rest with
    | nil =>
      rw [if_pos (show some c.1 = s.freep by rw [hlast]; rfl)]
      simp only [List.length_nil, Nat.add_zero]
    | cons d rest' =>
      rw [if_neg (show ¬ (some c.1 = s.freep) from
        fun he => hfp c (by simp) he.symm)]
      have hlink : (s.mem c.1).ptr = d.1 := (List.chain'_cons.mp hchain).1
      rw [hlink]
      have hlast' : s.freep = some (((d :: rest').getLastD (0, 0)).1) := by
        rw [hlast]
        simp [List.getLastD_cons]
      exact ih c.1 fuel0 (by simp)
        (List.chain'_cons.mp hchain).2
        (fun b hb => hsz b (by simp [hb]))
        (fun b hb => hfp b (by rw [List.dropLast_cons₂]; exact List.mem_cons_of_mem _ hb))
        hlast' hs

/-- One revolution of the first-fit loop from the cursor: either the
first fitting block of the cyclic scan order is served, or — when the
full revolution finds no fit — the arena grower is invoked with `nunits`
and the loop continues from the cursor it returns. -/
theorem mallocLoop_from_cursor {s : St} {fl al : List Blk} (h : Inv s fl al)
    {w z : List Blk} {C : Blk} (hwz : fl = w ++ C :: z) (hfp : s.freep = some C.1)
    (nunits : Nat) (fuel0 : Nat) :
    mallocLoopFirst (fuel0 + fl.length) s nunits C.1 ((s.mem C.1).ptr) =
      (match ffScan nunits C.1 (z ++ w ++ [C]) with
       | some (T, pvT) => some (ffResult s nunits T pvT)
       | none =>
         match morecore fuel0 s nunits with
         | none => none
         | some (s', none) => some (s', none)
         | some (s', some f) =>
           mallocLoopFirst fuel0 s' nunits f ((s'.mem f).ptr)) := by
  have hchain_ring := h.chain_ring hwz
  have hchainL : (z ++ w ++ [C]).Chain' (ptrLink s.mem) :=
    (List.chain'_cons'.mp hchain_ring).2
  have hLne : z ++ w ++ [C] ≠ [] := by simp
  have hsize : ∀ b ∈ z ++ w ++ [C], (s.mem b.1).size = b.2 :=
    fun b hb => h.size_ok b (ring_mem hwz b hb)
  have hnd := h.nodup
  have hCw : C ∉ w := by
    rw [hwz] at hnd
    intro hin
    exact (List.disjoint_of_nodup_append hnd) hin (by simp)
  have hCz : C ∉ z := by
    rw [hwz] at hnd
    have := (List.nodup_append.mp hnd).2.1
    exact (List.nodup_cons.mp this).1
  have hdrop : ∀ b ∈ (z ++ w ++ [C]).dropLast, s.freep ≠ some b.1 := by
    intro b hb hbe
    have hbzw : b ∈ z ++ w := by
      have : (z ++ w ++ [C]).dropLast = z ++ w := List.dropLast_concat
      rwa [this] at hb
    have hb1 : b.1 = C.1 := by
      rw [hfp] at hbe
      simpa using hbe.symm
    have hbC : b = C := h.addr_inj (ring_mem hwz b (List.mem_append_left _ hbzw))
      (by rw [hwz]; exact List.mem_append_right _ (by simp)) hb1
    subst hbC
    rcases List.mem_append.mp hbzw with h1 | h2
    · exact hCz h1
    · exact hCw h2
  have hlast : s.freep = some (((z ++ w ++ [C]).getLastD (0, 0)).1) := by
    rw [getLastD_append_cons (z ++ w) C []]
    exact hfp
  have hlen : (z ++ w ++ [C]).length = fl.length := by
    rw [hwz]
    simp only [List.length_append, List.length_cons, List.length_nil]
    omega
  rw [← hlen]
  have hhead : (s.mem C.1).ptr = ((z ++ w ++ [C]).headI).1 := by
    have h1 := (List.chain'_cons'.mp hchain_ring).1
    cases hL : z ++ w ++ [C] with
    | nil => exact absurd hL hLne
    | cons q t =>
      exact h1 q (by rw [hL]; rfl)
  rw [hhead]
  cases hscan : ffScan nunits C.1 (z ++ w ++ [C]) with
  | some r =>
    obtain ⟨T, pvT⟩ := r
    simp only
    exact mallocLoopFirst_found (z ++ w ++ [C]) C.1 (fuel0 + (z ++ w ++ [C]).length)
      (by omega) hchainL hsize hdrop hscan
  | none =>
    simp only
    exact mallocLoopFirst_nofit (z ++ w ++ [C]) C.1 fuel0 hLne hchainL hsize hdrop
      hlast hscan

/-- One revolution of the first-fit `malloc` from the cursor: either the
first fitting block of the cyclic scan order is served, or — when the
full revolution finds no fit — the arena grower is invoked with `nunits`
and the scan continues from the cursor it returns, failing only if growth
fails. -/
theorem mallocFirst_eq {s : St} {fl al : List Blk} (h : Inv s fl al)
    {w z : List Blk} {C : Blk} (hwz : fl = w ++ C :: z) (hfp : s.freep = some C.1)
    {n : Nat} (hn : n ≠ 0) (fuel0 : Nat) :
    mallocFirst (fuel0 + fl.length) s n =
      (match ffScan (nunitsOf n) C.1 (z ++ w ++ [C]) with
       | some (T, pvT) => some (ffResult s (nunitsOf n) T pvT)
       | none =>
         match morecore fuel0 s (nunitsOf n) with
         | none => none
         | some (s', none) => some (s', none)
         | some (s', some f) =>
           mallocLoopFirst fuel0 s' (nunitsOf n) f ((s'.mem f).ptr)) := by
  have hstart : mallocFirst (fuel0 + fl.length) s n =
      mallocLoopFirst (fuel0 + fl.length) s (nunitsOf n) C.1 ((s.mem C.1).ptr) := by
    rw [mallocFirst, if_neg hn, hfp]
  rw [hstart]
  exact mallocLoop_from_cursor h hwz hfp (nunitsOf n) fuel0

/-! ### The scan predecessor is the ring predecessor -/

/-- At most one free block points at a given nonzero address. -/
theorem Inv.ptr_inj {s : St} {fl al : List Blk} (h : Inv s fl al) {x y : Blk} {t : Nat}
    (hx : x ∈ fl) (hy : y ∈ fl) (ht : 1 ≤ t)
    (hxp : (s.mem x.1).ptr = t) (hyp : (s.mem y.1).ptr = t) : x = y := by
  rcases h.succ_spec hx with ⟨h0, _⟩ | ⟨c, hc, hptr, hxc, hmin⟩
  · rw [h0] at hxp
    omega
  · rcases h.succ_spec hy with ⟨h0', _⟩ | ⟨c', hc', hptr', hyc, hmin'⟩
    · rw [h0'] at hyp
      omega
    · have hct : c.1 = t := by rw [← hptr]; exact hxp
      have hct' : c'.1 = t := by rw [← hptr']; exact hyp
      have hxy : x.1 = y.1 := by
        rcases Nat.lt_trichotomy x.1 y.1 with h1 | h1 | h1
        · have := hmin y hy h1
          omega
        · exact h1
        · have := hmin' x hx h1
          omega
      exact h.addr_inj hx hy hxy

/-- Every free block of nonzero size has a predecessor on the sorted
list (the sentinel sits below it). -/
theorem Inv.pred_decomp {s : St} {fl al : List Blk} (h : Inv s fl al) {T : Blk}
    (hT : T ∈ fl) (hT2 : 1 ≤ T.2) :
    ∃ a Q b, fl = a ++ Q :: T :: b := by
  obtain ⟨u, v, huv⟩ := List.append_of_mem hT
  cases u with
  | nil =>
    exfalso
    have hb := h.base_head
    rw [huv] at hb
    simp only [List.nil_append, List.head?_cons, Option.some.injEq] at hb
    rw [hb] at hT2
    simp at hT2
  | cons q u' =>
    have hne : q :: u' ≠ [] := by simp
    obtain ⟨a, Q, haQ⟩ : ∃ a Q, q :: u' = a ++ [Q] :=
      ⟨(q :: u').dropLast, (q :: u').getLast hne,
        (List.dropLast_append_getLast hne).symm⟩
    refine ⟨a, Q, v, ?_⟩
    rw [huv, haQ]
    simp

/-- `getLast?` of a nonempty list as a defaulted last element. -/
theorem getLast?_cons_eq {α : Type} (c : α) (l : List α) (d : α) :
    (c :: l).getLast? = some ((c :: l).getLastD d) := by
  rw [List.getLastD_eq_getLast?]
  cases hl : (c :: l).getLast? with
  | none =>
    exfalso
    rw [List.getLast?_eq_getLast _ (by simp)] at hl
    simp at hl
  | some x => rfl

/-- The defaulted last key of a mapped scan prefix is the last block's
address. -/
theorem map_fst_getLastD : ∀ (L1 : List Blk) (C : Blk),
    (L1.map Prod.fst).getLastD C.1 = ((C :: L1).getLastD (0, 0)).1 := by
  intro L1
  induction L1 with
  | nil => intro C; rfl
  | cons x t ih =>
    intro C
    simp only [List.map_cons, List.getLastD_cons]
    rw [ih x]
    simp only [List.getLastD_cons]

/-- The predecessor address recorded by the first-fit scan is the ring
predecessor of the found block: the block just below it on the sorted
list. -/
theorem scan_pred_eq {s : St} {fl al : List Blk} (h : Inv s fl al)
    {w z : List Blk} {C : Blk} (hwz : fl = w ++ C :: z)
    {L1 L2 : List Blk} {T : Blk} (hL : z ++ w ++ [C] = L1 ++ T :: L2)
    {a : List Blk} {Q : Blk} {b : List Blk} (hQ : fl = a ++ Q :: T :: b)
    (hT1 : 1 ≤ T.1) :
    (L1.map Prod.fst).getLastD C.1 = Q.1 := by
  have hchain := h.chain_ring hwz
  rw [hL, show C :: (L1 ++ T :: L2) = (C :: L1) ++ T :: L2 by simp] at hchain
  obtain ⟨hc1, hc2, hcross⟩ := List.chain'_append.mp hchain
  have hlink : (s.mem (((C :: L1).getLastD (0, 0)).1)).ptr = T.1 := by
    have := hcross ((C :: L1).getLastD (0, 0))
      (by rw [getLast?_cons_eq C L1 (0, 0)]; rfl) T (by simp)
    exact this
  have hRfl : (C :: L1).getLastD (0, 0) ∈ fl := by
    rcases List.mem_cons.mp (getLastD_mem (C :: L1) (0, 0) (by simp)) with h1 | h2
    · rw [h1, hwz]
      exact List.mem_append_right _ (by simp)
    · refine ring_mem hwz _ ?_
      rw [hL]
      exact List.mem_append_left _ h2
  have hQlink : (s.mem Q.1).ptr = T.1 := by
    have := h.ptr_decomp (show fl = a ++ Q :: (T :: b) from hQ)
    simpa using this
  have hQfl : Q ∈ fl := by
    rw [hQ]
    exact List.mem_append_right _ (by simp)
  have hRQ := h.ptr_inj hRfl hQfl hT1 hlink hQlink
  rw [map_fst_getLastD L1 C, hRQ]

/-- Chains of the linking relation only read block addresses. -/
theorem chain'_ptrLink_fst {m : Mem} :
    ∀ {l l' : List Blk}, l.map Prod.fst = l'.map Prod.fst →
      l.Chain' (ptrLink m) → l'.Chain' (ptrLink m) := by
  intro l
  induction l with
  | nil =>
    intro l' hmap _
    have : l' = [] := by
      cases l' with
      | nil => rfl
      | cons y t => simp at hmap
    rw [this]
    exact List.chain'_nil
  | cons x t ih =>
    intro l' hmap hc
    cases l' with
    | nil => simp at hmap
    | cons y t' =>
      simp only [List.map_cons, List.cons.injEq] at hmap
      obtain ⟨hxy, hmap'⟩ := hmap
      obtain ⟨hlink, hc'⟩ := List.chain'_cons'.mp hc
      refine List.chain'_cons'.mpr ⟨?_, ih hmap' hc'⟩
      intro u hu
      cases t' with
      | nil => simp at hu
      | cons v t'' =>
        simp only [List.head?_cons, Option.mem_def, Option.some.injEq] at hu
        subst hu
        cases t with
        | nil => simp at hmap'
        | cons v' t3 =>
          simp only [List.map_cons, List.cons.injEq] at hmap'
          have := hlink v' (by simp)
          rw [ptrLink] at this ⊢
          rw [← hxy, this, hmap'.1]

/-! ### The invariant across an unlink and across a split -/

/-- Unlinking an exactly fitting block from the ring preserves the
invariant; the block moves to the allocated side whole. -/
theorem unlink_Inv {s : St} {fl al : List Blk} (h : Inv s fl al)
    {a : List Blk} {Q T : Blk} {b : List Blk} (hfl : fl = a ++ Q :: T :: b)
    (s' : St) (hmem : s'.mem = setPtr s.mem Q.1 ((s.mem T.1).ptr))
    (hfp : s'.freep = some Q.1) (hbrk : s'.brk = s.brk) (hlim : s'.limit = s.limit)
    (hT2 : 1 ≤ T.2) :
    Inv s' (a ++ Q :: b) (T :: al) := by
  have hTfl : T ∈ fl := by rw [hfl]; exact List.mem_append_right _ (by simp)
  have hQfl : Q ∈ fl := by rw [hfl]; exact List.mem_append_right _ (by simp)
  have hpw := h.fst_pairwise
  rw [hfl, List.pairwise_append] at hpw
  obtain ⟨hpa, hpQTb, hcross⟩ := hpw
  obtain ⟨hQall, hpTb⟩ := List.pairwise_cons.mp hpQTb
  obtain ⟨hTall, hpb⟩ := List.pairwise_cons.mp hpTb
  have hQT : Q.1 < T.1 := hQall T (by simp)
  have haQ : ∀ x ∈ a, x.1 < Q.1 := fun x hx => hcross x hx Q (by simp)
  have hsz' : ∀ x, (s'.mem x).size = (s.mem x).size := by
    intro x
    rw [hmem]
    exact setPtr_size _ _ _ _
  have hother : ∀ x, x ≠ Q.1 → s'.mem x = s.mem x := by
    intro x hx
    rw [hmem]
    exact setPtr_other _ _ hx
  have hptrT : (s.mem T.1).ptr = (b.headD (0, 0)).1 :=
    h.ptr_decomp (show fl = (a ++ [Q]) ++ T :: b by rw [hfl]; simp)
  have hQptr : (s'.mem Q.1).ptr = (b.headD (0, 0)).1 := by
    rw [hmem]
    simp [hptrT]
  have hsub : (a ++ Q :: b).Sublist fl := by
    rw [hfl]
    exact (List.Sublist.cons₂ Q (List.sublist_cons_self T b)).append_left a
  have hsubset := hsub.subset
  have hnd := h.nodup
  have hTnotin : T ∉ a ++ Q :: b := by
    rw [hfl] at hnd
    intro hTin
    rcases List.mem_append.mp hTin with h1 | h2
    · exact (List.disjoint_of_nodup_append hnd) h1 (by simp)
    · have hnd2 := (List.nodup_append.mp hnd).2.1
      obtain ⟨hQni, hnd3⟩ := List.nodup_cons.mp hnd2
      rcases List.mem_cons.mp h2 with h3 | h4
      · exact hQni (by rw [← h3]; simp)
      · exact (List.nodup_cons.mp hnd3).1 h4
  refine ⟨?_, h.gaps.sublist hsub, ?_, ?_, ?_, ?_, ?_, ?_, ?_, ?_, ?_, ?_, ?_⟩
  · have hh : (a ++ Q :: b).head? = fl.head? := by
      rw [hfl]
      cases a <;> simp
    rw [hh]
    exact h.base_head
  · -- the chain with T unlinked
    have hch := h.ptr_chain
    rw [hfl, show a ++ Q :: T :: b = (a ++ [Q]) ++ T :: b by simp] at hch
    obtain ⟨hchaQ, hchTb, _⟩ := List.chain'_append.mp hch
    obtain ⟨hchaA, _, hcrossaQ⟩ := List.chain'_append.mp hchaQ
    rw [show a ++ Q :: b = (a ++ [Q]) ++ b by simp]
    refine List.chain'_append.mpr ⟨?_, ?_, ?_⟩
    · refine List.chain'_append.mpr ⟨?_, List.chain'_singleton _, ?_⟩
      · refine chain'_ptrLink_congr ?_ hchaA
        intro x hx
        rw [hother x.1 (by have := haQ x hx; omega)]
      · intro x hx y hy
        simp only [List.head?_cons, Option.mem_def, Option.some.injEq] at hy
        subst hy
        have hxa : x ∈ a := mem_of_getLast?_mem hx
        have hl : (s.mem x.1).ptr = Q.1 := hcrossaQ x hx Q (by simp)
        show (s'.mem x.1).ptr = Q.1
        rw [hother x.1 (by have := haQ x hxa; omega)]
        exact hl
    · refine chain'_ptrLink_congr ?_ ((List.chain'_cons'.mp hchTb).2)
      intro x hx
      rw [hother x.1 (by have := hTall x hx; omega)]
    · intro x hx y hy
      simp only [List.getLast?_concat, Option.mem_def, Option.some.injEq] at hx
      subst hx
      show (s'.mem Q.1).ptr = y.1
      rw [hQptr]
      cases b with
      | nil => simp at hy
      | cons y0 b' =>
        simp only [List.head?_cons, Option.mem_def, Option.some.injEq] at hy
        subst hy
        rfl
  · -- the last block still wraps to the sentinel
    cases b with
    | nil =>
      have hlast : (a ++ [Q]).getLastD (0, 0) = Q := by
        rw [getLastD_append_cons]
        rfl
      rw [hlast, hQptr]
      rfl
    | cons y0 b' =>
      have hlast1 : (a ++ Q :: y0 :: b').getLastD (0, 0) = b'.getLastD y0 := by
        rw [getLastD_append_cons]
        simp only [List.getLastD_cons]
      have hlast2 : fl.getLastD (0, 0) = b'.getLastD y0 := by
        rw [hfl, getLastD_append_cons]
        simp only [List.getLastD_cons]
      have hmem1 : b'.getLastD y0 ∈ y0 :: b' := by
        have hg := getLastD_mem (y0 :: b') (0, 0) (by simp)
        rwa [List.getLastD_cons] at hg
      rw [hlast1, hother _ (by have := hTall _ hmem1; omega)]
      have hp := h.ptr_last
      rw [hlast2] at hp
      exact hp
  · intro x hx
    rw [hsz' x.1]
    exact h.size_ok x (hsubset hx)
  · intro x hx
    rcases h.fl_bounds x (hsubset hx) with h1 | ⟨h1, h2, h3⟩
    · exact Or.inl h1
    · exact Or.inr ⟨h1, h2, by omega⟩
  · exact ⟨Q.1, hfp, List.mem_map.mpr ⟨Q, by simp, rfl⟩⟩
  · intro x hx
    rcases List.mem_cons.mp hx with h1 | h2
    · subst h1
      rcases h.fl_bounds x hTfl with he | ⟨h1, h2, h3⟩
      · exfalso
        rw [he] at hT2
        simp at hT2
      · exact ⟨h1, h2, by omega, by rw [hsz' x.1]; exact h.size_ok x hTfl⟩
    · obtain ⟨g1, g2, g3, g4⟩ := h.al_ok x h2
      exact ⟨g1, g2, by omega, by rw [hsz' x.1]; exact g4⟩
  · refine List.pairwise_cons.mpr ⟨?_, h.al_disj⟩
    intro y hy
    exact h.fl_al_disj T hTfl y hy
  · intro x hx y hy
    rcases List.mem_cons.mp hy with h1 | h2
    · subst h1
      exact h.fl_disj (hsubset hx) hTfl (fun he => hTnotin (he ▸ hx))
    · exact h.fl_al_disj x (hsubset hx) y h2
  · rw [hbrk]
    exact h.brk_pos
  · rw [hbrk, hlim]
    exact h.brk_le
  · rw [hlim]
    exact h.limit_lt

/-- Splitting a strictly larger block preserves the invariant: the
shrunk remainder stays on the ring and the tail end carved from it
becomes the new allocated block. -/
theorem split_Inv {s : St} {fl al : List Blk} (h : Inv s fl al)
    {a : List Blk} {Q T : Blk} {b : List Blk} (hfl : fl = a ++ Q :: T :: b)
    {nunits : Nat} (hlt : nunits < T.2) (hnu : 1 ≤ nunits) (hU : nunits < UMAX)
    (s' : St)
    (hmem : s'.mem = setSize (setSize s.mem T.1 (T.2 - nunits))
      (T.1 + (T.2 - nunits)) (truncU nunits))
    (hfp : s'.freep = some Q.1) (hbrk : s'.brk = s.brk) (hlim : s'.limit = s.limit) :
    Inv s' (a ++ Q :: (T.1, T.2 - nunits) :: b)
      ((T.1 + (T.2 - nunits), nunits) :: al) := by
  have hTfl : T ∈ fl := by rw [hfl]; exact List.mem_append_right _ (by simp)
  have hQfl : Q ∈ fl := by rw [hfl]; exact List.mem_append_right _ (by simp)
  obtain ⟨hT1a, hT2a, hT3a⟩ : 1 ≤ T.1 ∧ 1 ≤ T.2 ∧ T.1 + T.2 ≤ s.brk := by
    rcases h.fl_bounds T hTfl with he | hr
    · exfalso
      rw [he] at hlt
      simp at hlt
    · exact hr
  have hptr' : ∀ x, (s'.mem x).ptr = (s.mem x).ptr := by
    intro x
    rw [hmem, setSize_ptr, setSize_ptr]
  have hszT : (s'.mem T.1).size = T.2 - nunits := by
    rw [hmem, setSize_other _ _ (show T.1 ≠ T.1 + (T.2 - nunits) by omega)]
    simp
  have hszP2 : (s'.mem (T.1 + (T.2 - nunits))).size = nunits := by
    rw [hmem]
    simp [truncU_eq_of_lt hU]
  have hszO : ∀ x, x ≠ T.1 → x ≠ T.1 + (T.2 - nunits) →
      (s'.mem x).size = (s.mem x).size := by
    intro x h1 h2
    rw [hmem, setSize_other _ _ h2, setSize_other _ _ h1]
  have hnd := h.nodup
  have hTnotin : T ∉ a ++ Q :: b := by
    rw [hfl] at hnd
    intro hTin
    rcases List.mem_append.mp hTin with h1 | h2
    · exact (List.disjoint_of_nodup_append hnd) h1 (by simp)
    · have hnd2 := (List.nodup_append.mp hnd).2.1
      obtain ⟨hQni, hnd3⟩ := List.nodup_cons.mp hnd2
      rcases List.mem_cons.mp h2 with h3 | h4
      · exact hQni (by rw [← h3]; simp)
      · exact (List.nodup_cons.mp hnd3).1 h4
  have hTspan : ∀ x ∈ fl, x ≠ T → x.1 ≠ T.1 ∧ x.1 ≠ T.1 + (T.2 - nunits) := by
    intro x hx hne
    have hd := h.fl_disj hx hTfl hne
    rcases h.fl_bounds x hx with he | ⟨g1, g2, g3⟩
    · rw [he]
      simp only [spanDisj] at hd
      exact ⟨by simp; omega, by simp; omega⟩
    · simp only [spanDisj] at hd
      exact ⟨by omega, by omega⟩
  have hAspan : ∀ y ∈ al, y.1 ≠ T.1 ∧ y.1 ≠ T.1 + (T.2 - nunits) := by
    intro y hy
    have hd := h.fl_al_disj T hTfl y hy
    have := h.al_ok y hy
    simp only [spanDisj] at hd
    exact ⟨by omega, by omega⟩
  have hgaps := h.gaps
  rw [hfl, List.pairwise_append] at hgaps
  obtain ⟨hga, hgQTb, hgcross⟩ := hgaps
  obtain ⟨hgQ, hgTb⟩ := List.pairwise_cons.mp hgQTb
  obtain ⟨hgT, hgb⟩ := List.pairwise_cons.mp hgTb
  refine ⟨?_, ?_, ?_, ?_, ?_, ?_, ?_, ?_, ?_, ?_, ?_, ?_, ?_⟩
  · have hh : (a ++ Q :: (T.1, T.2 - nunits) :: b).head? = fl.head? := by
      rw [hfl]
      cases a <;> simp
    rw [hh]
    exact h.base_head
  · -- gaps with the shrunk remainder
    rw [List.pairwise_append]
    refine ⟨hga, ?_, ?_⟩
    · refine List.pairwise_cons.mpr ⟨?_, List.pairwise_cons.mpr ⟨?_, hgb⟩⟩
      · intro y hy
        rcases List.mem_cons.mp hy with h1 | h2
        · subst h1
          have := hgQ T (by simp)
          simp only [gapR] at *
          omega
        · exact hgQ y (by simp [h2])
      · intro y hy
        have := hgT y hy
        simp only [gapR] at *
        omega
    · intro x hx y hy
      rcases List.mem_cons.mp hy with h1 | h2
      · rw [h1]
        exact hgcross x hx Q (by simp)
      · rcases List.mem_cons.mp h2 with h3 | h4
        · rw [h3]
          have := hgcross x hx T (by simp)
          simp only [gapR] at *
          omega
        · exact hgcross x hx y (by simp [h4])
  · -- the chain: ptr fields and addresses are unchanged
    have hch : fl.Chain' (ptrLink s'.mem) :=
      chain'_ptrLink_congr (fun x _ => hptr' x.1) h.ptr_chain
    refine chain'_ptrLink_fst ?_ hch
    rw [hfl]
    simp
  · -- last block wraps to the sentinel
    cases b with
    | nil =>
      have hlast : (a ++ [Q, (T.1, T.2 - nunits)]).getLastD (0, 0) =
          (T.1, T.2 - nunits) := by
        rw [getLastD_append_cons]
        rfl
      have hlast2 : fl.getLastD (0, 0) = T := by
        rw [hfl, getLastD_append_cons]
        rfl
      rw [hlast]
      have hp := h.ptr_last
      rw [hlast2] at hp
      rw [hptr']
      exact hp
    | cons y0 b' =>
      have hlast1 : (a ++ Q :: (T.1, T.2 - nunits) :: y0 :: b').getLastD (0, 0) =
          b'.getLastD y0 := by
        rw [getLastD_append_cons]
        simp only [List.getLastD_cons]
      have hlast2 : fl.getLastD (0, 0) = b'.getLastD y0 := by
        rw [hfl, getLastD_append_cons]
        simp only [List.getLastD_cons]
      rw [hlast1, hptr']
      have hp := h.ptr_last
      rw [hlast2] at hp
      exact hp
  · -- sizes
    intro x hx
    rcases List.mem_append.mp hx with hxa | hxq
    · have hxfl : x ∈ fl := by rw [hfl]; exact List.mem_append_left _ hxa
      have hne : x ≠ T := fun he => hTnotin (he ▸ (List.mem_append_left _ hxa))
      obtain ⟨n1, n2⟩ := hTspan x hxfl hne
      rw [hszO x.1 n1 n2]
      exact h.size_ok x hxfl
    · rcases List.mem_cons.mp hxq with h1 | h2
      · subst h1
        have hne : x ≠ T := fun he =>
          hTnotin (he ▸ (List.mem_append_right _ (by simp)))
        obtain ⟨n1, n2⟩ := hTspan x hQfl hne
        rw [hszO x.1 n1 n2]
        exact h.size_ok x hQfl
      · rcases List.mem_cons.mp h2 with h3 | h4
        · subst h3
          exact hszT
        · have hxfl : x ∈ fl := by
            rw [hfl]
            exact List.mem_append_right _ (by simp [h4])
          have hne : x ≠ T := by
            intro he
            subst he
            exact hTnotin (List.mem_append_right _ (by simp [h4]))
          obtain ⟨n1, n2⟩ := hTspan x hxfl hne
          rw [hszO x.1 n1 n2]
          exact h.size_ok x hxfl
  · -- bounds
    intro x hx
    rcases List.mem_append.mp hx with hxa | hxq
    · have hxfl : x ∈ fl := by rw [hfl]; exact List.mem_append_left _ hxa
      rcases h.fl_bounds x hxfl with h1 | ⟨h1, h2, h3⟩
      · exact Or.inl h1
      · exact Or.inr ⟨h1, h2, by omega⟩
    · rcases List.mem_cons.mp hxq with h1 | h2
      · subst h1
        rcases h.fl_bounds x hQfl with h1 | ⟨h1, h2, h3⟩
        · exact Or.inl h1
        · exact Or.inr ⟨h1, h2, by omega⟩
      · rcases List.mem_cons.mp h2 with h3 | h4
        · subst h3
          exact Or.inr ⟨by omega, by omega, by omega⟩
        · have hxfl : x ∈ fl := by
            rw [hfl]
            exact List.mem_append_right _ (by simp [h4])
          rcases h.fl_bounds x hxfl with h1 | ⟨h1, h2, h3⟩
          · exact Or.inl h1
          · exact Or.inr ⟨h1, h2, by omega⟩
  · exact ⟨Q.1, hfp, List.mem_map.mpr ⟨Q, by simp, rfl⟩⟩
  · -- allocated blocks
    intro x hx
    rcases List.mem_cons.mp hx with h1 | h2
    · subst h1
      exact ⟨by omega, hnu, by omega, hszP2⟩
    · obtain ⟨g1, g2, g3, g4⟩ := h.al_ok x h2
      obtain ⟨n1, n2⟩ := hAspan x h2
      exact ⟨g1, g2, by omega, by rw [hszO x.1 n1 n2]; exact g4⟩
  · refine List.pairwise_cons.mpr ⟨?_, h.al_disj⟩
    intro y hy
    have hd := h.fl_al_disj T hTfl y hy
    simp only [spanDisj] at *
    omega
  · -- free/allocated disjointness
    intro x hx y hy
    rcases List.mem_cons.mp hy with hy1 | hy2
    · subst hy1
      rcases List.mem_append.mp hx with hxa | hxq
      · have hxfl : x ∈ fl := by rw [hfl]; exact List.mem_append_left _ hxa
        have hne : x ≠ T := fun he => hTnotin (he ▸ (List.mem_append_left _ hxa))
        have hd := h.fl_disj hxfl hTfl hne
        simp only [spanDisj] at *
        omega
      · rcases List.mem_cons.mp hxq with h1 | h2
        · rw [h1]
          have hQT : Q ≠ T := by
            intro he
            exact hTnotin (he ▸ (List.mem_append_right _ (by simp)))
          have hd := h.fl_disj hQfl hTfl hQT
          simp only [spanDisj] at *
          omega
        · rcases List.mem_cons.mp h2 with h3 | h4
          · subst h3
            simp only [spanDisj]
            omega
          · have hxfl : x ∈ fl := by
              rw [hfl]
              exact List.mem_append_right _ (by simp [h4])
            have hne : x ≠ T := by
              intro he
              subst he
              exact hTnotin (List.mem_append_right _ (by simp [h4]))
            have hd := h.fl_disj hxfl hTfl hne
            simp only [spanDisj] at *
            omega
    · rcases List.mem_append.mp hx with hxa | hxq
      · have hxfl : x ∈ fl := by rw [hfl]; exact List.mem_append_left _ hxa
        exact h.fl_al_disj x hxfl y hy2
      · rcases List.mem_cons.mp hxq with h1 | h2
        · subst h1
          exact h.fl_al_disj x hQfl y hy2
        · rcases List.mem_cons.mp h2 with h3 | h4
          · subst h3
            have hd := h.fl_al_disj T hTfl y hy2
            have := h.al_ok y hy2
            simp only [spanDisj] at *
            omega
          · have hxfl : x ∈ fl := by
              rw [hfl]
              exact List.mem_append_right _ (by simp [h4])
            exact h.fl_al_disj x hxfl y hy2
  · rw [hbrk]
    exact h.brk_pos
  · rw [hbrk, hlim]
    exact h.brk_le
  · rw [hlim]
    exact h.limit_lt

/-! ### Full specification of the first-fit malloc -/

/-- Every free block occurs on the cyclic scan order. -/
theorem ring_mem' {fl w z : List Blk} {C : Blk} (hwz : fl = w ++ C :: z) :
    ∀ b ∈ fl, b ∈ z ++ w ++ [C] := by
  intro b hb
  rw [hwz] at hb
  rcases List.mem_append.mp hb with h1 | h2
  · exact List.mem_append_left _ (List.mem_append_right _ h1)
  · rcases List.mem_cons.mp h2 with h3 | h4
    · rw [h3]
      exact List.mem_append_right _ (by simp)
    · exact List.mem_append_left _ (List.mem_append_left _ h4)

/-- Inserting a block leaves some block at least that large on the list. -/
theorem insCoal_big : ∀ (fl : List Blk) (B : Blk), ∃ blk ∈ insCoal fl B, B.2 ≤ blk.2 := by
  intro fl
  induction fl with
  | nil =>
    intro B
    exact ⟨B, by rw [insCoal]; simp, le_refl _⟩
  | cons x rest ih =>
    intro B
    cases rest with
    | nil =>
      rw [insCoal]
      by_cases hc : x.1 + x.2 = B.1
      · rw [if_pos hc]
        exact ⟨(x.1, x.2 + B.2), by simp, by simp⟩
      · rw [if_neg hc]
        exact ⟨B, by simp, le_refl _⟩
    | cons y rest' =>
      rw [insCoal]
      by_cases h1 : B.1 < y.1
      · rw [if_pos h1]
        by_cases h2 : B.1 + B.2 = y.1
        · rw [if_pos h2]
          by_cases h3 : x.1 + x.2 = B.1
          · rw [if_pos h3]
            exact ⟨(x.1, x.2 + B.2 + y.2), by simp, by simp; omega⟩
          · rw [if_neg h3]
            exact ⟨(B.1, B.2 + y.2), by simp, by simp⟩
        · rw [if_neg h2]
          by_cases h3 : x.1 + x.2 = B.1
          · rw [if_pos h3]
            exact ⟨(x.1, x.2 + B.2), by simp, by simp⟩
          · rw [if_neg h3]
            exact ⟨B, by simp, le_refl _⟩
      · rw [if_neg h1]
        obtain ⟨blk, hmem, hle⟩ := ih B
        exact ⟨blk, List.mem_cons_of_mem _ hmem, hle⟩

/-- A successful first-fit find preserves the invariant: exactly
`nunits` units move to the allocated side, the cursor rests on the ring
predecessor of the served block, and the rest of the state is untouched. -/
theorem found_inv {s : St} {fl al : List Blk} (h : Inv s fl al)
    {w z : List Blk} {C : Blk} (hwz : fl = w ++ C :: z)
    {nunits : Nat} (h2 : 2 ≤ nunits) (hU : nunits < UMAX)
    {T : Blk} {pvT : Nat}
    (hscan : ffScan nunits C.1 (z ++ w ++ [C]) = some (T, pvT)) :
    ∃ s' r fl', ffResult s nunits T pvT = (s', some r) ∧ 1 ≤ r - 1 ∧
      Inv s' fl' ((r - 1, nunits) :: al) ∧
      s'.data = s.data ∧ s'.brk = s.brk ∧ s'.limit = s.limit := by
  obtain ⟨L1, L2, hLd, hlt1, hfit, hpvT⟩ := ffScan_decomp _ _ hscan
  have hTL : T ∈ z ++ w ++ [C] := by
    rw [hLd]
    exact List.mem_append_right _ (by simp)
  have hTfl : T ∈ fl := ring_mem hwz T hTL
  have hT2pos : 1 ≤ T.2 := by omega
  have hszT : (s.mem T.1).size = T.2 := h.size_ok T hTfl
  obtain ⟨a, Q, b, hQ⟩ := h.pred_decomp hTfl hT2pos
  obtain ⟨hT1a, hT2a, hT3a⟩ : 1 ≤ T.1 ∧ 1 ≤ T.2 ∧ T.1 + T.2 ≤ s.brk := by
    rcases h.fl_bounds T hTfl with he | hr
    · exfalso
      rw [he] at hT2pos
      simp at hT2pos
    · exact hr
  have hpred : pvT = Q.1 := by
    rw [hpvT]
    exact scan_pred_eq h hwz hLd hQ hT1a
  by_cases hex : (s.mem T.1).size = nunits
  · -- exact fit: unlink whole
    have hres : ffResult s nunits T pvT =
        ({ s with mem := setPtr s.mem Q.1 ((s.mem T.1).ptr),
                  freep := some Q.1 }, some (T.1 + 1)) := by
      rw [ffResult, if_pos hex, hpred]
    have hinv := unlink_Inv h hQ
      { s with mem := setPtr s.mem Q.1 ((s.mem T.1).ptr), freep := some Q.1 }
      rfl rfl rfl rfl hT2a
    have hTeta : T = (T.1, nunits) := by
      have : T.2 = nunits := by rw [← hszT]; exact hex
      rw [← this]
    refine ⟨_, T.1 + 1, a ++ Q :: b, hres, by omega, ?_, rfl, rfl, rfl⟩
    rw [Nat.add_sub_cancel, ← hTeta]
    exact hinv
  · -- larger: split, carving the tail end
    have hlt : nunits < T.2 := by omega
    have hres : ffResult s nunits T pvT =
        ({ s with mem := setSize (setSize s.mem T.1 (T.2 - nunits))
                    (T.1 + (T.2 - nunits)) (truncU nunits),
                  freep := some Q.1 }, some (T.1 + (T.2 - nunits) + 1)) := by
      rw [ffResult, if_neg hex, hpred]
      simp [hszT]
    have hinv := split_Inv h hQ hlt (by omega) hU
      { s with mem := setSize (setSize s.mem T.1 (T.2 - nunits))
                 (T.1 + (T.2 - nunits)) (truncU nunits),
               freep := some Q.1 }
      rfl rfl rfl rfl
    refine ⟨_, T.1 + (T.2 - nunits) + 1, a ++ Q :: (T.1, T.2 - nunits) :: b, hres,
      by omega, ?_, rfl, rfl, rfl⟩
    rw [Nat.add_sub_cancel]
    exact hinv

/-- The first-fit `malloc` with ample fuel on an invariant state either
fails with the state returned exactly unchanged, or succeeds and carries
the invariant over with the served units on the allocated side. -/
theorem mallocFirst_inv {s : St} {fl al : List Blk} (h : Inv s fl al)
    {n : Nat} (hn : 1 ≤ n) (hb : n ≤ 2 ^ 35) {fuel : Nat}
    (hfuel : 2 * s.limit + 4 ≤ fuel) :
    mallocFirst fuel s n = some (s, none) ∨
    (∃ s' r fl', mallocFirst fuel s n = some (s', some r) ∧ 1 ≤ r - 1 ∧
      Inv s' fl' ((r - 1, nunitsOf n) :: al) ∧
      s'.data = s.data ∧ s'.limit = s.limit) := by
  obtain ⟨hnu_eq, hnu2, hnuU, hnusz⟩ := nunitsOf_spec hn hb
  obtain ⟨w, C, z, hwz, hfp⟩ := h.cursor_split
  have hlen := h.length_le
  have hble := h.brk_le
  obtain ⟨fuel0, hf0⟩ : ∃ fuel0, fuel = fuel0 + fl.length ∧ s.limit + 4 ≤ fuel0 :=
    ⟨fuel - fl.length, by omega, by omega⟩
  obtain ⟨hf0e, hf0b⟩ := hf0
  subst hf0e
  have heq := mallocFirst_eq h hwz hfp (by omega : n ≠ 0) fuel0
  cases hscan : ffScan (nunitsOf n) C.1 (z ++ w ++ [C]) with
  | some r =>
    obtain ⟨T, pvT⟩ := r
    simp only [hscan] at heq
    right
    obtain ⟨s', r, fl', hres, hr1, hinv, hdata, hbrk', hlim'⟩ :=
      found_inv h hwz hnu2 hnuU hscan
    exact ⟨s', r, fl', by rw [heq, hres], hr1, hinv, hdata, hlim'.symm ▸ rfl⟩
  | none =>
    simp only [hscan] at heq
    by_cases hroom : s.brk + max (nunitsOf n) NALLOC ≤ s.limit
    · -- growth succeeds; the retried revolution then finds a fit
      obtain ⟨s2, hm, hinv2, hcur2, hbrk2, hlim2, hdata2⟩ :=
        morecore_ok h fuel0 (by omega) hroom
      obtain ⟨P, hPfl, hfp2, _, _⟩ := hcur2
      rw [hm, hfp2] at heq
      simp only at heq
      obtain ⟨w2, C2, z2, hwz2, hfp2'⟩ := hinv2.cursor_split
      have hC2 : C2.1 = P.1 := by
        rw [hfp2'] at hfp2
        simpa using hfp2
      rw [← hC2] at heq
      have hlen2 := hinv2.length_le
      have hble2 := hinv2.brk_le
      obtain ⟨fuel1, hf1⟩ : ∃ fuel1,
          fuel0 = fuel1 + (insCoal fl (s.brk, max (nunitsOf n) NALLOC)).length := by
        refine ⟨fuel0 - (insCoal fl (s.brk, max (nunitsOf n) NALLOC)).length, ?_⟩
        rw [hlim2] at hble2
        omega
      obtain ⟨blk, hblkmem, hblksz⟩ := insCoal_big fl (s.brk, max (nunitsOf n) NALLOC)
      have hfitblk : nunitsOf n ≤ blk.2 := by
        have h1 : nunitsOf n ≤ max (nunitsOf n) NALLOC := le_max_left _ _
        have h2 : ((s.brk, max (nunitsOf n) NALLOC) : Blk).2 =
            max (nunitsOf n) NALLOC := rfl
        omega
      obtain ⟨T2, pvT2, hscan2⟩ :=
        ffScan_total C2.1 (ring_mem' hwz2 blk hblkmem) hfitblk
      have heq2 : mallocLoopFirst fuel0 s2 (nunitsOf n) C2.1 ((s2.mem C2.1).ptr) =
          some (ffResult s2 (nunitsOf n) T2 pvT2) := by
        rw [hf1, mallocLoop_from_cursor hinv2 hwz2 hfp2' (nunitsOf n) fuel1]
        simp only [hscan2]
      rw [heq2] at heq
      right
      obtain ⟨s', r, fl', hres, hr1, hinv', hdata', hbrk', hlim'⟩ :=
        found_inv hinv2 hwz2 hnu2 hnuU hscan2
      refine ⟨s', r, fl', by rw [heq, hres], hr1, hinv', ?_, ?_⟩
      · rw [hdata', hdata2]
      · rw [hlim', hlim2]
    · -- growth fails: null result, state exactly unchanged
      left
      have hmf : morecore fuel0 s (nunitsOf n) = some (s, none) :=
        morecore_fail fuel0 (by omega)
      rw [hmf] at heq
      exact heq

/-- The concrete state `cexSt` satisfies the invariant with free list
sentinel-plus-one-block and no outstanding allocations. -/
theorem cexSt_Inv : Inv cexSt [(0, 0), (5, 6)] [] := by
  refine ⟨rfl, by decide, ?_, by decide, by decide, by decide,
    ⟨0, rfl, by simp⟩, by simp, by simp, by simp, by decide, by decide, by decide⟩
  simp only [List.chain'_cons, List.chain'_singleton, and_true]
  decide

/-- Claim C1, counterexample to the unamended statement: the request
`n = 2^36 > 0` succeeds (first-fit returns the reference 11), but the
chosen block's recorded size is 1 unit — the `size_t` value
`ceil(n/unitSize) + 1 = 2^32 + 1` was truncated to the `unsigned` value 1
— so the caller-usable region holds `(1 - 1) * unitSize = 0 < n` bytes. -/
theorem malloc_success_usable_cex :
    0 < 2 ^ 36 ∧
    retOf (mallocFirst 50 cexSt (2 ^ 36)) = some (some 11) ∧
    memSizeAt (mallocFirst 50 cexSt (2 ^ 36)) 10 = some 1 ∧
    nunitsOf (2 ^ 36) = 1 ∧
    ((1 : Nat) - 1) * unitSize < 2 ^ 36 := by
  refine ⟨by norm_num, rfl, rfl, rfl, by norm_num [unitSize]⟩

/-- Claim C1, witness: on a concrete state, a 16-byte request succeeds
with a recorded size of `nunitsOf 16 = 2` units and 16 usable bytes. -/
theorem malloc_success_usable_w :
    retOf (mallocFirst 50 cexSt 16) = some (some 10) ∧
    memSizeAt (mallocFirst 50 cexSt 16) 9 = some (nunitsOf 16) ∧
    16 ≤ (nunitsOf 16 - 1) * unitSize := by
  obtain ⟨-, -, hcov, hF, -⟩ :=
    malloc_success_usable cexSt 16 50 (by norm_num) (by norm_num)
  obtain ⟨hsz, -, -⟩ := hF 10 rfl
  exact ⟨rfl, hsz, hcov⟩

/-! ### Releasing an outstanding allocation -/

/-- Releasing an outstanding allocation `B` (any decomposition of the
allocated list around it) succeeds, leaves the coalesced insertion as
the free list, and parks the cursor on the insertion predecessor. -/
theorem freeOp_release {s : St} {fl al : List Blk} (h : Inv s fl al)
    {u : List Blk} {B : Blk} {v : List Blk} (hal : al = u ++ B :: v)
    (fuel : Nat) (hfuel : fl.length ≤ fuel) :
    ∃ s', freeOp fuel s (some (B.1 + 1)) = some s' ∧
      Inv s' (insCoal fl B) (u ++ v) ∧
      (∃ P ∈ fl, s'.freep = some P.1 ∧ P.1 < B.1 ∧
        ∀ e ∈ fl, e.1 < B.1 → e.1 ≤ P.1) ∧
      s'.brk = s.brk ∧ s'.limit = s.limit ∧ s'.data = s.data := by
  have hB : B ∈ al := by rw [hal]; exact List.mem_append_right _ (by simp)
  obtain ⟨hB1, hB2, hBbrk, hBsz⟩ := h.al_ok B hB
  have hsub : (u ++ v).Sublist al := by
    rw [hal]
    exact (List.sublist_cons_self B v).append_left u
  have h' : Inv s fl (u ++ v) := h.al_sublist hsub
  have hBal : ∀ y ∈ u ++ v, spanDisj B y := by
    have hpw := h.al_disj
    rw [hal, List.pairwise_append] at hpw
    obtain ⟨hpu, hpBv, hcross⟩ := hpw
    intro y hy
    rcases List.mem_append.mp hy with h1 | h2
    · exact spanDisj_symm (hcross y h1 B (by simp))
    · exact (List.pairwise_cons.mp hpBv).1 y h2
  obtain ⟨s', he, hinv, hcur, hbrk, hlim, hdata⟩ :=
    freeOp_spec h' hB1 hB2 hBbrk hBsz
      (fun x hx => h.fl_al_disj x hx B hB) hBal fuel hfuel
  exact ⟨s', he, hinv, hcur, hbrk, hlim, hdata⟩

/-! ### Resizing an outstanding allocation -/

/-- The `unsigned` subtraction `size - 1` applied to a recorded block
size below `UMAX`. -/
theorem truncU_sub_one {k : Nat} (h1 : 1 ≤ k) (h2 : k < UMAX) :
    truncU (k + (UMAX - 1)) = k - 1 := by
  have hU : (0 : Nat) < UMAX := by norm_num [UMAX]
  have he : k + (UMAX - 1) = (k - 1) + 1 * UMAX := by omega
  rw [truncU, he, Nat.add_mul_mod_self_right]
  exact Nat.mod_eq_of_lt (by omega)

/-- `resize` of an outstanding allocation `B` with a positive request:
a failed inner allocation returns NULL with the state exactly unchanged;
a successful one copies `min(size, (oldUnits - 1) * unitSize)` payload
bytes into the new block, releases the old block, and returns the new
reference, the invariant carrying over. -/
theorem reallocFirst_inv {s : St} {fl al : List Blk} (h : Inv s fl al)
    {u : List Blk} {B : Blk} {v : List Blk} (hal : al = u ++ B :: v)
    {size : Nat} (h1 : 1 ≤ size) (hb : size ≤ 2 ^ 35) {fuel : Nat}
    (hfuel : 2 * s.limit + 4 ≤ fuel) :
    reallocFirst fuel s (some (B.1 + 1)) size = some (s, none) ∨
    (∃ s3 np fl3, reallocFirst fuel s (some (B.1 + 1)) size = some (s3, some np) ∧
      1 ≤ np - 1 ∧
      Inv s3 fl3 ((np - 1, nunitsOf size) :: (u ++ v)) ∧
      s3.data = memcpyB s.data (np * unitSize) ((B.1 + 1) * unitSize)
        (min size ((B.2 - 1) * unitSize)) ∧
      s3.limit = s.limit) := by
  have hBmem : B ∈ al := by rw [hal]; exact List.mem_append_right _ (by simp)
  obtain ⟨hB1, hB2, hBbrk, hBsz⟩ := h.al_ok B hBmem
  have hkU : B.2 < UMAX := by
    have := h.brk_le
    have := h.limit_lt
    omega
  rcases mallocFirst_inv h h1 hb hfuel with hfail |
    ⟨s1, np, fl1, hsucc, hnp, hinv1, hdata1, hlim1⟩
  · left
    simp only [reallocFirst]
    rw [if_neg (show ¬ size = 0 by omega)]
    simp only [hfail]
  · right
    have hBin1 : B ∈ (np - 1, nunitsOf size) :: al := List.mem_cons_of_mem _ hBmem
    have hsz1 : (s1.mem B.1).size = B.2 := (hinv1.al_ok B hBin1).2.2.2
    have hinv2 : Inv ({ s1 with
                        data := memcpyB s1.data (np * unitSize) ((B.1 + 1) * unitSize)
                          (if size < unitSize *
                              truncU ((s1.mem (B.1 + 1 - 1)).size + (UMAX - 1))
                           then size
                           else unitSize *
                              truncU ((s1.mem (B.1 + 1 - 1)).size + (UMAX - 1))) })
        fl1 ((np - 1, nunitsOf size) :: al) :=
      hinv1.mem_congr (fun a _ => rfl) rfl (le_refl _) hinv1.brk_le hinv1.limit_lt
    have hal2 : ((np - 1, nunitsOf size) : Blk) :: al =
        ((np - 1, nunitsOf size) :: u) ++ B :: v := by
      rw [hal]
      rfl
    have hlen1 : fl1.length ≤ fuel := by
      have := hinv1.length_le
      have := hinv1.brk_le
      omega
    obtain ⟨s3, he3, hinv3, hcur3, hbrk3, hlim3, hdata3⟩ :=
      freeOp_release hinv2 hal2 fuel hlen1
    have hmin : (if size < unitSize * truncU ((s1.mem (B.1 + 1 - 1)).size + (UMAX - 1))
         then size
         else unitSize * truncU ((s1.mem (B.1 + 1 - 1)).size + (UMAX - 1))) =
        min size ((B.2 - 1) * unitSize) := by
      have hs : (s1.mem (B.1 + 1 - 1)).size = B.2 := by
        rw [Nat.add_sub_cancel]
        exact hsz1
      rw [hs, truncU_sub_one hB2 hkU, Nat.mul_comm]
      split <;> omega
    refine ⟨s3, np, insCoal fl1 B, ?_, hnp, ?_, ?_, ?_⟩
    · simp only [reallocFirst]
      rw [if_neg (show ¬ size = 0 by omega)]
      simp only [hsucc, he3]
    · rw [show (((np - 1, nunitsOf size) : Blk) :: u) ++ v =
        ((np - 1, nunitsOf size) : Blk) :: (u ++ v) by simp] at hinv3
      exact hinv3
    · rw [hdata3]
      show memcpyB s1.data (np * unitSize) ((B.1 + 1) * unitSize) _ =
        memcpyB s.data (np * unitSize) ((B.1 + 1) * unitSize)
          (min size ((B.2 - 1) * unitSize))
      rw [hdata1, hmin]
    · rw [hlim3]
      exact hlim1

/-! ### Ring integrity and the ghost run -/

/-- Walking the links along a chained list visits exactly its
addresses. -/
theorem walkFrom_eq {s : St} :
    ∀ (L : List Blk), L.Chain' (ptrLink s.mem) → L ≠ [] →
      walkFrom s (L.headI).1 L.length = L.map Prod.fst := by
  intro L
  induction L with
  | nil =>
    intro _ h
    exact absurd rfl h
  | cons x t ih =>
    intro hchain _
    simp only [List.headI, List.length_cons, List.map_cons]
    rw [walkFrom]
    cases t with
    | nil => rfl
    | cons y t' =>
      have hlink : (s.mem x.1).ptr = y.1 := (List.chain'_cons.mp hchain).1
      rw [hlink]
      have := ih (List.chain'_cons.mp hchain).2 (by simp)
      simp only [List.headI] at this
      rw [this]

/-- The invariant yields claim C3's ring-integrity property. -/
theorem Inv.ringIntegrity {s : St} {fl al : List Blk} (h : Inv s fl al) :
    RingIntegrity s fl := by
  obtain ⟨w, C, z, hwz, hfp⟩ := h.cursor_split
  have hchain : ((C :: z) ++ w).Chain' (ptrLink s.mem) := h.chain_cursor hwz
  have hwalk : walkFrom s C.1 ((C :: z) ++ w).length = ((C :: z) ++ w).map Prod.fst :=
    walkFrom_eq ((C :: z) ++ w) hchain (by simp)
  have hlenEq : fl.length = ((C :: z) ++ w).length := by
    rw [hwz]
    simp only [List.length_append, List.length_cons]
    omega
  have hmapPerm : (((C :: z) ++ w).map Prod.fst).IsRotated (fl.map Prod.fst) := by
    rw [List.map_append, hwz, List.map_append]
    exact List.isRotated_append
  have hsh : (C :: (z ++ w ++ [C])) = (C :: (z ++ w)) ++ [C] := by simp
  have hring := h.chain_ring hwz
  rw [hsh] at hring
  obtain ⟨_, _, hcross⟩ := List.chain'_append.mp hring
  have hlastlink : (s.mem (((C :: (z ++ w)).getLastD (0, 0)).1)).ptr = C.1 :=
    hcross _ (by rw [getLast?_cons_eq C (z ++ w) (0, 0)]; rfl) C (by simp)
  have hgl : ((((C :: z) ++ w).map Prod.fst).getLastD 0) =
      ((C :: (z ++ w)).getLastD (0, 0)).1 := by
    have h1 : ((C :: z) ++ w).map Prod.fst = C.1 :: (z ++ w).map Prod.fst := by
      simp
    rw [h1, List.getLastD_cons]
    exact map_fst_getLastD (z ++ w) C
  refine ⟨C.1, hfp, ?_, ?_, h.sorted_fst.chain', ?_⟩
  · rw [hlenEq, hwalk]
    exact hmapPerm
  · rw [hlenEq, hwalk]
    exact hmapPerm.nodup_iff.mpr h.nodup_fst
  · rw [hlenEq, hwalk, hgl]
    exact hlastlink

/-- One operation preserves the ghost invariant when its request size is
below the truncation threshold. -/
theorem runOp_ghostOk {g : St × List Blk} (h : GhostOk g) {op : Op} (hop : goodOp op)
    {g' : St × List Blk} (hr : runOp g op = some g') : GhostOk g' := by
  obtain ⟨s, al⟩ := g
  cases op with
  | alloc n =>
    simp only [runOp] at hr
    by_cases hn : n = 0
    · subst hn
      rw [show mallocFirst (fuelFor s) s 0 = some (s, none) from rfl] at hr
      obtain rfl := Option.some.inj hr
      exact h
    · rcases h with ⟨⟨hfp, hb1, hbl, hlt⟩, hal⟩ | ⟨fl, hinv⟩
      · subst hal
        have hpre : PreInit s := ⟨hfp, hb1, hbl, hlt⟩
        rw [mallocFirst_of_preinit hpre.1 hn] at hr
        have hbi : Inv (bootstrap s) [(0, 0)] [] := bootstrap_Inv hpre
        rcases mallocFirst_inv hbi (by omega) hop
            (by show 2 * s.limit + 4 ≤ fuelFor s; simp only [fuelFor]; omega) with
          h1 | ⟨s', r, fl', h2, hr1, hinv', _, _⟩
        · rw [h1] at hr
          obtain rfl := Option.some.inj hr
          exact Or.inr ⟨[(0, 0)], hbi⟩
        · rw [h2] at hr
          obtain rfl := Option.some.inj hr
          exact Or.inr ⟨fl', hinv'⟩
      · have hinv2 : Inv s fl al := hinv
        rcases mallocFirst_inv hinv2 (by omega) hop
            (by show 2 * s.limit + 4 ≤ fuelFor s; simp only [fuelFor]; omega) with
          h1 | ⟨s', r, fl', h2, hr1, hinv', _, _⟩
        · rw [h1] at hr
          obtain rfl := Option.some.inj hr
          exact Or.inr ⟨fl, hinv2⟩
        · rw [h2] at hr
          obtain rfl := Option.some.inj hr
          exact Or.inr ⟨fl', hinv'⟩
  | release k =>
    simp only [runOp] at hr
    rcases h with ⟨⟨hfp, hb1, hbl, hlt⟩, hal⟩ | ⟨fl, hinv⟩
    · subst hal
      rw [dif_neg (by simp)] at hr
      rw [show freeOp (fuelFor s) s none = some s from rfl] at hr
      obtain rfl := Option.some.inj hr
      exact Or.inl ⟨⟨hfp, hb1, hbl, hlt⟩, rfl⟩
    · have hinv2 : Inv s fl al := hinv
      by_cases hk : k < al.length
      · rw [dif_pos hk] at hr
        have hdecomp : al = al.take k ++ al.get ⟨k, hk⟩ :: al.drop (k + 1) := by
          conv_lhs => rw [← List.take_append_drop k al]
          rw [List.drop_eq_getElem_cons hk]
          rfl
        have herase : al.eraseIdx k = al.take k ++ al.drop (k + 1) :=
          List.eraseIdx_eq_take_drop_succ al k
        obtain ⟨s', he, hinv', _, _, _, _⟩ := freeOp_release hinv2 hdecomp (fuelFor s)
          (by
            have := hinv2.length_le
            have := hinv2.brk_le
            show fl.length ≤ 3 * s.limit + 32
            omega)
        rw [he] at hr
        obtain rfl := Option.some.inj hr
        refine Or.inr ⟨insCoal fl (al.get ⟨k, hk⟩), ?_⟩
        rw [herase]
        exact hinv'
      · rw [dif_neg hk] at hr
        rw [show freeOp (fuelFor s) s none = some s from rfl] at hr
        obtain rfl := Option.some.inj hr
        exact Or.inr ⟨fl, hinv2⟩
  | resize k n =>
    simp only [runOp] at hr
    rcases h with ⟨⟨hfp, hb1, hbl, hlt⟩, hal⟩ | ⟨fl, hinv⟩
    · subst hal
      rw [dif_neg (by simp)] at hr
      rw [show reallocFirst (fuelFor s) s none n = mallocFirst (fuelFor s) s n
        from rfl] at hr
      by_cases hn : n = 0
      · subst hn
        rw [show mallocFirst (fuelFor s) s 0 = some (s, none) from rfl] at hr
        obtain rfl := Option.some.inj hr
        exact Or.inl ⟨⟨hfp, hb1, hbl, hlt⟩, rfl⟩
      · have hpre : PreInit s := ⟨hfp, hb1, hbl, hlt⟩
        rw [mallocFirst_of_preinit hpre.1 hn] at hr
        have hbi : Inv (bootstrap s) [(0, 0)] [] := bootstrap_Inv hpre
        rcases mallocFirst_inv hbi (by omega) hop
            (by show 2 * s.limit + 4 ≤ fuelFor s; simp only [fuelFor]; omega) with
          h1 | ⟨s', r, fl', h2, hr1, hinv', _, _⟩
        · rw [h1] at hr
          obtain rfl := Option.some.inj hr
          exact Or.inr ⟨[(0, 0)], hbi⟩
        · rw [h2] at hr
          obtain rfl := Option.some.inj hr
          exact Or.inr ⟨fl', hinv'⟩
    · have hinv2 : Inv s fl al := hinv
      by_cases hk : k < al.length
      · rw [dif_pos hk] at hr
        have hdecomp : al = al.take k ++ al.get ⟨k, hk⟩ :: al.drop (k + 1) := by
          conv_lhs => rw [← List.take_append_drop k al]
          rw [List.drop_eq_getElem_cons hk]
          rfl
        have herase : al.eraseIdx k = al.take k ++ al.drop (k + 1) :=
          List.eraseIdx_eq_take_drop_succ al k
        by_cases hn : n = 0
        · subst hn
          obtain ⟨s', he, hinv', _, _, _, _⟩ := freeOp_release hinv2 hdecomp (fuelFor s)
            (by
              have := hinv2.length_le
              have := hinv2.brk_le
              show fl.length ≤ 3 * s.limit + 32
              omega)
          have hre : reallocFirst (fuelFor s) s (some ((al.get ⟨k, hk⟩).1 + 1)) 0 =
              some (s', none) := by
            simp only [reallocFirst, he, eq_self_iff_true, if_true]
          rw [hre] at hr
          simp only [if_pos rfl] at hr
          obtain rfl := Option.some.inj hr
          refine Or.inr ⟨insCoal fl (al.get ⟨k, hk⟩), ?_⟩
          rw [herase]
          exact hinv'
        · rcases reallocFirst_inv hinv2 hdecomp (by omega) hop
              (by show 2 * s.limit + 4 ≤ fuelFor s; simp only [fuelFor]; omega) with
            h1 | ⟨s3, np, fl3, h2, hnp1, hinv3, _, _⟩
          · rw [h1] at hr
            simp only [if_neg hn] at hr
            obtain rfl := Option.some.inj hr
            exact Or.inr ⟨fl, hinv2⟩
          · rw [h2] at hr
            obtain rfl := Option.some.inj hr
            refine Or.inr ⟨fl3, ?_⟩
            rw [herase]
            exact hinv3
      · rw [dif_neg hk] at hr
        rw [show reallocFirst (fuelFor s) s none n = mallocFirst (fuelFor s) s n
          from rfl] at hr
        by_cases hn : n = 0
        · subst hn
          rw [show mallocFirst (fuelFor s) s 0 = some (s, none) from rfl] at hr
          obtain rfl := Option.some.inj hr
          exact Or.inr ⟨fl, hinv2⟩
        · rcases mallocFirst_inv hinv2 (by omega) hop
              (by show 2 * s.limit + 4 ≤ fuelFor s; simp only [fuelFor]; omega) with
            h1 | ⟨s', r, fl', h2, hr1, hinv', _, _⟩
          · rw [h1] at hr
            obtain rfl := Option.some.inj hr
            exact Or.inr ⟨fl, hinv2⟩
          · rw [h2] at hr
            obtain rfl := Option.some.inj hr
            exact Or.inr ⟨fl', hinv'⟩

/-- A whole operation sequence preserves the ghost invariant. -/
theorem run_ghostOk : ∀ (ops : List Op) (g : St × List Blk), GhostOk g →
    (∀ op ∈ ops, goodOp op) → ∀ g', run ops g = some g' → GhostOk g' := by
  intro ops
  induction ops with
  | nil =>
    intro g hg _ g' hr
    rw [run] at hr
    obtain rfl := Option.some.inj hr
    exact hg
  | cons op ops' ih =>
    intro g hg hgood g' hr
    rw [run] at hr
    cases hop : runOp g op with
    | none =>
      rw [hop] at hr
      simp at hr
    | some g1 =>
      rw [hop] at hr
      exact ih g1 (runOp_ghostOk hg (hgood op (by simp)) hop)
        (fun o ho => hgood o (by simp [ho])) g' hr

/-! ### Claim C4: the first-fit placement policy -/

/-- Claim C4: under the first-fit strategy, `allocate` walks the ring
starting just after the cursor `C` and serves the first block whose
recorded size is at least `nunits`: an exact match is unlinked whole, a
strictly larger block is split by decrementing its size by `nunits` and
carving the allocated block of exactly `nunits` units from its upper end
while the shrunk remainder stays on the ring (`ffResult`), and the
cursor is then left at the ring predecessor `Q` of the chosen block; if
a full revolution finds no fit, the arena grower is invoked with
`nunits` and the scan retried from the cursor it returns, failing only
if growth fails. -/
theorem malloc_first_fit {s : St} {fl al : List Blk} (h : Inv s fl al)
    {w z : List Blk} {C : Blk} (hwz : fl = w ++ C :: z) (hfp : s.freep = some C.1)
    {n : Nat} (hn : 1 ≤ n) (hb : n ≤ 2 ^ 35) (fuel0 : Nat) :
    (mallocFirst (fuel0 + fl.length) s n =
      match ffScan (nunitsOf n) C.1 (z ++ w ++ [C]) with
      | some (T, pvT) => some (ffResult s (nunitsOf n) T pvT)
      | none =>
        match morecore fuel0 s (nunitsOf n) with
        | none => none
        | some (s', none) => some (s', none)
        | some (s', some f) =>
          mallocLoopFirst fuel0 s' (nunitsOf n) f ((s'.mem f).ptr)) ∧
    (∀ T pvT, ffScan (nunitsOf n) C.1 (z ++ w ++ [C]) = some (T, pvT) →
      (∃ L1 L2, z ++ w ++ [C] = L1 ++ T :: L2 ∧
        (∀ b ∈ L1, b.2 < nunitsOf n) ∧ nunitsOf n ≤ T.2) ∧
      ∃ a Q b', fl = a ++ Q :: T :: b' ∧ pvT = Q.1) := by
  obtain ⟨hnu_eq, hnu2, hnuU, hnusz⟩ := nunitsOf_spec hn hb
  refine ⟨mallocFirst_eq h hwz hfp (by omega) fuel0, ?_⟩
  intro T pvT hscan
  obtain ⟨L1, L2, hLd, hlt1, hfit, hpvT⟩ := ffScan_decomp _ _ hscan
  have hTfl : T ∈ fl :=
    ring_mem hwz T (by rw [hLd]; exact List.mem_append_right _ (by simp))
  obtain ⟨a, Q, b', hQ⟩ := h.pred_decomp hTfl (by omega)
  have hT1 : 1 ≤ T.1 := by
    rcases h.fl_bounds T hTfl with he | hr
    · exfalso
      have h0 : T.2 = 0 := by rw [he]
      omega
    · exact hr.1
  refine ⟨⟨L1, L2, hLd, hlt1, hfit⟩, a, Q, b', hQ, ?_⟩
  rw [hpvT]
  exact scan_pred_eq h hwz hLd hQ hT1

/-- Claim C4, witness: on `cexSt` a 16-byte request (2 units) is served
from the 6-unit block at 5 by splitting, the cursor staying at the
sentinel that precedes the chosen block; the returned reference is 10,
just past the carved header at 9. -/
theorem malloc_first_fit_w :
    mallocFirst (48 + 2) cexSt 16 = some (ffResult cexSt (nunitsOf 16) (5, 6) 0) ∧
    retOf (mallocFirst 50 cexSt 16) = some (some 10) ∧
    (∃ a Q b', ([((0 : Nat), (0 : Nat)), ((5 : Nat), (6 : Nat))] : List Blk) =
      a ++ Q :: ((5 : Nat), (6 : Nat)) :: b' ∧ (0 : Nat) = Q.1) := by
  have hm := @malloc_first_fit cexSt [(0, 0), (5, 6)] [] cexSt_Inv
    [] [(5, 6)] (0, 0) rfl rfl 16 (by norm_num) (by norm_num) 48
  have hscan : ffScan (nunitsOf 16) (((0, 0) : Blk)).1 ([(5, 6)] ++ [] ++ [(0, 0)]) =
      some ((5, 6), 0) := by decide
  refine ⟨?_, rfl, ?_⟩
  · have h1 := hm.1
    simp only [hscan] at h1
    exact h1
  · exact (hm.2 (5, 6) 0 hscan).2

/-! ### Claim C7: failure leaves the allocator untouched -/

/-- Claim C7 (amended): on an initialized allocator, whenever first-fit
`allocate` with `n > 0` returns NULL because the arena cannot grow, the
call returns the state exactly unchanged — same ring, same cursor, no
partial split left dangling.  (On the very first call the dormant list
head is initialized even when the allocation then fails; see the
counterexample.) -/
theorem malloc_fail_unchanged {s : St} {fl al : List Blk} (h : Inv s fl al)
    {n : Nat} (hn : 1 ≤ n) (hb : n ≤ 2 ^ 35) {fuel : Nat}
    (hfuel : 2 * s.limit + 4 ≤ fuel)
    (hres : retOf (mallocFirst fuel s n) = some none) :
    mallocFirst fuel s n = some (s, none) := by
  rcases mallocFirst_inv h hn hb hfuel with h1 | ⟨s', r, fl', h2, _, _, _, _⟩
  · exact h1
  · rw [h2] at hres
    simp [retOf] at hres

/-- `failSt` satisfies the invariant. -/
theorem failSt_Inv : Inv failSt [(0, 0), (5, 6)] [] := by
  refine ⟨rfl, by decide, ?_, by decide, by decide, by decide,
    ⟨0, rfl, by simp⟩, by simp, by simp, by simp, by decide, by decide, by decide⟩
  simp only [List.chain'_cons, List.chain'_singleton, and_true]
  decide

/-- Claim C7, witness: a 120-byte request (9 units) finds no fit on
`failSt`, the grower is refused, and the failing call returns `failSt`
itself. -/
theorem malloc_fail_unchanged_w :
    mallocFirst 44 failSt 120 = some (failSt, none) :=
  malloc_fail_unchanged failSt_Inv (by norm_num) (by norm_num)
    (by norm_num [failSt]) rfl

/-- Claim C7, counterexample to the unamended statement: the very first
failing call still mutates the allocator — the bootstrap code
(malloc.c lines 154-157) runs before the scan, so the cursor changes
from NULL to the sentinel even though the allocation fails. -/
theorem malloc_fail_unchanged_cex :
    (initSt 1).freep = none ∧
    mallocFirst (fuelFor (initSt 1)) (initSt 1) 16 =
      some (bootstrap (initSt 1), none) ∧
    (bootstrap (initSt 1)).freep = some 0 :=
  ⟨rfl, rfl, rfl⟩

/-! ### Claim C2: release coalesces with contiguous neighbours -/

/-- Outstanding allocations are pairwise distinct. -/
theorem Inv.al_nodup {s : St} {fl al : List Blk} (h : Inv s fl al) : al.Nodup := by
  refine List.Pairwise.imp_of_mem ?_ h.al_disj
  intro x y hx hy hd he
  exact spanDisj_ne hd (h.al_ok x hx).2.1 (h.al_ok y hy).2.1 (congrArg Prod.fst he)

/-- Any two distinct outstanding allocations have disjoint spans. -/
theorem Inv.al_disj_of_ne {s : St} {fl al : List Blk} (h : Inv s fl al) {x y : Blk}
    (hx : x ∈ al) (hy : y ∈ al) (hne : x ≠ y) : spanDisj x y := by
  have hp : al.Pairwise (fun a b => spanDisj a b ∧ spanDisj b a) :=
    h.al_disj.imp (fun hab => ⟨hab, spanDisj_symm hab⟩)
  exact (hp.forall (fun a b hab => ⟨hab.2, hab.1⟩) hx hy hne).1

/-- Claim C2 (amended): releasing an outstanding allocation `B` succeeds
and leaves exactly the coalesced insertion `insCoal fl B` as the free
list — `B` merges with its upper neighbour when that neighbour begins
exactly where `B` ends (sizes summed, successor link taken over) and
with its lower neighbour when that one ends exactly where `B` begins.
Afterwards no two free blocks on the ring are contiguous (the `gapR`
pairwise order is strict), and the cursor rests on the insertion
predecessor: the free block closest below the freed address.  That block
precedes the freed region, but when a lower merge happened it *is* the
merged block rather than one preceding it — the unamended cursor clause
fails there (see the counterexample). -/
theorem free_coalesce {s : St} {fl al : List Blk} (h : Inv s fl al) {B : Blk}
    (hB : B ∈ al) (fuel : Nat) (hfuel : fl.length ≤ fuel) :
    ∃ s', freeOp fuel s (some (B.1 + 1)) = some s' ∧
      Inv s' (insCoal fl B) (al.erase B) ∧
      (insCoal fl B).Pairwise gapR ∧
      (∃ P ∈ fl, s'.freep = some P.1 ∧ P.1 < B.1 ∧
        ∀ e ∈ fl, e.1 < B.1 → e.1 ≤ P.1) ∧
      s'.brk = s.brk ∧ s'.limit = s.limit ∧ s'.data = s.data := by
  obtain ⟨u, v, hal⟩ := List.append_of_mem hB
  have hBu : B ∉ u := by
    have hnd := h.al_nodup
    rw [hal] at hnd
    intro hin
    exact (List.disjoint_of_nodup_append hnd) hin (by simp)
  have herase : al.erase B = u ++ v := by
    rw [hal, List.erase_append_right _ hBu, List.erase_cons_head]
  obtain ⟨s', he, hinv, hcur, hbrk, hlim, hdata⟩ := freeOp_release h hal fuel hfuel
  rw [herase]
  exact ⟨s', he, hinv, hinv.gaps, hcur, hbrk, hlim, hdata⟩

/-- `relSt` satisfies the invariant. -/
theorem relSt_Inv : Inv relSt [(0, 0), (1, 4)] [(5, 3)] := by
  refine ⟨rfl, by decide, ?_, by decide, by decide, by decide,
    ⟨0, rfl, by simp⟩, by decide, by decide, by decide, by decide, by decide, by decide⟩
  simp only [List.chain'_cons, List.chain'_singleton, and_true]
  decide

/-- Claim C2, witness: releasing the block at 5 on `relSt` coalesces it
into its lower neighbour, the resulting list is the computed
`insCoal`, no two blocks are contiguous, and the cursor is the
insertion predecessor. -/
theorem free_coalesce_w :
    ∃ s', freeOp 10 relSt (some (5 + 1)) = some s' ∧
      Inv s' (insCoal [(0, 0), (1, 4)] (5, 3)) ([((5 : Nat), (3 : Nat))].erase (5, 3)) ∧
      (insCoal [(0, 0), (1, 4)] (5, 3)).Pairwise gapR ∧
      (∃ P ∈ ([((0 : Nat), (0 : Nat)), ((1 : Nat), (4 : Nat))] : List Blk),
        s'.freep = some P.1 ∧ P.1 < 5 ∧
        ∀ e ∈ ([((0 : Nat), (0 : Nat)), ((1 : Nat), (4 : Nat))] : List Blk),
          e.1 < 5 → e.1 ≤ P.1) ∧
      s'.brk = relSt.brk ∧ s'.limit = relSt.limit ∧ s'.data = relSt.data :=
  @free_coalesce relSt [(0, 0), (1, 4)] [(5, 3)] relSt_Inv (5, 3) (by decide) 10 (by decide)

/-- Claim C2, counterexample to the unamended cursor clause: freeing the
block at 5 merges it into its lower neighbour at 1, producing the merged
free region spanning units 1-7; the cursor is left at 1 — the merged
block itself — while the free block preceding that region is the
sentinel at 0 (which points at 1).  The cursor is therefore not "the
block preceding the inserted/merged region". -/
theorem free_coalesce_cex :
    ∃ s', freeOp 10 relSt (some 6) = some s' ∧
      s'.freep = some 1 ∧ (s'.mem 1).size = 7 ∧ (s'.mem 1).ptr = 0 ∧
      (s'.mem 0).ptr = 1 :=
  ⟨_, rfl, rfl, by decide, by decide, by decide⟩

/-! ### The best-fit scan -/

/-- One step of the best-fit scan, empty-handed. -/
theorem bfScan_cons_none (nunits pv : Nat) (c : Blk) (rest : List Blk) :
    bfScan nunits pv none (c :: rest) =
      if c.2 = nunits then Sum.inr (c, pv)
      else bfScan nunits c.1 (if c.2 > nunits then some (c, pv) else none) rest := rfl

/-- One step of the best-fit scan with a candidate in hand. -/
theorem bfScan_cons_some (nunits pv : Nat) (x0 : Blk) (pvx0 : Nat) (c : Blk)
    (rest : List Blk) :
    bfScan nunits pv (some (x0, pvx0)) (c :: rest) =
      if c.2 = nunits then Sum.inr (c, pv)
      else bfScan nunits c.1
        (if decide (c.2 < x0.2) = true
         then (if c.2 > nunits then some (c, pv) else some (x0, pvx0))
         else some (x0, pvx0)) rest := rfl

/-- An empty-handed best-fit scan started empty-handed saw no exact fit
and no block larger than the request. -/
theorem bfScan_inl_none {nunits : Nat} :
    ∀ (L : List Blk) (pv : Nat) (acc : Option (Blk × Nat)),
      bfScan nunits pv acc L = Sum.inl none →
      acc = none ∧ ∀ b ∈ L, b.2 < nunits := by
  intro L
  induction L with
  | nil =>
    intro pv acc hs
    rw [bfScan] at hs
    simp only [Sum.inl.injEq] at hs
    exact ⟨hs, by simp⟩
  | cons c rest ih =>
    intro pv acc hs
    rcases acc with _ | ⟨x0, pvx0⟩
    · rw [bfScan_cons_none] at hs
      by_cases hex : c.2 = nunits
      · rw [if_pos hex] at hs
        exact absurd hs (by simp)
      · rw [if_neg hex] at hs
        by_cases hgt : c.2 > nunits
        · rw [if_pos hgt] at hs
          obtain ⟨hupd, hrest⟩ := ih c.1 _ hs
          exact absurd hupd (by simp)
        · rw [if_neg hgt] at hs
          obtain ⟨hupd, hrest⟩ := ih c.1 _ hs
          refine ⟨rfl, ?_⟩
          intro b hb
          rcases List.mem_cons.mp hb with h1 | h2
          · rw [h1]
            omega
          · exact hrest b h2
    · rw [bfScan_cons_some] at hs
      by_cases hex : c.2 = nunits
      · rw [if_pos hex] at hs
        exact absurd hs (by simp)
      · rw [if_neg hex] at hs
        exfalso
        by_cases hlt : decide (c.2 < x0.2) = true
        · rw [if_pos hlt] at hs
          by_cases hgt : c.2 > nunits
          · rw [if_pos hgt] at hs
            exact absurd (ih c.1 _ hs).1 (by simp)
          · rw [if_neg hgt] at hs
            exact absurd (ih c.1 _ hs).1 (by simp)
        · rw [if_neg hlt] at hs
          exact absurd (ih c.1 _ hs).1 (by simp)

/-- A best-fit scan that ends holding a candidate holds the smallest
block strictly larger than the request seen over the whole scan, and has
seen no exact fit. -/
theorem bfScan_min {nunits : Nat} :
    ∀ (L : List Blk) (pv : Nat) (acc : Option (Blk × Nat)) (pb : Blk) (ppb : Nat),
      bfScan nunits pv acc L = Sum.inl (some (pb, ppb)) →
      (∀ x pvx, acc = some (x, pvx) → nunits < x.2) →
      (pb ∈ L ∨ (∃ pvx, acc = some (pb, pvx))) ∧ nunits < pb.2 ∧
      (∀ b ∈ L, nunits < b.2 → pb.2 ≤ b.2) ∧
      (∀ x pvx, acc = some (x, pvx) → pb.2 ≤ x.2) ∧
      (∀ b ∈ L, b.2 ≠ nunits) := by
  intro L
  induction L with
  | nil =>
    intro pv acc pb ppb hs hacc
    rw [bfScan] at hs
    simp only [Sum.inl.injEq] at hs
    refine ⟨Or.inr ⟨ppb, hs⟩, hacc pb ppb hs, by simp, ?_, by simp⟩
    intro x pvx hx
    rw [hx] at hs
    simp only [Option.some.injEq, Prod.mk.injEq] at hs
    rw [hs.1]
  | cons c rest ih =>
    intro pv acc pb ppb hs hacc
    rcases acc with _ | ⟨x0, pvx0⟩
    · rw [bfScan_cons_none] at hs
      by_cases hex : c.2 = nunits
      · rw [if_pos hex] at hs
        exact absurd hs (by simp)
      · rw [if_neg hex] at hs
        by_cases hgt : c.2 > nunits
        · rw [if_pos hgt] at hs
          obtain ⟨hmem, hpb2, hminL, hminA, hnoex⟩ := ih c.1 _ pb ppb hs
            (by
              intro x pvx hx
              simp only [Option.some.injEq, Prod.mk.injEq] at hx
              rw [← hx.1]
              exact hgt)
          refine ⟨?_, hpb2, ?_, by simp, ?_⟩
          · rcases hmem with h1 | ⟨pvx, h2⟩
            · exact Or.inl (List.mem_cons_of_mem _ h1)
            · simp only [Option.some.injEq, Prod.mk.injEq] at h2
              exact Or.inl (by rw [← h2.1]; simp)
          · intro b hb hbgt
            rcases List.mem_cons.mp hb with h1 | h2
            · rw [h1]
              exact hminA c pv rfl
            · exact hminL b h2 hbgt
          · intro b hb
            rcases List.mem_cons.mp hb with h1 | h2
            · rw [h1]; exact hex
            · exact hnoex b h2
        · rw [if_neg hgt] at hs
          obtain ⟨hmem, hpb2, hminL, hminA, hnoex⟩ := ih c.1 _ pb ppb hs (by simp)
          refine ⟨?_, hpb2, ?_, by simp, ?_⟩
          · rcases hmem with h1 | ⟨pvx, h2⟩
            · exact Or.inl (List.mem_cons_of_mem _ h1)
            · exact absurd h2 (by simp)
          · intro b hb hbgt
            rcases List.mem_cons.mp hb with h1 | h2
            · exfalso
              rw [h1] at hbgt
              omega
            · exact hminL b h2 hbgt
          · intro b hb
            rcases List.mem_cons.mp hb with h1 | h2
            · rw [h1]; exact hex
            · exact hnoex b h2
    · rw [bfScan_cons_some] at hs
      have hx0 : nunits < x0.2 := hacc x0 pvx0 rfl
      by_cases hex : c.2 = nunits
      · rw [if_pos hex] at hs
        exact absurd hs (by simp)
      · rw [if_neg hex] at hs
        by_cases hlt : decide (c.2 < x0.2) = true
        · rw [if_pos hlt] at hs
          have hltn : c.2 < x0.2 := of_decide_eq_true hlt
          by_cases hgt : c.2 > nunits
          · rw [if_pos hgt] at hs
            obtain ⟨hmem, hpb2, hminL, hminA, hnoex⟩ := ih c.1 _ pb ppb hs
              (by
                intro x pvx hx
                simp only [Option.some.injEq, Prod.mk.injEq] at hx
                rw [← hx.1]
                exact hgt)
            have hpbc : pb.2 ≤ c.2 := hminA c pv rfl
            refine ⟨?_, hpb2, ?_, ?_, ?_⟩
            · rcases hmem with h1 | ⟨pvx, h2⟩
              · exact Or.inl (List.mem_cons_of_mem _ h1)
              · simp only [Option.some.injEq, Prod.mk.injEq] at h2
                exact Or.inl (by rw [← h2.1]; simp)
            · intro b hb hbgt
              rcases List.mem_cons.mp hb with h1 | h2
              · rw [h1]
                exact hpbc
              · exact hminL b h2 hbgt
            · intro x pvx hx
              simp only [Option.some.injEq, Prod.mk.injEq] at hx
              rw [← hx.1]
              omega
            · intro b hb
              rcases List.mem_cons.mp hb with h1 | h2
              · rw [h1]; exact hex
              · exact hnoex b h2
          · rw [if_neg hgt] at hs
            obtain ⟨hmem, hpb2, hminL, hminA, hnoex⟩ := ih c.1 _ pb ppb hs
              (by
                intro x pvx hx
                simp only [Option.some.injEq, Prod.mk.injEq] at hx
                rw [← hx.1]
                exact hx0)
            refine ⟨?_, hpb2, ?_, ?_, ?_⟩
            · rcases hmem with h1 | ⟨pvx, h2⟩
              · exact Or.inl (List.mem_cons_of_mem _ h1)
              · simp only [Option.some.injEq, Prod.mk.injEq] at h2
                exact Or.inr ⟨pvx0, by rw [h2.1]⟩
            · intro b hb hbgt
              rcases List.mem_cons.mp hb with h1 | h2
              · exfalso
                rw [h1] at hbgt
                omega
              · exact hminL b h2 hbgt
            · intro x pvx hx
              simp only [Option.some.injEq, Prod.mk.injEq] at hx
              rw [← hx.1]
              exact hminA x0 pvx0 rfl
            · intro b hb
              rcases List.mem_cons.mp hb with h1 | h2
              · rw [h1]; exact hex
              · exact hnoex b h2
        · rw [if_neg hlt] at hs
          have hge : x0.2 ≤ c.2 := by
            have hnlt : ¬ c.2 < x0.2 := fun hcon => hlt (decide_eq_true hcon)
            omega
          obtain ⟨hmem, hpb2, hminL, hminA, hnoex⟩ := ih c.1 _ pb ppb hs
            (by
              intro x pvx hx
              simp only [Option.some.injEq, Prod.mk.injEq] at hx
              rw [← hx.1]
              exact hx0)
          refine ⟨?_, hpb2, ?_, ?_, ?_⟩
          · rcases hmem with h1 | ⟨pvx, h2⟩
            · exact Or.inl (List.mem_cons_of_mem _ h1)
            · simp only [Option.some.injEq, Prod.mk.injEq] at h2
              exact Or.inr ⟨pvx0, by rw [h2.1]⟩
          · intro b hb hbgt
            rcases List.mem_cons.mp hb with h1 | h2
            · rw [h1]
              have := hminA x0 pvx0 rfl
              omega
            · exact hminL b h2 hbgt
          · intro x pvx hx
            simp only [Option.some.injEq, Prod.mk.injEq] at hx
            rw [← hx.1]
            exact hminA x0 pvx0 rfl
          · intro b hb
            rcases List.mem_cons.mp hb with h1 | h2
            · rw [h1]; exact hex
            · exact hnoex b h2

/-- An exact match aborts the best-fit scan at the first exactly fitting
block, recording the address of the block scanned just before it. -/
theorem bfScan_inr {nunits : Nat} :
    ∀ (L : List Blk) (pv : Nat) (acc : Option (Blk × Nat)) {T : Blk} {pvT : Nat},
      bfScan nunits pv acc L = Sum.inr (T, pvT) →
      ∃ L1 L2, L = L1 ++ T :: L2 ∧ T.2 = nunits ∧
        (∀ b ∈ L1, b.2 ≠ nunits) ∧ pvT = (L1.map Prod.fst).getLastD pv := by
  intro L
  induction L with
  | nil =>
    intro pv acc T pvT hs
    rw [bfScan] at hs
    exact absurd hs (by simp)
  | cons c rest ih =>
    intro pv acc T pvT hs
    rcases acc with _ | ⟨x0, pvx0⟩
    · rw [bfScan_cons_none] at hs
      by_cases hex : c.2 = nunits
      · rw [if_pos hex] at hs
        simp only [Sum.inr.injEq, Prod.mk.injEq] at hs
        obtain ⟨h1, h2⟩ := hs
        subst h1
        subst h2
        exact ⟨[], rest, by simp, hex, by simp, by simp⟩
      · rw [if_neg hex] at hs
        obtain ⟨L1, L2, he, hT, hno, hpv⟩ := ih c.1 _ hs
        refine ⟨c :: L1, L2, by rw [he]; rfl, hT, ?_, ?_⟩
        · intro b hb
          rcases List.mem_cons.mp hb with h1 | h2
          · rw [h1]; exact hex
          · exact hno b h2
        · rw [List.map_cons, List.getLastD_cons]
          exact hpv
    · rw [bfScan_cons_some] at hs
      by_cases hex : c.2 = nunits
      · rw [if_pos hex] at hs
        simp only [Sum.inr.injEq, Prod.mk.injEq] at hs
        obtain ⟨h1, h2⟩ := hs
        subst h1
        subst h2
        exact ⟨[], rest, by simp, hex, by simp, by simp⟩
      · rw [if_neg hex] at hs
        obtain ⟨L1, L2, he, hT, hno, hpv⟩ := ih c.1 _ hs
        refine ⟨c :: L1, L2, by rw [he]; rfl, hT, ?_, ?_⟩
        · intro b hb
          rcases List.mem_cons.mp hb with h1 | h2
          · rw [h1]; exact hex
          · exact hno b h2
        · rw [List.map_cons, List.getLastD_cons]
          exact hpv

/-! ### The best-fit loop follows the best-fit scan -/

/-- One step of the `STRATEGY_BEST` loop, the candidate update and the
wrap-around split written out. -/
theorem mallocLoopBest_step (fuel : Nat) (s : St) (nunits prevp p : Nat)
    (best : Option (Nat × Nat)) :
    mallocLoopBest (fuel + 1) s nunits prevp p best =
      if (s.mem p).size = nunits then
        some ({ s with mem := setPtr s.mem prevp ((s.mem p).ptr),
                       freep := some prevp }, some (p + 1))
      else if some p = s.freep then
        (match bestUpd s.mem nunits p prevp best with
         | some (pb, ppb) => some (bestSplit s nunits pb ppb)
         | none =>
           match morecore fuel s nunits with
           | none => none
           | some (s', none) => some (s', none)
           | some (s', some f) =>
             mallocLoopBest fuel s' nunits f ((s'.mem f).ptr) none)
      else mallocLoopBest fuel s nunits p ((s.mem p).ptr)
        (bestUpd s.mem nunits p prevp best) := rfl

/-- The source's candidate update agrees with the specification scan's
accumulator update: empty-handed case. -/
theorem bestUpd_corr_none {s : St} {nunits : Nat} (c : Blk) (pv : Nat)
    (hszc : (s.mem c.1).size = c.2) :
    bestUpd s.mem nunits c.1 pv (accAddr none) =
      accAddr (if c.2 > nunits then some (c, pv) else none) := by
  rw [show accAddr none = (none : Option (Nat × Nat)) from rfl, bestUpd, hszc]
  by_cases hgt : c.2 > nunits
  · rw [if_pos hgt, if_pos hgt]
    rfl
  · rw [if_neg hgt, if_neg hgt]
    rfl

/-- The source's candidate update agrees with the specification scan's
accumulator update: candidate-in-hand case. -/
theorem bestUpd_corr_some {s : St} {nunits : Nat} (c : Blk) (pv : Nat) (x0 : Blk)
    (pvx0 : Nat) (hszc : (s.mem c.1).size = c.2) (hx0 : (s.mem x0.1).size = x0.2) :
    bestUpd s.mem nunits c.1 pv (accAddr (some (x0, pvx0))) =
      accAddr (if decide (c.2 < x0.2) = true
               then (if c.2 > nunits then some (c, pv) else some (x0, pvx0))
               else some (x0, pvx0)) := by
  rw [show accAddr (some (x0, pvx0)) = some (x0.1, pvx0) from rfl, bestUpd, hszc, hx0]
  by_cases hlt : c.2 < x0.2
  · rw [if_pos hlt, if_pos (decide_eq_true hlt)]
    by_cases hgt : c.2 > nunits
    · rw [if_pos hgt, if_pos hgt]
      rfl
    · rw [if_neg hgt, if_neg hgt]
      rfl
  · rw [if_neg hlt, if_neg (by simpa using hlt)]
    rfl

/-- The best-fit loop on a chained scan list: an exact fit found by the
scan is unlinked at once, a recorded best candidate is split at the wrap,
and an empty-handed wrap consults the arena grower and retries from the
cursor it returns, empty-handed again. -/
theorem mallocLoopBest_eq {s : St} {nunits : Nat} :
    ∀ (L : List Blk) (pv : Nat) (fuel0 : Nat) (acc : Option (Blk × Nat)),
      L ≠ [] →
      L.Chain' (ptrLink s.mem) →
      (∀ b ∈ L, (s.mem b.1).size = b.2) →
      (∀ b ∈ L.dropLast, s.freep ≠ some b.1) →
      s.freep = some ((L.getLastD (0, 0)).1) →
      (∀ x pvx, acc = some (x, pvx) → (s.mem x.1).size = x.2) →
      mallocLoopBest (fuel0 + L.length) s nunits pv (L.headI).1 (accAddr acc) =
        (match bfScan nunits pv acc L with
         | Sum.inr (T, pvT) => some (bestExact s T.1 pvT)
         | Sum.inl (some (pb, ppb)) => some (bestSplit s nunits pb.1 ppb)
         | Sum.inl none =>
           match morecore fuel0 s nunits with
           | none => none
           | some (s', none) => some (s', none)
           | some (s', some f) =>
             mallocLoopBest fuel0 s' nunits f ((s'.mem f).ptr) none) := by
  intro L
  induction L with
  | nil =>
    intro pv fuel0 acc hne
    exact absurd rfl hne
  | cons c rest ih =>
    intro pv fuel0 acc _ hchain hsz hfp hlast hacc
    have hszc := hsz c (by simp)
    simp only [List.headI, List.length_cons]
    rw [← Nat.add_assoc, mallocLoopBest_step]
    rcases acc with _ | ⟨x0, pvx0⟩
    · by_cases hex : c.2 = nunits
      · rw [if_pos (show (s.mem c.1).size = nunits by omega)]
        rw [bfScan_cons_none, if_pos hex]
        rfl
      · rw [if_neg (show ¬ (s.mem c.1).size = nunits by omega)]
        rw [bfScan_cons_none, if_neg hex]
        cases rest with
        | nil =>
          rw [if_pos (show some c.1 = s.freep by rw [hlast]; rfl)]
          rw [bestUpd_corr_none c pv hszc]
          rw [show bfScan nunits c.1 (if c.2 > nunits then some (c, pv) else none) [] =
            Sum.inl (if c.2 > nunits then some (c, pv) else none) from rfl]
          simp only [List.length_nil, Nat.add_zero]
          by_cases hgt : c.2 > nunits
          · rw [if_pos hgt]
            rfl
          · rw [if_neg hgt]
            rfl
        | cons d rest' =>
          rw [if_neg (show ¬ some c.1 = s.freep from fun he => hfp c (by simp) he.symm)]
          have hlink : (s.mem c.1).ptr = d.1 := (List.chain'_cons.mp hchain).1
          rw [hlink, bestUpd_corr_none c pv hszc]
          have hacc' : ∀ x pvx,
              (if c.2 > nunits then some (c, pv) else (none : Option (Blk × Nat))) =
                some (x, pvx) → (s.mem x.1).size = x.2 := by
            intro x pvx hx
            by_cases hgt : c.2 > nunits
            · rw [if_pos hgt] at hx
              simp only [Option.some.injEq, Prod.mk.injEq] at hx
              rw [← hx.1]
              exact hszc
            · rw [if_neg hgt] at hx
              exact absurd hx (by simp)
          have hrec := ih c.1 fuel0 _ (by simp) (List.chain'_cons.mp hchain).2
            (fun b hb => hsz b (by simp [hb]))
            (fun b hb => hfp b
              (by rw [List.dropLast_cons₂]; exact List.mem_cons_of_mem _ hb))
            (by rw [hlast]; simp [List.getLastD_cons])
            hacc'
          simp only [List.headI] at hrec
          exact hrec
    · have hx0 : (s.mem x0.1).size = x0.2 := hacc x0 pvx0 rfl
      by_cases hex : c.2 = nunits
      · rw [if_pos (show (s.mem c.1).size = nunits by omega)]
        rw [bfScan_cons_some, if_pos hex]
        rfl
      · rw [if_neg (show ¬ (s.mem c.1).size = nunits by omega)]
        rw [bfScan_cons_some, if_neg hex]
        cases rest with
        | nil =>
          rw [if_pos (show some c.1 = s.freep by rw [hlast]; rfl)]
          rw [bestUpd_corr_some c pv x0 pvx0 hszc hx0]
          rw [show bfScan nunits c.1
              (if decide (c.2 < x0.2) = true
               then (if c.2 > nunits then some (c, pv) else some (x0, pvx0))
               else some (x0, pvx0)) [] =
            Sum.inl (if decide (c.2 < x0.2) = true
               then (if c.2 > nunits then some (c, pv) else some (x0, pvx0))
               else some (x0, pvx0)) from rfl]
          simp only [List.length_nil, Nat.add_zero]
          by_cases hlt : decide (c.2 < x0.2) = true
          · rw [if_pos hlt]
            by_cases hgt : c.2 > nunits
            · rw [if_pos hgt]
              rfl
            · rw [if_neg hgt]
              rfl
          · rw [if_neg hlt]
            rfl
        | cons d rest' =>
          rw [if_neg (show ¬ some c.1 = s.freep from fun he => hfp c (by simp) he.symm)]
          have hlink : (s.mem c.1).ptr = d.1 := (List.chain'_cons.mp hchain).1
          rw [hlink, bestUpd_corr_some c pv x0 pvx0 hszc hx0]
          have hacc' : ∀ x pvx,
              (if decide (c.2 < x0.2) = true
               then (if c.2 > nunits then some (c, pv) else some (x0, pvx0))
               else some (x0, pvx0)) = some (x, pvx) → (s.mem x.1).size = x.2 := by
            intro x pvx hx
            by_cases hlt : decide (c.2 < x0.2) = true
            · rw [if_pos hlt] at hx
              by_cases hgt : c.2 > nunits
              · rw [if_pos hgt] at hx
                simp only [Option.some.injEq, Prod.mk.injEq] at hx
                rw [← hx.1]
                exact hszc
              · rw [if_neg hgt] at hx
                simp only [Option.some.injEq, Prod.mk.injEq] at hx
                rw [← hx.1]
                exact hx0
            · rw [if_neg hlt] at hx
              simp only [Option.some.injEq, Prod.mk.injEq] at hx
              rw [← hx.1]
              exact hx0
          have hrec := ih c.1 fuel0 _ (by simp) (List.chain'_cons.mp hchain).2
            (fun b hb => hsz b (by simp [hb]))
            (fun b hb => hfp b
              (by rw [List.dropLast_cons₂]; exact List.mem_cons_of_mem _ hb))
            (by rw [hlast]; simp [List.getLastD_cons])
            hacc'
          simp only [List.headI] at hrec
          exact hrec

/-- One revolution of the best-fit loop from the cursor, empty-handed. -/
theorem mallocBest_from_cursor {s : St} {fl al : List Blk} (h : Inv s fl al)
    {w z : List Blk} {C : Blk} (hwz : fl = w ++ C :: z) (hfp : s.freep = some C.1)
    (nunits fuel0 : Nat) :
    mallocLoopBest (fuel0 + fl.length) s nunits C.1 ((s.mem C.1).ptr) none =
      (match bfScan nunits C.1 none (z ++ w ++ [C]) with
       | Sum.inr (T, pvT) => some (bestExact s T.1 pvT)
       | Sum.inl (some (pb, ppb)) => some (bestSplit s nunits pb.1 ppb)
       | Sum.inl none =>
         match morecore fuel0 s nunits with
         | none => none
         | some (s', none) => some (s', none)
         | some (s', some f) =>
           mallocLoopBest fuel0 s' nunits f ((s'.mem f).ptr) none) := by
  have hchain_ring := h.chain_ring hwz
  have hchainL : (z ++ w ++ [C]).Chain' (ptrLink s.mem) :=
    (List.chain'_cons'.mp hchain_ring).2
  have hLne : z ++ w ++ [C] ≠ [] := by simp
  have hsize : ∀ b ∈ z ++ w ++ [C], (s.mem b.1).size = b.2 :=
    fun b hb => h.size_ok b (ring_mem hwz b hb)
  have hnd := h.nodup
  have hCw : C ∉ w := by
    rw [hwz] at hnd
    intro hin
    exact (List.disjoint_of_nodup_append hnd) hin (by simp)
  have hCz : C ∉ z := by
    rw [hwz] at hnd
    have := (List.nodup_append.mp hnd).2.1
    exact (List.nodup_cons.mp this).1
  have hdrop : ∀ b ∈ (z ++ w ++ [C]).dropLast, s.freep ≠ some b.1 := by
    intro b hb hbe
    have hbzw : b ∈ z ++ w := by
      have : (z ++ w ++ [C]).dropLast = z ++ w := List.dropLast_concat
      rwa [this] at hb
    have hb1 : b.1 = C.1 := by
      rw [hfp] at hbe
      simpa using hbe.symm
    have hbC : b = C := h.addr_inj (ring_mem hwz b (List.mem_append_left _ hbzw))
      (by rw [hwz]; exact List.mem_append_right _ (by simp)) hb1
    subst hbC
    rcases List.mem_append.mp hbzw with h1 | h2
    · exact hCz h1
    · exact hCw h2
  have hlast : s.freep = some (((z ++ w ++ [C]).getLastD (0, 0)).1) := by
    rw [getLastD_append_cons (z ++ w) C []]
    exact hfp
  have hlen : (z ++ w ++ [C]).length = fl.length := by
    rw [hwz]
    simp only [List.length_append, List.length_cons, List.length_nil]
    omega
  rw [← hlen]
  have hhead : (s.mem C.1).ptr = ((z ++ w ++ [C]).headI).1 := by
    have h1 := (List.chain'_cons'.mp hchain_ring).1
    cases hL : z ++ w ++ [C] with
    | nil => exact absurd hL hLne
    | cons q t =>
      exact h1 q (by rw [hL]; rfl)
  rw [hhead]
  exact mallocLoopBest_eq (z ++ w ++ [C]) C.1 fuel0 none hLne hchainL hsize hdrop
    hlast (by simp)

/-- One revolution of the best-fit `malloc` from the cursor: an exact fit
found by the scan is unlinked and returned at once, otherwise the
recorded smallest block larger than the request is split at the wrap,
and if no candidate was recorded the arena grower is invoked with
`nunits` and the scan retried from the cursor it returns. -/
theorem mallocBest_eq {s : St} {fl al : List Blk} (h : Inv s fl al)
    {w z : List Blk} {C : Blk} (hwz : fl = w ++ C :: z) (hfp : s.freep = some C.1)
    {n : Nat} (hn : n ≠ 0) (fuel0 : Nat) :
    mallocBest (fuel0 + fl.length) s n =
      (match bfScan (nunitsOf n) C.1 none (z ++ w ++ [C]) with
       | Sum.inr (T, pvT) => some (bestExact s T.1 pvT)
       | Sum.inl (some (pb, ppb)) => some (bestSplit s (nunitsOf n) pb.1 ppb)
       | Sum.inl none =>
         match morecore fuel0 s (nunitsOf n) with
         | none => none
         | some (s', none) => some (s', none)
         | some (s', some f) =>
           mallocLoopBest fuel0 s' (nunitsOf n) f ((s'.mem f).ptr) none) := by
  have hstart : mallocBest (fuel0 + fl.length) s n =
      mallocLoopBest (fuel0 + fl.length) s (nunitsOf n) C.1 ((s.mem C.1).ptr) none := by
    rw [mallocBest, if_neg hn, hfp]
  rw [hstart]
  exact mallocBest_from_cursor h hwz hfp (nunitsOf n) fuel0

/-! ### Claim C5: the best-fit placement policy -/

/-- The concrete state `bestSt` satisfies the invariant with free list
sentinel-plus-two-blocks and no outstanding allocations. -/
theorem bestSt_Inv : Inv bestSt [(0, 0), (2, 6), (9, 4)] [] := by
  refine ⟨rfl, by decide, ?_, by decide, by decide, by decide,
    ⟨0, rfl, by simp⟩, by simp, by simp, by simp, by decide, by decide, by decide⟩
  simp only [List.chain'_cons, List.chain'_singleton, and_true]
  decide

/-- Claim C5: under the best-fit strategy, `allocate` walks the full ring
once from the cursor `C`: a block whose recorded size equals `nunits` is
unlinked and returned immediately (`bestExact`, at the first such block
in scan order); otherwise the smallest block with recorded size strictly
greater than `nunits` seen over the full revolution is split exactly as
in first-fit's split case (`bestSplit` agrees with `ffResult` on
non-exact blocks); and if no candidate was found after the revolution —
every block being strictly smaller than the request — the arena grower
is invoked with `nunits` and the scan retried from the cursor it
returns. -/
theorem malloc_best_fit {s : St} {fl al : List Blk} (h : Inv s fl al)
    {w z : List Blk} {C : Blk} (hwz : fl = w ++ C :: z) (hfp : s.freep = some C.1)
    {n : Nat} (hn : 1 ≤ n) (fuel0 : Nat) :
    (mallocBest (fuel0 + fl.length) s n =
      match bfScan (nunitsOf n) C.1 none (z ++ w ++ [C]) with
      | Sum.inr (T, pvT) => some (bestExact s T.1 pvT)
      | Sum.inl (some (pb, ppb)) => some (bestSplit s (nunitsOf n) pb.1 ppb)
      | Sum.inl none =>
        match morecore fuel0 s (nunitsOf n) with
        | none => none
        | some (s', none) => some (s', none)
        | some (s', some f) =>
          mallocLoopBest fuel0 s' (nunitsOf n) f ((s'.mem f).ptr) none) ∧
    (∀ T pvT, bfScan (nunitsOf n) C.1 none (z ++ w ++ [C]) = Sum.inr (T, pvT) →
      T.2 = nunitsOf n ∧
      ∃ L1 L2, z ++ w ++ [C] = L1 ++ T :: L2 ∧ ∀ b ∈ L1, b.2 ≠ nunitsOf n) ∧
    (∀ pb ppb, bfScan (nunitsOf n) C.1 none (z ++ w ++ [C]) = Sum.inl (some (pb, ppb)) →
      pb ∈ z ++ w ++ [C] ∧ nunitsOf n < pb.2 ∧
      (∀ b ∈ z ++ w ++ [C], nunitsOf n < b.2 → pb.2 ≤ b.2) ∧
      (∀ b ∈ z ++ w ++ [C], b.2 ≠ nunitsOf n)) ∧
    (bfScan (nunitsOf n) C.1 none (z ++ w ++ [C]) = Sum.inl none →
      ∀ b ∈ z ++ w ++ [C], b.2 < nunitsOf n) ∧
    (∀ pb ppb, (s.mem pb).size ≠ nunitsOf n →
      bestSplit s (nunitsOf n) pb ppb =
        ffResult s (nunitsOf n) (pb, (s.mem pb).size) ppb) := by
  refine ⟨mallocBest_eq h hwz hfp (by omega) fuel0, ?_, ?_, ?_, ?_⟩
  · intro T pvT hscan
    obtain ⟨L1, L2, hLd, hT, hno, _⟩ := bfScan_inr (z ++ w ++ [C]) C.1 none hscan
    exact ⟨hT, L1, L2, hLd, hno⟩
  · intro pb ppb hscan
    obtain ⟨hmem, hpb2, hmin, _, hnoex⟩ :=
      bfScan_min (z ++ w ++ [C]) C.1 none pb ppb hscan (by simp)
    rcases hmem with h1 | ⟨pvx, h2⟩
    · exact ⟨h1, hpb2, hmin, hnoex⟩
    · exact absurd h2 (by simp)
  · intro hscan
    exact (bfScan_inl_none (z ++ w ++ [C]) C.1 none hscan).2
  · intro pb ppb hne
    rw [ffResult, if_neg hne]
    rfl

/-- Claim C5, witness: on `bestSt` a 16-byte request (2 units) passes
over the first-fit 6-unit block at 2 and splits the smaller 4-unit block
at 9 — the smallest block larger than the request on the whole ring —
returning the reference 12 just past the carved header at 11. -/
theorem malloc_best_fit_w :
    mallocBest (48 + 3) bestSt 16 = some (bestSplit bestSt (nunitsOf 16) 9 2) ∧
    retOf (mallocBest 51 bestSt 16) = some (some 12) ∧
    ((9, 4) ∈ ([(2, 6), (9, 4)] ++ [] ++ [((0 : Nat), (0 : Nat))] : List Blk) ∧
      nunitsOf 16 < 4 ∧
      ∀ b ∈ ([(2, 6), (9, 4)] ++ [] ++ [((0 : Nat), (0 : Nat))] : List Blk),
        nunitsOf 16 < b.2 → 4 ≤ b.2) := by
  have hm := @malloc_best_fit bestSt [(0, 0), (2, 6), (9, 4)] [] bestSt_Inv
    [] [(2, 6), (9, 4)] (0, 0) rfl rfl 16 (by norm_num) 48
  have hscan : bfScan (nunitsOf 16) (((0, 0) : Blk)).1 none
      ([(2, 6), (9, 4)] ++ [] ++ [(0, 0)]) = Sum.inl (some ((9, 4), 2)) := by decide
  refine ⟨?_, rfl, ?_⟩
  · have h1 := hm.1
    simp only [hscan] at h1
    exact h1
  · have h3 := hm.2.2.1 (9, 4) 2 hscan
    exact ⟨h3.1, h3.2.1, h3.2.2.1⟩

/-! ### Claim C3: ring integrity across any operation sequence -/

/-- Claim C3: after any finite sequence of allocate/release/resize
operations from the pristine state (request sizes below the `unsigned`
truncation threshold), whenever the free list has been initialized the
ring is one circular chain: walking from the cursor for one revolution
visits each free block exactly once and returns to the cursor, the
addresses are strictly increasing except at the single wraparound, and
the cursor names a block currently on the ring. -/
theorem run_ring_integrity (L : Nat) (hL1 : 1 ≤ L) (hL2 : L < UMAX)
    (ops : List Op) (hgood : ∀ op ∈ ops, goodOp op)
    {g' : St × List Blk} (hrun : run ops (initSt L, []) = some g') :
    g'.1.freep = none ∨ ∃ fl, RingIntegrity g'.1 fl := by
  have hg0 : GhostOk (initSt L, []) := Or.inl ⟨⟨rfl, le_refl 1, hL1, hL2⟩, rfl⟩
  rcases run_ghostOk ops _ hg0 hgood g' hrun with ⟨⟨hfp, _, _, _⟩, _⟩ | ⟨fl, hinv⟩
  · exact Or.inl hfp
  · exact Or.inr ⟨fl, hinv.ringIntegrity⟩

/-- Claim C3, witness: one 16-byte allocation on a pristine 2048-unit
arena runs to completion, and the resulting state has an intact ring. -/
theorem run_ring_integrity_w :
    ∃ g', run [Op.alloc 16] (initSt 2048, []) = some g' ∧
      (g'.1.freep = none ∨ ∃ fl, RingIntegrity g'.1 fl) := by
  refine ⟨_, rfl, ?_⟩
  refine run_ring_integrity 2048 (by norm_num) (by norm_num [UMAX]) [Op.alloc 16] ?_ rfl
  intro op hop
  simp only [List.mem_singleton] at hop
  subst hop
  show (16 : Nat) ≤ 2 ^ 35
  norm_num

/-! ### Claim C6: resize semantics -/

/-- Claim C6: for a non-null reference to an outstanding allocation `B`
and `newSize > 0`, `resize` first allocates `newSize` bytes; if that
allocation fails the call returns NULL with the allocator state exactly
unchanged — the original block stays valid and unmodified; if it
succeeds, `min(newSize, oldUsableBytes)` bytes are copied from the old
payload into the new one, where `oldUsableBytes` is the old block's
recorded size in units minus one (the header) times the unit size, the
old block is then released, and the new reference is returned with the
invariant carried over. -/
theorem realloc_spec {s : St} {fl al : List Blk} (h : Inv s fl al)
    {u : List Blk} {B : Blk} {v : List Blk} (hal : al = u ++ B :: v)
    {size : Nat} (h1 : 1 ≤ size) (hb : size ≤ 2 ^ 35) {fuel : Nat}
    (hfuel : 2 * s.limit + 4 ≤ fuel) :
    reallocFirst fuel s (some (B.1 + 1)) size = some (s, none) ∨
    (∃ s3 np fl3, reallocFirst fuel s (some (B.1 + 1)) size = some (s3, some np) ∧
      1 ≤ np - 1 ∧
      Inv s3 fl3 ((np - 1, nunitsOf size) :: (u ++ v)) ∧
      s3.data = memcpyB s.data (np * unitSize) ((B.1 + 1) * unitSize)
        (min size ((B.2 - 1) * unitSize)) ∧
      s3.limit = s.limit) :=
  reallocFirst_inv h hal h1 hb hfuel

/-- Claim C6, witness: resizing the 3-unit allocation at 5 on `relSt` to
16 bytes allocates a fresh 2-unit block, copies
`min(16, (3 - 1) * 16) = 16` payload bytes, and releases the old
block. -/
theorem realloc_spec_w :
    reallocFirst 204 relSt (some ((5 : Nat) + 1)) 16 = some (relSt, none) ∨
    (∃ s3 np fl3, reallocFirst 204 relSt (some ((5 : Nat) + 1)) 16 =
        some (s3, some np) ∧
      1 ≤ np - 1 ∧
      Inv s3 fl3 ((np - 1, nunitsOf 16) :: ([] ++ [])) ∧
      s3.data = memcpyB relSt.data (np * unitSize) (((5 : Nat) + 1) * unitSize)
        (min 16 (((3 : Nat) - 1) * unitSize)) ∧
      s3.limit = relSt.limit) :=
  @realloc_spec relSt [(0, 0), (1, 4)] [(5, 3)] relSt_Inv [] (5, 3) [] rfl 16
    (by norm_num) (by norm_num) 204 (by norm_num [relSt])

end KRMalloc
